import Mathlib

/-!
Boolean and float codecs of `tsdb/engine/pd1`: a shallow embedding of `bool.go` and `float.go`,
definitions first, then the theorems about them.

* Bytes are `Fin 256`; byte buffers are lists of bytes.
* Go machine integers are natural numbers (or integers, for `int`) with the
  wrap-around written out where the source can overflow.
* A `float64` is represented by its 64-bit pattern: the source only ever
  touches floats through `math.Float64bits`, `math.Float64frombits` and
  `math.IsNaN`, all of which are functions of the bit pattern.
* A Go panic (slice index out of range) is `none`.
-/

namespace pd1

/-- A byte. -/
abbrev Byte := Fin 256

/-- Conversion `byte(x)`: keep the low eight bits. -/
def toByte (x : Nat) : Byte := ⟨x % 256, Nat.mod_lt _ (by decide)⟩

/-- Conversion `int(x)` of a `uint64` to the 64-bit signed `int`. -/
def toInt64 (x : Nat) : Int :=
  if x % 2 ^ 64 < 2 ^ 63 then ((x % 2 ^ 64 : Nat) : Int) else ((x % 2 ^ 64 : Nat) : Int) - 2 ^ 64

/-! ## Unsigned varints (`encoding/binary`) -/

/-- Modelled from the spec: the loop of `binary.PutUvarint` from the Go standard
library, which is not part of the repository ("standard continuation-bit-per-byte
little-endian-base-128 scheme"): `for x >= 0x80 { buf[i] = byte(x) | 0x80; x >>= 7; i++ }`
followed by `buf[i] = byte(x)`. The first argument bounds the number of iterations. -/
def PutUvarintLoop : Nat → Nat → List Byte
  | 0, x => [toByte x]
  | fuel + 1, x =>
    if x ≥ 0x80 then toByte (x % 256 ||| 0x80) :: PutUvarintLoop fuel (x >>> 7)
    else [toByte x]

/-- Modelled from the spec: `binary.PutUvarint` applied to a `uint64`; the result is the
written part `buf[:n]` of the buffer. A `uint64` needs at most ten bytes. -/
def PutUvarint (x : Nat) : List Byte := PutUvarintLoop 10 (x % 2 ^ 64)

/-- Modelled from the spec: the loop `for i, b := range buf` of `binary.Uvarint` from the
Go standard library, with the accumulator `x`, the shift `s` and the index `i`. The
result is the decoded value and the number of bytes read (`0`: buffer too small,
negative: overflow). -/
def UvarintLoop : List Byte → Nat → Nat → Nat → Nat × Int
  | [], _, _, _ => (0, 0)
  | b :: rest, x, s, i =>
    if b.val < 0x80 then
      if i > 9 ∨ (i = 9 ∧ b.val > 1) then (0, -((i : Int) + 1))
      else ((x ||| (b.val <<< s) % 2 ^ 64), (i : Int) + 1)
    else UvarintLoop rest (x ||| ((b.val &&& 0x7f) <<< s) % 2 ^ 64) (s + 7) (i + 1)

/-- Modelled from the spec: `binary.Uvarint`. -/
def Uvarint (buf : List Byte) : Nat × Int := UvarintLoop buf 0 0 0

/-! ## `bool.go` -/

/-- The struct `boolEncoder`: the encoded bytes, the current byte, the number of bools
packed into it and the total number of bools written. -/
structure boolEncoder where
  bytes : List Byte
  b : Nat
  i : Nat
  n : Nat
  deriving DecidableEq, Repr

/-- The function `NewBoolEncoder`: the zero value of the struct. -/
def NewBoolEncoder : boolEncoder := { bytes := [], b := 0, i := 0, n := 0 }

/-- The padding loop of `flush`: `for e.i < 8 { e.b = e.b << 1; e.i += 1 }`. The first
argument bounds the number of iterations. -/
def boolEncoder.flushPad : Nat → boolEncoder → boolEncoder
  | 0, e => e
  | fuel + 1, e =>
    if e.i < 8 then boolEncoder.flushPad fuel { e with b := (e.b <<< 1) % 256, i := e.i + 1 }
    else e

/-- The method `flush`: pad the current byte, then `if e.i > 0` append it and reset. -/
def boolEncoder.flush (e : boolEncoder) : boolEncoder :=
  let e1 := boolEncoder.flushPad (8 - e.i) e
  if e1.i > 0 then { e1 with bytes := e1.bytes ++ [toByte e1.b], b := 0, i := 0 }
  else e1

/-- The method `Write`. -/
def boolEncoder.Write (e : boolEncoder) (v : Bool) : boolEncoder :=
  let e1 := if e.i ≥ 8 then e.flush else e
  let b1 := (e1.b <<< 1) % 256
  let b2 := if v then b1 ||| 1 else b1
  { e1 with b := b2, i := e1.i + 1, n := e1.n + 1 }

/-- The method `Bytes`: the returned slice and the encoder afterwards. The constant
`EncodingBitPacked` is declared outside the two source files and is a parameter. -/
def boolEncoder.Bytes (EncodingBitPacked : Nat) (e : boolEncoder) : List Byte × boolEncoder :=
  let e1 := e.flush
  (toByte ((EncodingBitPacked % 256) <<< 4) :: (PutUvarint e1.n ++ e1.bytes), e1)

/-- All the `Write` calls of a sequence, in order. -/
def boolEncoder.writeAll (e : boolEncoder) (s : List Bool) : boolEncoder :=
  s.foldl boolEncoder.Write e

/-- The struct `boolDecoder`. -/
structure boolDecoder where
  b : List Byte
  i : Int
  n : Int
  deriving DecidableEq, Repr

/-- The function `NewBoolDecoder`; `none` when a slice expression panics. -/
def NewBoolDecoder (b : List Byte) : Option boolDecoder :=
  match b with
  | [] => none
  | _ :: b1 =>
    let r := Uvarint b1
    if r.2 < 0 ∨ (b1.length : Int) < r.2 then none
    else some { b := b1.drop r.2.toNat, i := -1, n := toInt64 r.1 }

/-- The method `Next`: the returned flag and the decoder afterwards. -/
def boolDecoder.Next (e : boolDecoder) : Bool × boolDecoder :=
  let e1 := { e with i := e.i + 1 }
  (decide (e1.i < e1.n), e1)

/-- The method `Read`; `none` when the index expression `e.b[idx]` panics. -/
def boolDecoder.Read (e : boolDecoder) : Option Bool :=
  let idx := Int.tdiv e.i 8
  let pos := (8 - Int.tmod e.i 8) - 1
  let mask := (1 <<< pos.toNat) % 256
  if idx < 0 then none
  else
    match e.b.get? idx.toNat with
    | none => none
    | some v => some (decide (v.val &&& mask = mask))

/-- The decoder after `k` calls of `Next`. -/
def boolDecoder.nextN : Nat → boolDecoder → boolDecoder
  | 0, e => e
  | k + 1, e => boolDecoder.nextN k e.Next.2

/-- Bit `7 - (k mod 8)` of byte `k / 8` of a packed region: the place of the `k`-th
boolean in the wire format. -/
def bitAt (bs : List Byte) (k : Nat) : Bool := (bs.getD (k / 8) 0).val.testBit (7 - k % 8)

/-- The state of a `boolEncoder` that has been fed the sequence `s` from the start: the
full bytes hold the leading bits of `s` most significant bit first, the current byte
holds the remaining `i` bits in its low end. -/
structure WInv (e : boolEncoder) (s : List Bool) : Prop where
  n_eq : e.n = s.length
  i_le : e.i ≤ 8
  len_eq : 8 * e.bytes.length + e.i = s.length
  i_pos : s ≠ [] → 0 < e.i
  b_lt : e.b < 2 ^ e.i
  full : ∀ k, k < 8 * e.bytes.length →
    s[k]? = some ((e.bytes.getD (k / 8) 0).val.testBit (7 - k % 8))
  part : ∀ j, j < e.i → s[8 * e.bytes.length + j]? = some (e.b.testBit (e.i - 1 - j))

/-! ## Bit streams (`github.com/dgryski/go-bitstream`) and zero counts (`go-bits`) -/

/-- The only error the bit reader can return over an in-memory buffer: `io.EOF`. -/
inductive ReadErr where
  | EOF
  deriving DecidableEq, Repr

deriving instance DecidableEq for Except

/-- Modelled from the spec: the `BitWriter` of the external package `go-bitstream`
("`WriteBit(0|1)`, `WriteBits(value, widthInBits ≤ 64)`, `Flush(padBit)`"), writing into
the `bytes.Buffer` of the encoder: `out` is the buffer, `b` the byte under construction
and `count` the number of free bits in it. -/
structure BitWriter where
  out : List Byte
  b : Nat
  count : Nat
  deriving DecidableEq, Repr

/-- Modelled from the spec: `bitstream.NewWriter`, an empty byte with eight free bits. -/
def BitWriter.NewWriter : BitWriter := { out := [], b := 0, count := 8 }

/-- Modelled from the spec: `WriteBit`, which sets bit `count - 1` of the current byte and
emits the byte when it is full. -/
def BitWriter.WriteBit (w : BitWriter) (bit : Bool) : BitWriter :=
  let b1 := if bit then (w.b ||| (1 <<< ((w.count + 255) % 256)) % 256) else w.b
  let c1 := (w.count + 255) % 256
  if c1 = 0 then { out := w.out ++ [toByte b1], b := 0, count := 8 }
  else { w with b := b1, count := c1 }

/-- Modelled from the spec: `WriteByte`, which writes eight bits regardless of alignment. -/
def BitWriter.WriteByte (w : BitWriter) (byt : Nat) : BitWriter :=
  let b1 := w.b ||| (byt % 256) >>> ((8 + 256 - w.count % 256) % 256)
  { w with out := w.out ++ [toByte b1], b := ((byt % 256) <<< (w.count % 256)) % 256 }

/-- Modelled from the spec: the first loop of `WriteBits`,
`for nbits >= 8 { WriteByte(byte(u >> 56)); u <<= 8; nbits -= 8 }`. -/
def BitWriter.writeBitsBytes : Nat → BitWriter → Nat → Int → BitWriter × Nat × Int
  | 0, w, u, nbits => (w, u, nbits)
  | fuel + 1, w, u, nbits =>
    if nbits ≥ 8 then
      BitWriter.writeBitsBytes fuel (w.WriteByte (u >>> 56)) ((u <<< 8) % 2 ^ 64) (nbits - 8)
    else (w, u, nbits)

/-- Modelled from the spec: the second loop of `WriteBits`,
`for nbits > 0 { WriteBit((u >> 63) == 1); u <<= 1; nbits-- }`. -/
def BitWriter.writeBitsBits : Nat → BitWriter → Nat → Int → BitWriter
  | 0, w, _, _ => w
  | fuel + 1, w, u, nbits =>
    if nbits > 0 then
      BitWriter.writeBitsBits fuel (w.WriteBit (decide (u >>> 63 = 1))) ((u <<< 1) % 2 ^ 64)
        (nbits - 1)
    else w

/-- Shift `u << k` of a `uint64` by a `uint64` count: zero once `k ≥ 64`. -/
def shl64 (u k : Nat) : Nat := if k ≥ 64 then 0 else (u <<< k) % 2 ^ 64

/-- Shift `u >> k` of a `uint64` by a `uint64` count: zero once `k ≥ 64`. -/
def shr64 (u k : Nat) : Nat := if k ≥ 64 then 0 else u >>> k

/-- Subtraction of two `uint64` values. -/
def sub64 (a b : Nat) : Nat := (a % 2 ^ 64 + (2 ^ 64 - b % 2 ^ 64)) % 2 ^ 64

/-- Conversion `uint(n)` of an `int`. -/
def toUint64 (n : Int) : Nat := (n % 2 ^ 64).toNat

/-- Modelled from the spec: `WriteBits(u, nbits)`, "writes the `widthInBits`
least-significant bits of `value`, most-significant-of-those-first": the value is first
shifted up by `64 - uint(nbits)`, then written bytewise and bitwise. -/
def BitWriter.WriteBits (w : BitWriter) (u : Nat) (nbits : Int) : BitWriter :=
  let u1 := shl64 (u % 2 ^ 64) (sub64 64 (toUint64 nbits))
  let r := BitWriter.writeBitsBytes nbits.toNat w u1 nbits
  BitWriter.writeBitsBits r.2.2.toNat r.1 r.2.1 r.2.2

/-- Modelled from the spec: the loop of `Flush`, `for b.count != 8 { WriteBit(bit) }`. -/
def BitWriter.flushLoop : Nat → BitWriter → Bool → BitWriter
  | 0, w, _ => w
  | fuel + 1, w, bit =>
    if w.count ≠ 8 then BitWriter.flushLoop fuel (w.WriteBit bit) bit else w

/-- Modelled from the spec: `Flush(padBit)`, which pads to a byte boundary. -/
def BitWriter.Flush (w : BitWriter) (bit : Bool) : BitWriter :=
  BitWriter.flushLoop 256 w bit

/-- Modelled from the spec: the `BitReader` of the external package `go-bitstream` over a
`bytes.Reader`: `r` is the unread rest of the buffer, `b` the current byte (its unread
bits on top) and `count` the number of unread bits in it. -/
structure BitReader where
  r : List Byte
  b : Nat
  count : Nat
  deriving DecidableEq, Repr

/-- Modelled from the spec: `bitstream.NewReader(bytes.NewReader(b))`. -/
def BitReader.NewReader (b : List Byte) : BitReader := { r := b, b := 0, count := 0 }

/-- Modelled from the spec: `ReadBit`, the result (a bit or an end-of-input error) and the
reader afterwards. -/
def BitReader.ReadBit (rd : BitReader) : Except ReadErr Bool × BitReader :=
  if rd.count = 0 then
    match rd.r with
    | [] => (.error .EOF, rd)
    | x :: rest => (.ok (decide (x.val &&& 0x80 ≠ 0)), { r := rest, b := (x.val <<< 1) % 256, count := 7 })
  else
    (.ok (decide (rd.b &&& 0x80 ≠ 0)), { rd with b := (rd.b <<< 1) % 256, count := (rd.count + 255) % 256 })

/-- Modelled from the spec: `ReadByte`, eight bits regardless of alignment. -/
def BitReader.ReadByte (rd : BitReader) : Except ReadErr Nat × BitReader :=
  if rd.count = 0 then
    match rd.r with
    | [] => (.error .EOF, { rd with b := 0 })
    | x :: rest => (.ok x.val, { rd with r := rest, b := x.val })
  else
    match rd.r with
    | [] => (.error .EOF, rd)
    | x :: rest =>
      (.ok ((rd.b ||| x.val >>> (rd.count % 256)) % 256),
        { rd with r := rest, b := (x.val <<< ((8 + 256 - rd.count % 256) % 256)) % 256 })

/-- Modelled from the spec: the first loop of `ReadBits`,
`for nbits >= 8 { byt, err := ReadByte(); ...; u = (u << 8) | uint64(byt); nbits -= 8 }`. -/
def BitReader.readBitsBytes : Nat → BitReader → Nat → Int → Except ReadErr (Nat × Int) × BitReader
  | 0, rd, u, nbits => (.ok (u, nbits), rd)
  | fuel + 1, rd, u, nbits =>
    if nbits ≥ 8 then
      match rd.ReadByte with
      | (.error e, rd1) => (.error e, rd1)
      | (.ok byt, rd1) =>
        BitReader.readBitsBytes fuel rd1 (((u <<< 8) % 2 ^ 64) ||| byt) (nbits - 8)
    else (.ok (u, nbits), rd)

/-- Modelled from the spec: the second loop of `ReadBits`,
`for nbits > 0 { bit, err := ReadBit(); ...; u <<= 1; if bit { u |= 1 }; nbits-- }`. -/
def BitReader.readBitsBits : Nat → BitReader → Nat → Int → Except ReadErr Nat × BitReader
  | 0, rd, u, _ => (.ok u, rd)
  | fuel + 1, rd, u, nbits =>
    if nbits > 0 then
      match rd.ReadBit with
      | (.error e, rd1) => (.error e, rd1)
      | (.ok bit, rd1) =>
        let u1 := (u <<< 1) % 2 ^ 64
        BitReader.readBitsBits fuel rd1 (if bit then u1 ||| 1 else u1) (nbits - 1)
    else (.ok u, rd)

/-- Modelled from the spec: `ReadBits(nbits)`, "returning the bits as an unsigned integer
or an end-of-input error". -/
def BitReader.ReadBits (rd : BitReader) (nbits : Int) : Except ReadErr Nat × BitReader :=
  match BitReader.readBitsBytes nbits.toNat rd 0 nbits with
  | (.error e, rd1) => (.error e, rd1)
  | (.ok (u, n1), rd1) => BitReader.readBitsBits n1.toNat rd1 u n1

/-- The loop behind `bits.Clz`: test the bits from position `fuel - 1` downwards. -/
def clzLoop : Nat → Nat → Nat
  | 0, _ => 0
  | fuel + 1, x => if (x >>> fuel) % 2 = 1 then 0 else 1 + clzLoop fuel x

/-- Modelled from the spec: `bits.Clz` of the external package `go-bits`, the count of
leading zero bits of a 64-bit word (`64` for zero). -/
def Clz (x : Nat) : Nat := clzLoop 64 (x % 2 ^ 64)

/-- The loop behind `bits.Ctz`: test the bits from position `0` upwards. -/
def ctzLoop : Nat → Nat → Nat
  | 0, _ => 0
  | fuel + 1, x => if x % 2 = 1 then 0 else 1 + ctzLoop fuel (x / 2)

/-- Modelled from the spec: `bits.Ctz` of the external package `go-bits`, the count of
trailing zero bits of a 64-bit word (`64` for zero). -/
def Ctz (x : Nat) : Nat := ctzLoop 64 (x % 2 ^ 64)

/-- The predicate `math.IsNaN` on the bit pattern of a `float64`: all eleven exponent bits
set and a non-zero mantissa. -/
def IsNaN (v : Nat) : Bool := decide ((v >>> 52) % 2 ^ 11 = 2047 ∧ v % 2 ^ 52 ≠ 0)

/-- The bit pattern of `math.NaN()`, the constant `uvnan` of package `math`. -/
def NaN : Nat := 0x7FF8000000000001

/-- The value `^uint64(0)`. -/
def allOnes : Nat := 2 ^ 64 - 1

/-- The value of a byte sequence read big-endian. -/
def beUint (bs : List Byte) : Nat := bs.foldl (fun acc x => acc * 256 + x.val) 0

/-! ## `float.go` -/

/-- The struct `FloatEncoder`; `bw` holds the bit writer together with the buffer `buf` it
writes to, and `val` is the bit pattern of the running value. -/
structure FloatEncoder where
  val : Nat
  leading : Nat
  trailing : Nat
  bw : BitWriter
  first : Bool
  finished : Bool
  deriving DecidableEq, Repr

/-- The function `NewFloatEncoder`. -/
def NewFloatEncoder : FloatEncoder :=
  { val := 0, leading := allOnes, trailing := 0, bw := BitWriter.NewWriter,
    first := true, finished := false }

/-- The method `Bytes` of the encoder: the contents of the buffer. -/
def FloatEncoder.Bytes (s : FloatEncoder) : List Byte := s.bw.out

/-- The method `Push`, on the bit pattern `v` of the pushed value. -/
def FloatEncoder.Push (s : FloatEncoder) (v : Nat) : FloatEncoder :=
  if s.first then
    { s with val := v, first := false, bw := s.bw.WriteBits v 64 }
  else
    let vDelta := v ^^^ s.val
    if vDelta = 0 then
      { s with bw := s.bw.WriteBit false, val := v }
    else
      let bw1 := s.bw.WriteBit true
      let leading := Clz vDelta
      let trailing := Ctz vDelta
      if s.leading ≠ allOnes ∧ leading ≥ s.leading ∧ trailing ≥ s.trailing then
        let bw2 := bw1.WriteBit false
        let bw3 := bw2.WriteBits (shr64 vDelta s.trailing)
          (64 - toInt64 s.leading - toInt64 s.trailing)
        { s with bw := bw3, val := v }
      else
        let bw2 := bw1.WriteBit true
        let bw3 := bw2.WriteBits leading 5
        let sigbits := sub64 (sub64 64 leading) trailing
        let bw4 := bw3.WriteBits sigbits 6
        let bw5 := bw4.WriteBits (shr64 vDelta trailing) (toInt64 sigbits)
        { s with leading := leading, trailing := trailing, bw := bw5, val := v }

/-- The method `Finish`. -/
def FloatEncoder.Finish (s : FloatEncoder) : FloatEncoder :=
  if ¬ s.finished then
    let s1 := s.Push NaN
    { s1 with bw := s1.bw.Flush false, finished := true }
  else s

/-- All the `Push` calls of a sequence, in order. -/
def FloatEncoder.pushAll (s : FloatEncoder) (vs : List Nat) : FloatEncoder :=
  vs.foldl FloatEncoder.Push s

/-- The struct `FloatDecoder`; `val` is the bit pattern of the current value and `err`
is `none` for a nil error. -/
structure FloatDecoder where
  val : Nat
  leading : Nat
  trailing : Nat
  br : BitReader
  b : List Byte
  first : Bool
  finished : Bool
  err : Option ReadErr
  deriving DecidableEq, Repr

/-- The function `NewFloatDecoder`. -/
def NewFloatDecoder (b : List Byte) : Except ReadErr FloatDecoder :=
  match (BitReader.NewReader b).ReadBits 64 with
  | (.error e, _) => .error e
  | (.ok v, br) =>
    .ok { val := v, leading := 0, trailing := 0, br := br, b := b, first := true,
          finished := false, err := none }

/-- The tail of `Next` shared by the two window cases (from `mbits := int(64 - it.leading
- it.trailing)` on), run on the decoder with its window and reader already updated. -/
def FloatDecoder.nextPayload (it : FloatDecoder) : Bool × FloatDecoder :=
  let mbits := toInt64 (sub64 (sub64 64 it.leading) it.trailing)
  match it.br.ReadBits mbits with
  | (.error e, br1) => (false, { it with br := br1, err := some e })
  | (.ok bits, br1) =>
    let vbits := it.val ^^^ shl64 bits it.trailing
    if IsNaN vbits then (false, { it with br := br1, finished := true })
    else (true, { it with br := br1, val := vbits })

/-- The method `Next`: the returned flag and the decoder afterwards. -/
def FloatDecoder.Next (it : FloatDecoder) : Bool × FloatDecoder :=
  if it.err ≠ none ∨ it.finished then (false, it)
  else if it.first then (true, { it with first := false })
  else
    match it.br.ReadBit with
    | (.error e, br1) => (false, { it with br := br1, err := some e })
    | (.ok false, br1) => (true, { it with br := br1 })
    | (.ok true, br1) =>
      match br1.ReadBit with
      | (.error e, br2) => (false, { it with br := br2, err := some e })
      | (.ok false, br2) => FloatDecoder.nextPayload { it with br := br2 }
      | (.ok true, br2) =>
        match br2.ReadBits 5 with
        | (.error e, br3) => (false, { it with br := br3, err := some e })
        | (.ok bits, br3) =>
          match br3.ReadBits 6 with
          | (.error e, br4) => (false, { it with leading := bits, br := br4, err := some e })
          | (.ok mbits, br4) =>
            FloatDecoder.nextPayload
              { it with leading := bits, trailing := sub64 (sub64 64 bits) mbits, br := br4 }

/-- The method `Values`. -/
def FloatDecoder.Values (it : FloatDecoder) : Nat := it.val

/-- The method `Err`. -/
def FloatDecoder.Err (it : FloatDecoder) : Option ReadErr := it.err

/-- The decoder after `k` calls of `Next`. -/
def FloatDecoder.nextN : Nat → FloatDecoder → FloatDecoder
  | 0, it => it
  | k + 1, it => FloatDecoder.nextN k it.Next.2

/-- What a call of `Next` started in the state `it` guarantees about its result `r`: a
false return leaves exactly one of "error set" and "finished set, no error"; a true return
leaves neither, and is either the first call, or ends with a successfully read control bit
`0`, or ends with a successfully read payload that gives a non-NaN value; and the finished
flag is only ever set by decoding a NaN bit pattern. -/
def NextPost (it : FloatDecoder) (r : Bool × FloatDecoder) : Prop :=
  (r.1 = false → Xor' (r.2.Err ≠ none) (r.2.finished = true ∧ r.2.Err = none)) ∧
  (r.1 = true → r.2.Err = none ∧ r.2.finished = false) ∧
  (r.2.finished = true → it.finished = true ∨
    ∃ rd bits, BitReader.ReadBits rd (toInt64 (sub64 (sub64 64 r.2.leading) r.2.trailing)) =
        (.ok bits, r.2.br) ∧
      IsNaN (it.val ^^^ shl64 bits r.2.trailing) = true) ∧
  (r.1 = true → it.first = true ∨
    (it.br.ReadBit = (.ok false, r.2.br) ∧ r.2.Values = it.Values) ∨
    ∃ rd bits, BitReader.ReadBits rd (toInt64 (sub64 (sub64 64 r.2.leading) r.2.trailing)) =
        (.ok bits, r.2.br) ∧
      r.2.Values = it.val ^^^ shl64 bits r.2.trailing ∧ IsNaN r.2.Values = false)

/-! ## Bit streams as lists of bits -/

/-- The `n` least significant bits of `u`, the most significant of them first. -/
def lowBits : Nat → Nat → List Bool
  | 0, _ => []
  | n + 1, u => u.testBit n :: lowBits n u

/-- The eight bits of a byte, most significant first. -/
def byteBits (x : Nat) : List Bool := lowBits 8 x

/-- The bits of a byte sequence in stream order. -/
def bytesBits : List Byte → List Bool
  | [] => []
  | x :: bs => byteBits x.val ++ bytesBits bs

/-- The bit stream a writer has produced so far: the bytes already in the buffer, then the
occupied top bits of the byte under construction. -/
def BitWriter.bits (w : BitWriter) : List Bool :=
  bytesBits w.out ++ (byteBits w.b).take (8 - w.count)

/-- The states a `BitWriter` can be in: between one and eight free bits in the current
byte, all of them still zero. -/
def BitWriter.WF (w : BitWriter) : Prop :=
  1 ≤ w.count ∧ w.count ≤ 8 ∧ w.b < 256 ∧ w.b % 2 ^ w.count = 0

instance instBitWriterWF (w : BitWriter) : Decidable w.WF := by
  unfold BitWriter.WF
  infer_instance

/-- The number of bits a writer has produced. -/
def BitWriter.nbits (w : BitWriter) : Nat := 8 * w.out.length + (8 - w.count)

/-- The bits a writer has produced, read as one big-endian number. -/
def BitWriter.value (w : BitWriter) : Nat :=
  beUint w.out * 2 ^ (8 - w.count) + w.b / 2 ^ w.count

/-- The bits a reader has not consumed yet: the unread top bits of the current byte, then
the unread bytes. -/
def BitReader.bits (rd : BitReader) : List Bool :=
  (byteBits rd.b).take rd.count ++ bytesBits rd.r

/-- The states a `BitReader` can be in: at most seven unread bits in the current byte,
which sit on top of it with zeros below. -/
def BitReader.WF (rd : BitReader) : Prop :=
  rd.count ≤ 7 ∧ rd.b < 256 ∧ (rd.count ≠ 0 → rd.b % 2 ^ (8 - rd.count) = 0)

instance instBitReaderWF (rd : BitReader) : Decidable rd.WF := by
  unfold BitReader.WF
  infer_instance

/-- The number of bits a reader has not consumed yet. -/
def BitReader.nbits (rd : BitReader) : Nat := rd.count + 8 * rd.r.length

/-- The unconsumed bits of a reader, read as one big-endian number. -/
def BitReader.value (rd : BitReader) : Nat :=
  (rd.b / 2 ^ (8 - rd.count)) * 2 ^ (8 * rd.r.length) + beUint rd.r

/-! ## Records of the float stream -/

/-- The branch of `Push` that opens a new window: the encoder is past its first value, the
value differs from the running one and the stored window is unset or too narrow. -/
def FloatEncoder.newWindow (s : FloatEncoder) (v : Nat) : Bool :=
  decide (s.first = false ∧ v ^^^ s.val ≠ 0 ∧
    ¬ (s.leading ≠ allOnes ∧ Clz (v ^^^ s.val) ≥ s.leading ∧ Ctz (v ^^^ s.val) ≥ s.trailing))

/-- The bits of the record that stands for `v` after the running value of `s`: the control
bit `0`, or `1 0` and the payload inside the stored window, or `1 1`, the five-bit and
six-bit window fields and the payload. -/
def FloatEncoder.record (s : FloatEncoder) (v : Nat) : List Bool :=
  if v ^^^ s.val = 0 then [false]
  else if s.leading ≠ allOnes ∧ Clz (v ^^^ s.val) ≥ s.leading ∧ Ctz (v ^^^ s.val) ≥ s.trailing then
    [true, false] ++ lowBits (64 - s.leading - s.trailing) (shr64 (v ^^^ s.val) s.trailing)
  else
    [true, true] ++ lowBits 5 (Clz (v ^^^ s.val)) ++
      lowBits 6 (64 - Clz (v ^^^ s.val) - Ctz (v ^^^ s.val)) ++
      lowBits (64 - Clz (v ^^^ s.val) - Ctz (v ^^^ s.val)) (shr64 (v ^^^ s.val) (Ctz (v ^^^ s.val)))

/-- The records of a sequence of values pushed one after the other. -/
def FloatEncoder.records : FloatEncoder → List Nat → List Bool
  | _, [] => []
  | s, v :: vs => s.record v ++ FloatEncoder.records (s.Push v) vs

/-- Every new-window record written while the values `vs` are pushed onto `s` has a
leading-zero count of at most 31 and at most 63 significant bits, so both fit their
five-bit and six-bit fields. -/
def FloatEncoder.recordsFit : FloatEncoder → List Nat → Bool
  | _, [] => true
  | s, v :: vs =>
    (if s.newWindow v then
        decide (Clz (v ^^^ s.val) ≤ 31 ∧ 64 - Clz (v ^^^ s.val) - Ctz (v ^^^ s.val) ≤ 63)
      else true) && FloatEncoder.recordsFit (s.Push v) vs

/-- The encoder states that `NewFloatEncoder`, `Push` (of a 64-bit pattern) and `Finish`
can produce. -/
inductive FloatEncoder.Reachable : FloatEncoder → Prop
  | new : FloatEncoder.Reachable NewFloatEncoder
  | push (s : FloatEncoder) (v : Nat) : FloatEncoder.Reachable s → v < 2 ^ 64 →
      FloatEncoder.Reachable (s.Push v)
  | finish (s : FloatEncoder) : FloatEncoder.Reachable s → FloatEncoder.Reachable s.Finish

/-- An encoder past its first value with a well-formed writer, a 64-bit running value and
a window that is unset or has `leading + trailing ≤ 64`. -/
structure FloatEncoder.Good (s : FloatEncoder) : Prop where
  wf : s.bw.WF
  val_lt : s.val < 2 ^ 64
  window : s.leading = allOnes ∨ s.leading + s.trailing ≤ 64

/-- A decoder that has followed an encoder: no error, not finished, past its first value,
the same running value, and the same window once the encoder has one. -/
structure Sim (s : FloatEncoder) (it : FloatDecoder) : Prop where
  good : s.Good
  not_first : s.first = false
  not_nan : IsNaN s.val = false
  err : it.err = none
  finished : it.finished = false
  first : it.first = false
  wf : it.br.WF
  val : it.val = s.val
  window : s.leading = allOnes ∨ (it.leading = s.leading ∧ it.trailing = s.trailing)

/-! ## Reads of the float decoder -/

/-- One of the reads that `Next` performs on the reader of `it` runs out of input with the
error `e`: the control bit, the second control bit, the five-bit or the six-bit window
field, or the payload, read with the stored window or with the window just read. -/
inductive FloatDecoder.ReadFails (it : FloatDecoder) (e : ReadErr) : Prop
  | control (br1 : BitReader) :
      it.br.ReadBit = (.error e, br1) → FloatDecoder.ReadFails it e
  | control2 (br1 br2 : BitReader) :
      it.br.ReadBit = (.ok true, br1) → br1.ReadBit = (.error e, br2) →
      FloatDecoder.ReadFails it e
  | leadingField (br1 br2 br3 : BitReader) :
      it.br.ReadBit = (.ok true, br1) → br1.ReadBit = (.ok true, br2) →
      br2.ReadBits 5 = (.error e, br3) → FloatDecoder.ReadFails it e
  | sigbitsField (br1 br2 br3 br4 : BitReader) (bits : Nat) :
      it.br.ReadBit = (.ok true, br1) → br1.ReadBit = (.ok true, br2) →
      br2.ReadBits 5 = (.ok bits, br3) → br3.ReadBits 6 = (.error e, br4) →
      FloatDecoder.ReadFails it e
  | payloadReuse (br1 br2 br3 : BitReader) :
      it.br.ReadBit = (.ok true, br1) → br1.ReadBit = (.ok false, br2) →
      br2.ReadBits (toInt64 (sub64 (sub64 64 it.leading) it.trailing)) = (.error e, br3) →
      FloatDecoder.ReadFails it e
  | payloadNew (br1 br2 br3 br4 br5 : BitReader) (bits mbits : Nat) :
      it.br.ReadBit = (.ok true, br1) → br1.ReadBit = (.ok true, br2) →
      br2.ReadBits 5 = (.ok bits, br3) → br3.ReadBits 6 = (.ok mbits, br4) →
      br4.ReadBits (toInt64 (sub64 (sub64 64 bits) (sub64 (sub64 64 bits) mbits))) =
        (.error e, br5) →
      FloatDecoder.ReadFails it e

/-- A short read: the call of `Next` on `it` gets to its reads (no error yet, not finished,
past the first value) and one of them runs out of input with the error `e`. -/
def FloatDecoder.ShortRead (it : FloatDecoder) (e : ReadErr) : Prop :=
  it.err = none ∧ it.finished = false ∧ it.first = false ∧ it.ReadFails e

/-- All the reads that `Next` performs on the reader of `it` succeed and the payload,
shifted by the trailing count and combined with the running value by XOR, is a NaN bit
pattern. -/
inductive FloatDecoder.ReadsNaN (it : FloatDecoder) : Prop
  | reuse (br1 br2 br3 : BitReader) (bits : Nat) :
      it.br.ReadBit = (.ok true, br1) → br1.ReadBit = (.ok false, br2) →
      br2.ReadBits (toInt64 (sub64 (sub64 64 it.leading) it.trailing)) = (.ok bits, br3) →
      IsNaN (it.val ^^^ shl64 bits it.trailing) = true → FloatDecoder.ReadsNaN it
  | newWindow (br1 br2 br3 br4 br5 : BitReader) (lbits mbits bits : Nat) :
      it.br.ReadBit = (.ok true, br1) → br1.ReadBit = (.ok true, br2) →
      br2.ReadBits 5 = (.ok lbits, br3) → br3.ReadBits 6 = (.ok mbits, br4) →
      br4.ReadBits (toInt64 (sub64 (sub64 64 lbits) (sub64 (sub64 64 lbits) mbits))) =
        (.ok bits, br5) →
      IsNaN (it.val ^^^ shl64 bits (sub64 (sub64 64 lbits) mbits)) = true →
      FloatDecoder.ReadsNaN it

/-- A decoded NaN: the call of `Next` on `it` gets to its reads (no error yet, not
finished, past the first value), they all succeed and the value they give is a NaN bit
pattern. -/
def FloatDecoder.DecodesNaN (it : FloatDecoder) : Prop :=
  it.err = none ∧ it.finished = false ∧ it.first = false ∧ it.ReadsNaN

/-! # Theorems -/

/-! ## Facts about bytes and bits -/

theorem toByte_val (x : Nat) : (toByte x).val = x % 256 := rfl

theorem toByte_mod (x : Nat) : toByte (x % 256) = toByte x := by
  apply Fin.ext
  simp [toByte_val]

theorem write_byte_eq : ∀ b, b < 128 → ∀ v : Bool,
    (if v = true then (b <<< 1) % 256 ||| 1 else (b <<< 1) % 256) = 2 * b + v.toNat := by
  decide

theorem mask_test_eq : ∀ v : Fin 256, ∀ p, p < 8 →
    decide (v.val &&& (1 <<< p) % 256 = (1 <<< p) % 256) = v.val.testBit p := by
  decide!

theorem cont_byte_eq : ∀ y, y < 256 →
    ((y ||| 128) % 256) &&& 127 = y % 128 ∧ ¬ ((y ||| 128) % 256 < 128) := by
  decide!

theorem or_shiftLeft_eq_add {a s : Nat} (x : Nat) (h : a < 2 ^ s) :
    a ||| x <<< s = a + x * 2 ^ s := by
  rw [Nat.shiftLeft_eq, Nat.lor_comm, Nat.mul_comm x, ← Nat.mul_add_lt_is_or h, Nat.add_comm]

/-! ## The boolean encoder -/

theorem flushPad_eq (k : Nat) (e : boolEncoder) (hb : e.b < 256) (h : e.i + k = 8) :
    boolEncoder.flushPad k e = { e with b := (e.b <<< k) % 256, i := 8 } := by
  induction k generalizing e with
  | zero =>
    cases e
    simp only [boolEncoder.flushPad, Nat.shiftLeft_zero] at *
    simp only [Nat.add_zero] at h
    simp [Nat.mod_eq_of_lt hb, h]
  | succ k ih =>
    have hi : e.i < 8 := by omega
    rw [boolEncoder.flushPad, if_pos hi, ih]
    · simp only [Nat.shiftLeft_eq, boolEncoder.mk.injEq, true_and, and_true]
      rw [Nat.mod_mul_mod, pow_succ]
      ring_nf
    · exact Nat.mod_lt _ (by decide)
    · simp only; omega

theorem flush_eq (e : boolEncoder) (hb : e.b < 256) (hi : e.i ≤ 8) :
    e.flush = { bytes := e.bytes ++ [toByte (e.b <<< (8 - e.i))], b := 0, i := 0, n := e.n } := by
  unfold boolEncoder.flush
  rw [flushPad_eq _ _ hb (by omega)]
  simp [toByte_mod]

theorem WInv_new : WInv NewBoolEncoder [] := by
  constructor <;> simp [NewBoolEncoder]

theorem WInv_b_lt_256 {e : boolEncoder} {s : List Bool} (h : WInv e s) : e.b < 256 :=
  lt_of_lt_of_le h.b_lt (by
    have := Nat.pow_le_pow_right (by decide : 0 < 2) h.i_le
    simpa using this)

theorem testBit_two_mul_add (b : Nat) (v : Bool) (j : Nat) :
    (2 * b + v.toNat).testBit (j + 1) = b.testBit j := by
  rw [Nat.testBit_succ]
  congr 1
  cases v <;> simp; omega

theorem testBit_two_mul_add_zero (b : Nat) (v : Bool) :
    (2 * b + v.toNat).testBit 0 = v := by
  cases v <;> simp [Nat.testBit_zero]; omega

theorem WInv_Write {e : boolEncoder} {s : List Bool} (h : WInv e s) (v : Bool) :
    WInv (e.Write v) (s ++ [v]) := by
  by_cases hi : e.i < 8
  · have hb : e.b < 128 := lt_of_lt_of_le h.b_lt (by
      have := Nat.pow_le_pow_right (by decide : 0 < 2) (Nat.le_of_lt_succ hi)
      simpa using this)
    have hw : e.Write v = { e with b := 2 * e.b + v.toNat, i := e.i + 1, n := e.n + 1 } := by
      unfold boolEncoder.Write
      rw [if_neg (by omega)]
      simp only [write_byte_eq e.b hb v]
    rw [hw]
    refine ⟨?_, ?_, ?_, ?_, ?_, ?_, ?_⟩
    · simp [h.n_eq]
    · simp only; omega
    · simp only [List.length_append, List.length_singleton]; have := h.len_eq; omega
    · intro _; simp
    · simp only
      have := h.b_lt
      rw [pow_succ]
      cases v <;> simp <;> omega
    · intro k hk
      simp only at hk ⊢
      rw [List.getElem?_append_left (by have := h.len_eq; omega)]
      exact h.full k hk
    · intro j hj
      simp only at hj ⊢
      by_cases hj2 : j < e.i
      · rw [List.getElem?_append_left (by have := h.len_eq; omega), h.part j hj2]
        have e1 : e.i + 1 - 1 - j = (e.i - 1 - j) + 1 := by omega
        rw [e1, testBit_two_mul_add]
      · have e1 : j = e.i := by omega
        subst e1
        have e2 : 8 * e.bytes.length + e.i = s.length := h.len_eq
        rw [e2]
        have e3 : e.i + 1 - 1 - e.i = 0 := by omega
        rw [e3, testBit_two_mul_add_zero]
        simp
  · have hi8 : e.i = 8 := by have := h.i_le; omega
    have hb := WInv_b_lt_256 h
    have hw : e.Write v =
        { bytes := e.bytes ++ [toByte e.b], b := v.toNat, i := 1, n := e.n + 1 } := by
      unfold boolEncoder.Write
      rw [if_pos (by omega), flush_eq e hb h.i_le]
      simp only [hi8, Nat.sub_self, Nat.shiftLeft_zero]
      cases v <;> simp
    rw [hw]
    have hlen := h.len_eq
    refine ⟨?_, ?_, ?_, ?_, ?_, ?_, ?_⟩
    · simp [h.n_eq]
    · simp
    · simp only [List.length_append, List.length_singleton]; omega
    · intro _; simp
    · cases v <;> simp
    · intro k hk
      simp only [List.length_append, List.length_singleton] at hk ⊢
      rw [List.getElem?_append_left (by omega)]
      by_cases hk2 : k < 8 * e.bytes.length
      · rw [h.full k hk2]
        have : k / 8 < e.bytes.length := by omega
        simp [List.getD_eq_getElem?_getD, List.getElem?_append_left this]
      · have e1 : k / 8 = e.bytes.length := by omega
        have e2 : k = 8 * e.bytes.length + k % 8 := by omega
        have e3 := h.part (k % 8) (by omega)
        rw [← e2] at e3
        rw [e3, e1]
        simp [List.getD_eq_getElem?_getD, toByte_val, Nat.mod_eq_of_lt hb, hi8]
    · intro j hj
      simp only [List.length_append, List.length_singleton] at hj ⊢
      have e1 : 8 * (e.bytes.length + 1) + j = s.length := by omega
      rw [e1]
      cases v <;> simp

theorem WInv_writeAll {e : boolEncoder} {s0 : List Bool} (h : WInv e s0) (s : List Bool) :
    WInv (e.writeAll s) (s0 ++ s) := by
  induction s generalizing e s0 with
  | nil => simpa [boolEncoder.writeAll] using h
  | cons v s ih =>
    have := ih (WInv_Write h v)
    simpa [boolEncoder.writeAll] using this

theorem WInv_fresh (s : List Bool) : WInv (NewBoolEncoder.writeAll s) s := by
  simpa using WInv_writeAll WInv_new s

theorem WInv_flush {e : boolEncoder} {s : List Bool} (h : WInv e s) :
    e.flush = { bytes := e.bytes ++ [toByte (e.b <<< (8 - e.i))], b := 0, i := 0, n := s.length } := by
  rw [flush_eq e (WInv_b_lt_256 h) h.i_le, h.n_eq]

theorem pad_val {e : boolEncoder} {s : List Bool} (h : WInv e s) :
    (toByte (e.b <<< (8 - e.i))).val = e.b <<< (8 - e.i) := by
  rw [toByte_val]
  apply Nat.mod_eq_of_lt
  rw [Nat.shiftLeft_eq]
  have h1 := h.b_lt
  have h2 := h.i_le
  calc e.b * 2 ^ (8 - e.i) < 2 ^ e.i * 2 ^ (8 - e.i) :=
        Nat.mul_lt_mul_of_pos_right h1 (by positivity)
    _ = 2 ^ 8 := by rw [← pow_add]; congr 1; omega
    _ = 256 := by norm_num

theorem packed_spec {e : boolEncoder} {s : List Bool} (h : WInv e s) (hne : s ≠ []) :
    e.flush.bytes.length = (s.length + 7) / 8 ∧
    (∀ k, k < s.length → s[k]? = some (bitAt e.flush.bytes k)) ∧
    (∀ k, s.length ≤ k → k < 8 * e.flush.bytes.length → bitAt e.flush.bytes k = false) := by
  have hlen := h.len_eq
  have hile := h.i_le
  have hipos := h.i_pos hne
  rw [WInv_flush h]
  simp only [List.length_append, List.length_singleton]
  refine ⟨by omega, ?_, ?_⟩
  · intro k hk
    by_cases hk2 : k < 8 * e.bytes.length
    · rw [h.full k hk2]
      have : k / 8 < e.bytes.length := by omega
      simp [bitAt, List.getD_eq_getElem?_getD, List.getElem?_append_left this]
    · have e1 : k / 8 = e.bytes.length := by omega
      have e2 : k = 8 * e.bytes.length + k % 8 := by omega
      have e3 := h.part (k % 8) (by omega)
      rw [← e2] at e3
      rw [e3, bitAt, e1]
      simp only [List.getD_eq_getElem?_getD, List.getElem?_concat_length, Option.getD_some,
        pad_val h, Nat.testBit_shiftLeft]
      have e4 : 7 - k % 8 ≥ 8 - e.i := by omega
      have e5 : 7 - k % 8 - (8 - e.i) = e.i - 1 - k % 8 := by omega
      simp [e4, e5]
  · intro k hk1 hk2
    have e1 : k / 8 = e.bytes.length := by omega
    rw [bitAt, e1]
    simp only [List.getD_eq_getElem?_getD, List.getElem?_concat_length, Option.getD_some,
      pad_val h, Nat.testBit_shiftLeft]
    have e4 : ¬ (7 - k % 8 ≥ 8 - e.i) := by omega
    simp [e4]

/-! ## Varints -/

theorem UvarintLoop_PutUvarintLoop (fuel : Nat) :
    ∀ (x acc i : Nat) (rest : List Byte), x < 2 ^ (7 * (fuel + 1)) → x * 2 ^ (7 * i) < 2 ^ 64 →
      acc < 2 ^ (7 * i) → i ≤ 9 →
      UvarintLoop (PutUvarintLoop fuel x ++ rest) acc (7 * i) i =
        (acc + x * 2 ^ (7 * i), ((i + (PutUvarintLoop fuel x).length : Nat) : Int)) := by
  have last : ∀ (x acc i : Nat) (rest : List Byte), x < 128 → x * 2 ^ (7 * i) < 2 ^ 64 →
      acc < 2 ^ (7 * i) → i ≤ 9 →
      UvarintLoop ([toByte x] ++ rest) acc (7 * i) i = (acc + x * 2 ^ (7 * i), ((i + 1 : Nat) : Int)) := by
    intro x acc i rest hx hfit hacc hi
    have hv : (toByte x).val = x := by rw [toByte_val]; omega
    have hx1 : i = 9 → x ≤ 1 := by
      intro h9
      subst h9
      by_contra hc
      have : 2 * 2 ^ (7 * 9) ≤ x * 2 ^ (7 * 9) := Nat.mul_le_mul_right _ (by omega)
      norm_num at this hfit
      omega
    simp only [List.singleton_append, UvarintLoop, hv]
    rw [if_pos hx, if_neg (by omega)]
    have hs : x <<< (7 * i) % 2 ^ 64 = x <<< (7 * i) := by
      rw [Nat.shiftLeft_eq]; exact Nat.mod_eq_of_lt hfit
    rw [hs, or_shiftLeft_eq_add x hacc]
    simp
  induction fuel with
  | zero =>
    intro x acc i rest hx hfit hacc hi
    simp only [PutUvarintLoop, List.length_singleton]
    exact last x acc i rest (by simpa using hx) hfit hacc hi
  | succ fuel ih =>
    intro x acc i rest hx hfit hacc hi
    by_cases hge : x ≥ 0x80
    · simp only [PutUvarintLoop, if_pos hge, List.cons_append, List.length_cons]
      have hy : x % 256 < 256 := Nat.mod_lt _ (by decide)
      obtain ⟨c1, c2⟩ := cont_byte_eq (x % 256) hy
      have hv : (toByte (x % 256 ||| 0x80)).val = (x % 256 ||| 128) % 256 := rfl
      have hmm : x % 256 % 128 = x % 128 := Nat.mod_mod_of_dvd x (by decide)
      have hi8 : i ≤ 8 := by
        by_contra hc
        have h9 : i = 9 := by omega
        subst h9
        have : 128 * 2 ^ (7 * 9) ≤ x * 2 ^ (7 * 9) := Nat.mul_le_mul_right _ hge
        norm_num at this hfit
        omega
      have hp : (2 : Nat) ^ (7 * (i + 1)) = 128 * 2 ^ (7 * i) := by
        rw [Nat.mul_add, pow_add]; norm_num; ring
      have hlow : (x % 128) * 2 ^ (7 * i) < 2 ^ 64 :=
        lt_of_le_of_lt (Nat.mul_le_mul_right _ (Nat.mod_le _ _)) hfit
      have hacc2 : acc + (x % 128) * 2 ^ (7 * i) < 2 ^ (7 * (i + 1)) := by
        rw [hp]
        have : x % 128 < 128 := Nat.mod_lt _ (by decide)
        nlinarith
      have hdiv : x = 128 * (x / 128) + x % 128 := (Nat.div_add_mod x 128).symm
      rw [UvarintLoop, if_neg (by rw [hv]; exact c2), hv, c1, hmm]
      have hs : (x % 128) <<< (7 * i) % 2 ^ 64 = (x % 128) <<< (7 * i) := by
        rw [Nat.shiftLeft_eq]; exact Nat.mod_eq_of_lt hlow
      rw [hs, or_shiftLeft_eq_add _ hacc]
      have e7 : 7 * i + 7 = 7 * (i + 1) := by ring
      rw [e7, Nat.shiftRight_eq_div_pow]
      have hx2 : x / 2 ^ 7 < 2 ^ (7 * (fuel + 1)) := by
        rw [Nat.div_lt_iff_lt_mul (by norm_num)]
        calc x < 2 ^ (7 * (fuel + 1 + 1)) := hx
          _ = 2 ^ (7 * (fuel + 1)) * 2 ^ 7 := by rw [← pow_add]; congr 1
      have hfit2 : x / 2 ^ 7 * 2 ^ (7 * (i + 1)) < 2 ^ 64 := by
        rw [hp]
        norm_num
        have : x / 128 * 128 ≤ x := Nat.div_mul_le_self x 128
        nlinarith
      rw [ih (x / 2 ^ 7) _ (i + 1) rest hx2 hfit2 hacc2 (by omega)]
      congr 1
      · rw [hp]; norm_num; nlinarith
      · push_cast; ring
    · have hlt : x < 128 := by omega
      simp only [PutUvarintLoop, if_neg hge, List.length_singleton]
      exact last x acc i rest hlt hfit hacc hi

theorem PutUvarintLoop_length_pos (fuel x : Nat) : 0 < (PutUvarintLoop fuel x).length := by
  cases fuel with
  | zero => simp [PutUvarintLoop]
  | succ f =>
    rw [PutUvarintLoop]
    split <;> simp

theorem Uvarint_PutUvarint (x : Nat) (rest : List Byte) (hx : x < 2 ^ 64) :
    Uvarint (PutUvarint x ++ rest) = (x, ((PutUvarint x).length : Int)) := by
  unfold Uvarint PutUvarint
  rw [Nat.mod_eq_of_lt hx]
  have h := UvarintLoop_PutUvarintLoop 10 x 0 0 rest
    (lt_of_lt_of_le hx (by norm_num)) (by simpa using hx) (by norm_num) (by norm_num)
  simpa using h

/-! ## The boolean decoder -/

theorem boolDecoder_nextN (k : Nat) (d : boolDecoder) :
    d.nextN k = { d with i := d.i + k } := by
  induction k generalizing d with
  | zero => simp [boolDecoder.nextN]
  | succ k ih =>
    rw [boolDecoder.nextN, ih]
    simp only [boolDecoder.Next, boolDecoder.mk.injEq, true_and, and_true]
    push_cast
    ring

theorem boolDecoder_Read_nat (bs : List Byte) (n : Int) (k : Nat) :
    boolDecoder.Read { b := bs, i := (k : Int), n := n } =
      (bs.get? (k / 8)).map (fun v => v.val.testBit (7 - k % 8)) := by
  have h1 : Int.tdiv (k : Int) 8 = ((k / 8 : Nat) : Int) := rfl
  have h2 : Int.tmod (k : Int) 8 = ((k % 8 : Nat) : Int) := rfl
  have h3 : ((8 : Int) - ((k % 8 : Nat) : Int) - 1).toNat = 7 - k % 8 := by omega
  have h4 : ¬ (((k / 8 : Nat) : Int) < 0) := by omega
  simp only [boolDecoder.Read, h1, h2, h3, if_neg h4, Int.toNat_ofNat]
  cases hg : bs.get? (k / 8) with
  | none => rfl
  | some v =>
    simp only [Option.map_some']
    rw [mask_test_eq v (7 - k % 8) (by omega)]

theorem NewBoolDecoder_Bytes (hdr : Byte) (n : Nat) (packed : List Byte) (hn : n < 2 ^ 63) :
    NewBoolDecoder (hdr :: (PutUvarint n ++ packed)) = some { b := packed, i := -1, n := (n : Int) } := by
  have hu := Uvarint_PutUvarint n packed (lt_trans hn (by norm_num))
  have h1 : ¬ ((((PutUvarint n).length : Int)) < 0 ∨
      (((PutUvarint n ++ packed).length : Nat) : Int) < ((PutUvarint n).length : Int)) := by
    simp only [List.length_append]
    omega
  have h2 : toInt64 n = (n : Int) := by
    unfold toInt64
    have : n % 2 ^ 64 = n := Nat.mod_eq_of_lt (lt_trans hn (by norm_num))
    rw [this, if_pos hn]
  simp only [NewBoolDecoder, hu, if_neg h1, Int.toNat_ofNat, List.drop_left, h2]

theorem decoder_steps (packed : List Byte) (n k : Nat) :
    (boolDecoder.nextN k { b := packed, i := -1, n := (n : Int) }).Next =
      (decide (k < n), { b := packed, i := (k : Int), n := (n : Int) }) := by
  rw [boolDecoder_nextN]
  simp only [boolDecoder.Next, Prod.mk.injEq, boolDecoder.mk.injEq, true_and, and_true]
  constructor
  · have e : (-1 : Int) + (k : Int) + 1 = (k : Int) := by ring
    rw [e]
    simp
  · ring

/-! ## Claims about the boolean codec -/

/-- C1. Boolean round trip: for every sequence `s` of booleans whose length fits the `int`
counter of the encoder, writing `s` to a fresh encoder, calling `Bytes` once and building
a decoder from the result succeeds; `Next` returns true on each of the first `len(s)`
calls, the `Read` that follows the `k`-th of them returns `s[k]`, and the call of `Next`
after those returns false. -/
theorem bool_round_trip (EncodingBitPacked : Nat) (s : List Bool) (hlen : s.length < 2 ^ 63) :
    ∃ d, NewBoolDecoder (boolEncoder.Bytes EncodingBitPacked (NewBoolEncoder.writeAll s)).1 = some d ∧
      (∀ k, k < s.length →
        (d.nextN k).Next.1 = true ∧ (d.nextN k).Next.2.Read = s[k]?) ∧
      (d.nextN s.length).Next.1 = false := by
  have hw := WInv_fresh s
  refine ⟨{ b := (NewBoolEncoder.writeAll s).flush.bytes, i := -1, n := (s.length : Int) }, ?_, ?_, ?_⟩
  · have hn : (NewBoolEncoder.writeAll s).flush.n = s.length := by rw [WInv_flush hw]
    simp only [boolEncoder.Bytes, hn]
    exact NewBoolDecoder_Bytes _ _ _ hlen
  · intro k hk
    have hne : s ≠ [] := by
      intro h0
      rw [h0] at hk
      simp at hk
    obtain ⟨p1, p2, _⟩ := packed_spec hw hne
    rw [decoder_steps]
    refine ⟨by simpa using hk, ?_⟩
    simp only
    rw [boolDecoder_Read_nat, p2 k hk]
    have hidx : k / 8 < (NewBoolEncoder.writeAll s).flush.bytes.length := by omega
    simp [bitAt, List.getD_eq_getElem?_getD, List.get?_eq_getElem?, List.getElem?_eq_getElem hidx]
  · rw [decoder_steps]
    simp

theorem bool_round_trip_witness :
    ∃ d, NewBoolDecoder (boolEncoder.Bytes 3 (NewBoolEncoder.writeAll [true, false, true, true])).1 = some d ∧
      (∀ k, k < [true, false, true, true].length →
        (d.nextN k).Next.1 = true ∧ (d.nextN k).Next.2.Read = [true, false, true, true][k]?) ∧
      (d.nextN [true, false, true, true].length).Next.1 = false :=
  bool_round_trip 3 [true, false, true, true] (by decide)

/-- C5. Boolean wire format: for a non-empty sequence `s` of `N` booleans, the first `Bytes`
call on the encoder fed with `s` returns the header byte `byte(EncodingBitPacked) << 4`
(low four bits zero), then the unsigned varint of `N`, then exactly `ceil(N/8)` packed
bytes; `s[k]` is bit `7 - (k mod 8)` of packed byte `k / 8`, and the bits of the last packed
byte beyond the `N`-th are zero. -/
theorem bool_wire_format (EncodingBitPacked : Nat) (s : List Bool) (hne : s ≠ [])
    (hlen : s.length < 2 ^ 63) :
    ∃ hdr packed,
      (boolEncoder.Bytes EncodingBitPacked (NewBoolEncoder.writeAll s)).1 =
        hdr :: (PutUvarint s.length ++ packed) ∧
      hdr = toByte ((EncodingBitPacked % 256) <<< 4) ∧ hdr.val % 16 = 0 ∧
      Uvarint (PutUvarint s.length) = (s.length, ((PutUvarint s.length).length : Int)) ∧
      packed.length = (s.length + 7) / 8 ∧
      (∀ k, k < s.length → s[k]? = some (bitAt packed k)) ∧
      (∀ k, s.length ≤ k → k < 8 * packed.length → bitAt packed k = false) := by
  have hw := WInv_fresh s
  obtain ⟨p1, p2, p3⟩ := packed_spec hw hne
  refine ⟨_, (NewBoolEncoder.writeAll s).flush.bytes, ?_, rfl, ?_, ?_, p1, p2, p3⟩
  · have hn : (NewBoolEncoder.writeAll s).flush.n = s.length := by rw [WInv_flush hw]
    simp only [boolEncoder.Bytes, hn]
  · rw [toByte_val, Nat.shiftLeft_eq]
    omega
  · have := Uvarint_PutUvarint s.length [] (lt_trans hlen (by norm_num))
    simpa using this

theorem bool_wire_format_witness :
    ∃ hdr packed,
      (boolEncoder.Bytes 3 (NewBoolEncoder.writeAll [true, false, true, true])).1 =
        hdr :: (PutUvarint [true, false, true, true].length ++ packed) ∧
      hdr = toByte ((3 % 256) <<< 4) ∧ hdr.val % 16 = 0 ∧
      Uvarint (PutUvarint [true, false, true, true].length) =
        ([true, false, true, true].length, ((PutUvarint [true, false, true, true].length).length : Int)) ∧
      packed.length = ([true, false, true, true].length + 7) / 8 ∧
      (∀ k, k < [true, false, true, true].length → [true, false, true, true][k]? = some (bitAt packed k)) ∧
      (∀ k, [true, false, true, true].length ≤ k → k < 8 * packed.length → bitAt packed k = false) :=
  bool_wire_format 3 [true, false, true, true] (by decide) (by decide)

/-- The concrete scenario of C5: `[true, false, true, true]` is encoded as the header byte,
the varint byte `0x04` and the packed byte `0xB0`. -/
theorem scenario_A_bytes (EncodingBitPacked : Nat) :
    (boolEncoder.Bytes EncodingBitPacked (NewBoolEncoder.writeAll [true, false, true, true])).1 =
      [toByte ((EncodingBitPacked % 256) <<< 4), 0x04, 0xB0] := by
  simp only [boolEncoder.Bytes, List.cons.injEq, true_and]
  decide

/-- C4 (fails on the code). After any sequence of `Write` calls on a fresh encoder, the
second of two consecutive `Bytes` calls returns the result of the first with one more
`0x00` byte at its end, so the two results differ: `flush` pads the empty current byte up
to `i = 8` before it tests `i > 0`. -/
theorem bool_Bytes_second_call (EncodingBitPacked : Nat) (s : List Bool) :
    (boolEncoder.Bytes EncodingBitPacked
        (boolEncoder.Bytes EncodingBitPacked (NewBoolEncoder.writeAll s)).2).1 =
      (boolEncoder.Bytes EncodingBitPacked (NewBoolEncoder.writeAll s)).1 ++ [0] ∧
    (boolEncoder.Bytes EncodingBitPacked
        (boolEncoder.Bytes EncodingBitPacked (NewBoolEncoder.writeAll s)).2).1 ≠
      (boolEncoder.Bytes EncodingBitPacked (NewBoolEncoder.writeAll s)).1 := by
  have hw := WInv_fresh s
  have h1 : (boolEncoder.Bytes EncodingBitPacked
        (boolEncoder.Bytes EncodingBitPacked (NewBoolEncoder.writeAll s)).2).1 =
      (boolEncoder.Bytes EncodingBitPacked (NewBoolEncoder.writeAll s)).1 ++ [0] := by
    simp only [boolEncoder.Bytes]
    rw [WInv_flush hw]
    have h0 : ∀ (bs : List Byte) (n : Nat),
        boolEncoder.flush { bytes := bs, b := 0, i := 0, n := n } =
          { bytes := bs ++ [0], b := 0, i := 0, n := n } := by
      intro bs n
      rw [flush_eq _ (by simp) (by simp)]
      rfl
    rw [h0]
    simp only [List.cons_append, List.append_assoc]
  refine ⟨h1, ?_⟩
  rw [h1]
  intro hc
  have := congrArg List.length hc
  simp at this

/-- C6 (fails on the code). `Bytes` on a fresh encoder with no `Write` returns three bytes:
the header, the varint `0x00` and one packed byte `0x00`. -/
theorem bool_Bytes_of_no_write (EncodingBitPacked : Nat) :
    (boolEncoder.Bytes EncodingBitPacked NewBoolEncoder).1 =
      [toByte ((EncodingBitPacked % 256) <<< 4), 0x00, 0x00] ∧
    (boolEncoder.Bytes EncodingBitPacked NewBoolEncoder).1.length = 3 := by
  constructor
  · simp only [boolEncoder.Bytes, List.cons.injEq, true_and]
    decide
  · simp only [boolEncoder.Bytes, List.length_cons, List.length_append]
    decide

/-! ## The float decoder -/

theorem shl8_or (u x : Nat) (hu : u * 256 < 2 ^ 64) (hx : x < 256) :
    (u <<< 8) % 2 ^ 64 ||| x = u * 256 + x := by
  rw [Nat.shiftLeft_eq]
  have e : (2 : Nat) ^ 8 = 256 := by norm_num
  rw [e, Nat.mod_eq_of_lt hu, Nat.mul_comm u 256]
  have := Nat.mul_add_lt_is_or (show x < 2 ^ 8 by omega) u
  rw [e] at this
  exact this.symm

theorem readBitsBytes_aligned (bs : List Byte) :
    ∀ (rest : List Byte) (b0 u fuel m : Nat), bs.length ≤ fuel → u < 256 ^ m →
      m + bs.length ≤ 8 →
      ∃ b1, BitReader.readBitsBytes fuel { r := bs ++ rest, b := b0, count := 0 } u
          ((8 * bs.length : Nat) : Int) =
        (.ok (bs.foldl (fun acc x => acc * 256 + x.val) u, 0), { r := rest, b := b1, count := 0 }) := by
  induction bs with
  | nil =>
    intro rest b0 u fuel m _ _ _
    refine ⟨b0, ?_⟩
    cases fuel with
    | zero => simp [BitReader.readBitsBytes]
    | succ f => simp [BitReader.readBitsBytes]
  | cons x bs ih =>
    intro rest b0 u fuel m hf hu hm
    cases fuel with
    | zero => simp at hf
    | succ f =>
      simp only [List.length_cons] at hf hm
      have hge : ((8 * (x :: bs).length : Nat) : Int) ≥ 8 := by
        simp only [List.length_cons]; omega
      have hsub : ((8 * (x :: bs).length : Nat) : Int) - 8 = ((8 * bs.length : Nat) : Int) := by
        simp only [List.length_cons]; omega
      have hu7 : u < 256 ^ 7 :=
        lt_of_lt_of_le hu (Nat.pow_le_pow_right (by decide) (by omega))
      have hstep := shl8_or u x.val (by norm_num at hu7 ⊢; omega) x.isLt
      have hu2 : u * 256 + x.val < 256 ^ (m + 1) := by
        have := x.isLt
        rw [pow_succ]
        omega
      obtain ⟨b1, hb1⟩ := ih rest x.val (u * 256 + x.val) f (m + 1) (by omega) hu2 (by omega)
      refine ⟨b1, ?_⟩
      rw [BitReader.readBitsBytes, if_pos hge]
      simp only [BitReader.ReadByte, List.cons_append, if_true, hsub, hstep]
      rw [hb1]
      simp

theorem readBitsBytes_short (bs : List Byte) :
    ∀ (b0 u fuel k : Nat), bs.length < k → k ≤ fuel →
      ∃ rd, BitReader.readBitsBytes fuel { r := bs, b := b0, count := 0 } u ((8 * k : Nat) : Int) =
        (.error .EOF, rd) := by
  induction bs with
  | nil =>
    intro b0 u fuel k hk hf
    cases fuel with
    | zero => omega
    | succ f =>
      have hge : ((8 * k : Nat) : Int) ≥ 8 := by omega
      rw [BitReader.readBitsBytes, if_pos hge]
      simp [BitReader.ReadByte]
  | cons x bs ih =>
    intro b0 u fuel k hk hf
    simp only [List.length_cons] at hk
    cases fuel with
    | zero => omega
    | succ f =>
      have hge : ((8 * k : Nat) : Int) ≥ 8 := by omega
      have hsub : ((8 * k : Nat) : Int) - 8 = ((8 * (k - 1) : Nat) : Int) := by omega
      obtain ⟨rd, hrd⟩ := ih x.val ((u <<< 8) % 2 ^ 64 ||| x.val) f (k - 1) (by omega) (by omega)
      refine ⟨rd, ?_⟩
      rw [BitReader.readBitsBytes, if_pos hge]
      simp only [BitReader.ReadByte, if_true, hsub]
      rw [hrd]

theorem NewFloatDecoder_ok (b : List Byte) (h : 8 ≤ b.length) :
    ∃ b1, NewFloatDecoder b =
      .ok { val := beUint (b.take 8), leading := 0, trailing := 0,
            br := { r := b.drop 8, b := b1, count := 0 }, b := b, first := true,
            finished := false, err := none } := by
  have hl : (b.take 8).length = 8 := by simp [h]
  obtain ⟨b1, hb1⟩ := readBitsBytes_aligned (b.take 8) (b.drop 8) 0 0 64 0 (by omega)
    (by norm_num) (by omega)
  rw [List.take_append_drop, hl] at hb1
  refine ⟨b1, ?_⟩
  have e64 : (64 : Int).toNat = 64 := rfl
  have e0 : (0 : Int).toNat = 0 := rfl
  simp only [NewFloatDecoder, BitReader.ReadBits, BitReader.NewReader, e64]
  have hb2 : BitReader.readBitsBytes 64 { r := b, b := 0, count := 0 } 0 64 =
      (.ok (beUint (b.take 8), 0), { r := b.drop 8, b := b1, count := 0 }) := hb1
  rw [hb2]
  simp only [e0, BitReader.readBitsBits]

theorem NewFloatDecoder_short (b : List Byte) (h : b.length < 8) :
    NewFloatDecoder b = .error .EOF := by
  obtain ⟨rd, hrd⟩ := readBitsBytes_short b 0 0 64 8 h (by omega)
  have e64 : (64 : Int).toNat = 64 := rfl
  have hb2 : BitReader.readBitsBytes 64 { r := b, b := 0, count := 0 } 0 64 =
      (.error .EOF, rd) := hrd
  simp only [NewFloatDecoder, BitReader.ReadBits, BitReader.NewReader, e64]
  rw [hb2]

theorem nextPayload_error (it : FloatDecoder) (e : ReadErr) (br1 : BitReader)
    (h : it.br.ReadBits (toInt64 (sub64 (sub64 64 it.leading) it.trailing)) = (.error e, br1)) :
    it.nextPayload = (false, { it with br := br1, err := some e }) := by
  simp only [FloatDecoder.nextPayload, h]

theorem nextPayload_ok (it : FloatDecoder) (bits : Nat) (br1 : BitReader)
    (h : it.br.ReadBits (toInt64 (sub64 (sub64 64 it.leading) it.trailing)) = (.ok bits, br1)) :
    it.nextPayload =
      if IsNaN (it.val ^^^ shl64 bits it.trailing) then (false, { it with br := br1, finished := true })
      else (true, { it with br := br1, val := it.val ^^^ shl64 bits it.trailing }) := by
  simp only [FloatDecoder.nextPayload, h]

theorem nextPayload_post (it0 it : FloatDecoder) (h0 : it.err = none)
    (h1 : it.finished = false) (hv : it.val = it0.val) : NextPost it0 it.nextPayload := by
  rcases hr : it.br.ReadBits (toInt64 (sub64 (sub64 64 it.leading) it.trailing)) with ⟨res, br1⟩
  cases res with
  | error e =>
    rw [nextPayload_error it e br1 hr]
    simp [NextPost, FloatDecoder.Err, h1, Xor']
  | ok bits =>
    rw [nextPayload_ok it bits br1 hr]
    by_cases hn : IsNaN (it.val ^^^ shl64 bits it.trailing) = true
    · rw [if_pos hn]
      refine ⟨?_, ?_, ?_, ?_⟩
      · intro _
        right
        simp [FloatDecoder.Err, h0]
      · intro h; simp at h
      · intro _
        right
        exact ⟨it.br, bits, hr, by rw [← hv]; exact hn⟩
      · intro h; simp at h
    · rw [if_neg hn]
      refine ⟨?_, ?_, ?_, ?_⟩
      · intro h; simp at h
      · intro _; exact ⟨h0, h1⟩
      · intro h
        simp only [h1] at h
        cases h
      · intro _
        right; right
        refine ⟨it.br, bits, hr, ?_, ?_⟩
        · simp only [FloatDecoder.Values, hv]
        · simpa [FloatDecoder.Values] using hn

theorem Next_post_error (it : FloatDecoder) (e : ReadErr) (d : FloatDecoder)
    (h1 : d.finished = false) (he : d.err = some e) : NextPost it (false, d) := by
  refine ⟨?_, ?_, ?_, ?_⟩
  · intro _
    left
    simp [FloatDecoder.Err, he]
  · intro h; simp at h
  · intro h
    simp only [h1] at h
    cases h
  · intro h; simp at h

theorem Next_post (it : FloatDecoder) : NextPost it it.Next := by
  by_cases hg : it.err ≠ none ∨ it.finished = true
  · have hN : it.Next = (false, it) := by
      simp only [FloatDecoder.Next]
      rw [if_pos hg]
    rw [hN]
    refine ⟨?_, ?_, ?_, ?_⟩
    · intro _
      by_cases he : it.err = none
      · right
        simp only [FloatDecoder.Err]
        rcases hg with hg | hg
        · exact absurd he hg
        · exact ⟨⟨hg, he⟩, fun hc => hc he⟩
      · left
        exact ⟨he, fun hc => he hc.2⟩
    · intro h; simp at h
    · intro h; exact Or.inl h
    · intro h; simp at h
  · have h0 : it.err = none := by
      by_contra hc; exact hg (Or.inl hc)
    have h1 : it.finished = false := by
      cases hf : it.finished with
      | false => rfl
      | true => exact absurd (Or.inr hf) hg
    by_cases hfirst : it.first = true
    · have hN : it.Next = (true, { it with first := false }) := by
        simp only [FloatDecoder.Next]
        rw [if_neg hg, if_pos hfirst]
      rw [hN]
      simp [NextPost, FloatDecoder.Err, h0, h1, hfirst]
    · rcases hr1 : it.br.ReadBit with ⟨res1, br1⟩
      have hN1 : it.Next = (match (res1, br1) with
          | (.error e, br1) => (false, { it with br := br1, err := some e })
          | (.ok false, br1) => (true, { it with br := br1 })
          | (.ok true, br1) =>
            match br1.ReadBit with
            | (.error e, br2) => (false, { it with br := br2, err := some e })
            | (.ok false, br2) => FloatDecoder.nextPayload { it with br := br2 }
            | (.ok true, br2) =>
              match br2.ReadBits 5 with
              | (.error e, br3) => (false, { it with br := br3, err := some e })
              | (.ok bits, br3) =>
                match br3.ReadBits 6 with
                | (.error e, br4) => (false, { it with leading := bits, br := br4, err := some e })
                | (.ok mbits, br4) =>
                  FloatDecoder.nextPayload
                    { it with leading := bits, trailing := sub64 (sub64 64 bits) mbits, br := br4 }) := by
        rw [FloatDecoder.Next, if_neg hg, if_neg hfirst, hr1]
      rw [hN1]
      cases res1 with
      | error e => exact Next_post_error it e _ h1 rfl
      | ok bit1 =>
        cases bit1 with
        | false =>
          simp only
          refine ⟨?_, ?_, ?_, ?_⟩
          · intro h; simp at h
          · intro _; exact ⟨h0, h1⟩
          · intro h
            simp only [h1] at h
            cases h
          · intro _
            right; left
            exact ⟨hr1, rfl⟩
        | true =>
          simp only
          rcases hr2 : br1.ReadBit with ⟨res2, br2⟩
          cases res2 with
          | error e => exact Next_post_error it e _ h1 rfl
          | ok bit2 =>
            cases bit2 with
            | false => exact nextPayload_post it _ h0 h1 rfl
            | true =>
              simp only
              rcases hr3 : br2.ReadBits 5 with ⟨res3, br3⟩
              cases res3 with
              | error e => exact Next_post_error it e _ h1 rfl
              | ok bits =>
                simp only
                rcases hr4 : br3.ReadBits 6 with ⟨res4, br4⟩
                cases res4 with
                | error e => exact Next_post_error it e _ h1 rfl
                | ok mbits => exact nextPayload_post it _ h0 h1 rfl

theorem Next_absorbing (it : FloatDecoder) (h : it.Next.1 = false) :
    it.Next.2.Next = (false, it.Next.2) := by
  have hp := (Next_post it).1 h
  have hg : it.Next.2.err ≠ none ∨ it.Next.2.finished = true := by
    rcases hp with hx | hx
    · exact Or.inl hx.1
    · exact Or.inr hx.1.1
  rw [FloatDecoder.Next, if_pos hg]

theorem nextN_absorbing (it : FloatDecoder) (h : it.Next = (false, it)) (j : Nat) :
    it.nextN j = it := by
  induction j with
  | zero => rfl
  | succ j ih => rw [FloatDecoder.nextN, h]; exact ih

theorem pushAll_finished (vs : List Nat) (e : FloatEncoder) :
    (e.pushAll vs).finished = e.finished := by
  induction vs generalizing e with
  | nil => rfl
  | cons v vs ih =>
    have hp : (e.Push v).finished = e.finished := by
      unfold FloatEncoder.Push
      split
      · rfl
      · simp only
        split
        · rfl
        · split <;> rfl
    have : e.pushAll (v :: vs) = (e.Push v).pushAll vs := rfl
    rw [this, ih, hp]

/-! ## Claims about the float codec -/

/-- C2 (fails on the code). The sequence `1.0, 1.0000000000000002` (bit patterns
`0x3FF0000000000000`, `0x3FF0000000000001`, neither a NaN) does not survive the round trip:
the XOR delta `1` has 63 leading zeros, `Push` writes `63` into the five-bit field as `31`,
and the second value the decoder yields has the bit pattern `0x3FF0000100000000`. -/
theorem float_round_trip_fails :
    IsNaN 0x3FF0000000000000 = false ∧ IsNaN 0x3FF0000000000001 = false ∧
    ∃ d, NewFloatDecoder
        (NewFloatEncoder.pushAll [0x3FF0000000000000, 0x3FF0000000000001]).Finish.Bytes = .ok d ∧
      d.Next.1 = true ∧ d.Next.2.Values = 0x3FF0000000000000 ∧
      (d.nextN 1).Next.1 = true ∧ (d.nextN 1).Next.2.Values = 0x3FF0000100000000 ∧
      (d.nextN 1).Next.2.Values ≠ 0x3FF0000000000001 := by
  refine ⟨by decide!, by decide!,
    { val := 0x3FF0000000000000, leading := 0, trailing := 0,
      br := { r := [254, 15, 9, 144, 2], b := 0, count := 0 },
      b := [63, 240, 0, 0, 0, 0, 0, 0, 254, 15, 9, 144, 2],
      first := true, finished := false, err := none }, ?_, ?_, ?_, ?_, ?_, ?_⟩ <;> decide!

/-- C3 (fails on the code). With no `Push` before `Finish`, the sentinel is written as the
raw first value; the decoder built from `Bytes()` returns true on its first `Next` with the
NaN bit pattern as `Values()`, and the second `Next` returns false with a non-nil `Err()`. -/
theorem float_empty_sequence_yields_NaN :
    ∃ d, NewFloatDecoder NewFloatEncoder.Finish.Bytes = .ok d ∧
      d.Next.1 = true ∧ d.Next.2.Values = NaN ∧ IsNaN d.Next.2.Values = true ∧
      d.Next.2.Err = none ∧
      (d.nextN 1).Next.1 = false ∧ (d.nextN 1).Next.2.Err = some ReadErr.EOF := by
  refine ⟨
    { val := NaN, leading := 0, trailing := 0,
      br := { r := [], b := 1, count := 0 },
      b := [127, 248, 0, 0, 0, 0, 0, 1],
      first := true, finished := false, err := none }, ?_, ?_, ?_, ?_, ?_, ?_, ?_⟩ <;> decide!

/-- C7. `NewFloatDecoder(b)` returns an error (and no decoder) exactly when `b` has fewer
than eight bytes; when `b` has at least eight bytes it returns a decoder whose initial
value is the first eight bytes of `b` read big-endian, with no error recorded and the
rest of `b` still unread. -/
theorem NewFloatDecoder_spec (b : List Byte) :
    ((∃ e, NewFloatDecoder b = .error e) ↔ b.length < 8) ∧
    (8 ≤ b.length → ∃ d, NewFloatDecoder b = .ok d ∧ d.Values = beUint (b.take 8) ∧
      d.Err = none ∧ d.finished = false ∧ d.first = true ∧ d.br.r = b.drop 8 ∧ d.br.count = 0) := by
  constructor
  · constructor
    · rintro ⟨e, he⟩
      by_contra hc
      obtain ⟨b1, hb1⟩ := NewFloatDecoder_ok b (by omega)
      rw [hb1] at he
      cases he
    · intro h
      exact ⟨.EOF, NewFloatDecoder_short b h⟩
  · intro h
    obtain ⟨b1, hb1⟩ := NewFloatDecoder_ok b h
    exact ⟨_, hb1, rfl, rfl, rfl, rfl, rfl, rfl⟩

theorem NewFloatDecoder_spec_witness :
    ∃ d, NewFloatDecoder [63, 240, 0, 0, 0, 0, 0, 0, 97] = .ok d ∧
      d.Values = beUint (List.take 8 [63, 240, 0, 0, 0, 0, 0, 0, 97]) ∧
      d.Err = none ∧ d.finished = false ∧ d.first = true ∧
      d.br.r = List.drop 8 [63, 240, 0, 0, 0, 0, 0, 0, 97] ∧ d.br.count = 0 :=
  (NewFloatDecoder_spec [63, 240, 0, 0, 0, 0, 0, 0, 97]).2 (by decide)

/-- C9. The end state of the float decoder is absorbing: on the decoder built from a buffer
of at least eight bytes, once a `Next` call has returned false, every later `Next` call
returns false and leaves the whole decoder state (value, error, window, bit reader) as it
was right after that first false return. -/
theorem float_decoder_end_absorbing (b : List Byte) (hb : 8 ≤ b.length) :
    ∃ d0, NewFloatDecoder b = .ok d0 ∧ ∀ k, (d0.nextN k).Next.1 = false →
      ∀ j, (((d0.nextN k).Next.2).nextN j).Next = (false, (d0.nextN k).Next.2) ∧
        (((d0.nextN k).Next.2).nextN j).Next.2.Values = (d0.nextN k).Next.2.Values ∧
        (((d0.nextN k).Next.2).nextN j).Next.2.Err = (d0.nextN k).Next.2.Err ∧
        (((d0.nextN k).Next.2).nextN j).Next.2.br = (d0.nextN k).Next.2.br := by
  obtain ⟨b1, hb1⟩ := NewFloatDecoder_ok b hb
  refine ⟨_, hb1, ?_⟩
  intro k hk j
  have h1 := Next_absorbing _ hk
  have h2 := nextN_absorbing _ h1 j
  rw [h2, h1]
  exact ⟨rfl, rfl, rfl, rfl⟩

theorem float_decoder_end_absorbing_witness :
    ∃ d0, NewFloatDecoder [63, 240, 0, 0, 0, 0, 0, 0, 97] = .ok d0 ∧
      ∀ k, (d0.nextN k).Next.1 = false →
      ∀ j, (((d0.nextN k).Next.2).nextN j).Next = (false, (d0.nextN k).Next.2) ∧
        (((d0.nextN k).Next.2).nextN j).Next.2.Values = (d0.nextN k).Next.2.Values ∧
        (((d0.nextN k).Next.2).nextN j).Next.2.Err = (d0.nextN k).Next.2.Err ∧
        (((d0.nextN k).Next.2).nextN j).Next.2.br = (d0.nextN k).Next.2.br :=
  float_decoder_end_absorbing [63, 240, 0, 0, 0, 0, 0, 0, 97] (by decide)

/-- C10. `Finish` is idempotent: after any sequence of `Push` calls on a fresh encoder, the
first `Finish` pushes the NaN sentinel, flushes with zero bits and sets the finished flag,
and a second `Finish` leaves the whole encoder state (hence `Bytes()`, the running value,
the stored window and the flags) unchanged, so the sentinel is written once. -/
theorem float_Finish_idempotent (vs : List Nat) :
    (NewFloatEncoder.pushAll vs).Finish.Finish = (NewFloatEncoder.pushAll vs).Finish ∧
    (NewFloatEncoder.pushAll vs).Finish =
      { (NewFloatEncoder.pushAll vs).Push NaN with
        bw := ((NewFloatEncoder.pushAll vs).Push NaN).bw.Flush false, finished := true } ∧
    (NewFloatEncoder.pushAll vs).Finish.Finish.Bytes = (NewFloatEncoder.pushAll vs).Finish.Bytes := by
  have hf : (NewFloatEncoder.pushAll vs).finished = false := by
    rw [pushAll_finished]; rfl
  have h2 : (NewFloatEncoder.pushAll vs).Finish =
      { (NewFloatEncoder.pushAll vs).Push NaN with
        bw := ((NewFloatEncoder.pushAll vs).Push NaN).bw.Flush false, finished := true } := by
    rw [FloatEncoder.Finish]
    simp [hf]
  have h1 : (NewFloatEncoder.pushAll vs).Finish.Finish = (NewFloatEncoder.pushAll vs).Finish := by
    have hfin : (NewFloatEncoder.pushAll vs).Finish.finished = true := by rw [h2]
    generalize (NewFloatEncoder.pushAll vs).Finish = e at hfin
    rw [FloatEncoder.Finish]
    simp [hfin]
  exact ⟨h1, h2, by rw [h1]⟩

/-! ## Lists of bits -/

theorem lowBits_length (n u : Nat) : (lowBits n u).length = n := by
  induction n with
  | zero => rfl
  | succ n ih => simp [lowBits, ih]

theorem lowBits_mod (n m u : Nat) (h : n ≤ m) : lowBits n (u % 2 ^ m) = lowBits n u := by
  induction n with
  | zero => rfl
  | succ n ih =>
    simp only [lowBits, Nat.testBit_mod_two_pow]
    rw [ih (by omega)]
    have : n < m := by omega
    simp [this]

theorem lowBits_split (m n u : Nat) :
    lowBits (m + n) u = lowBits m (u / 2 ^ n) ++ lowBits n u := by
  induction m with
  | zero => simp [lowBits]
  | succ m ih =>
    have e : m + 1 + n = (m + n) + 1 := by omega
    rw [e, lowBits, lowBits, ih, ← Nat.shiftRight_eq_div_pow, Nat.testBit_shiftRight]
    simp [Nat.add_comm]

theorem lowBits_append (m n a r : Nat) (hr : r < 2 ^ n) :
    lowBits (m + n) (a * 2 ^ n + r) = lowBits m a ++ lowBits n r := by
  rw [lowBits_split]
  have h1 : (a * 2 ^ n + r) / 2 ^ n = a := by
    rw [Nat.add_comm, Nat.mul_comm, Nat.add_mul_div_left _ _ (by positivity),
      Nat.div_eq_of_lt hr, Nat.zero_add]
  have h2 : lowBits n (a * 2 ^ n + r) = lowBits n r := by
    rw [← lowBits_mod n n _ (le_refl _)]
    congr 1
    rw [Nat.add_comm, Nat.mul_comm, Nat.add_mul_mod_self_left, Nat.mod_eq_of_lt hr]
  rw [h1, h2]

/-- The number a list of bits denotes, most significant bit first, on top of `acc`. -/
theorem foldl_lowBits (n u acc : Nat) :
    (lowBits n u).foldl (fun a b => 2 * a + b.toNat) acc = acc * 2 ^ n + u % 2 ^ n := by
  induction n generalizing acc with
  | zero => simp [lowBits, Nat.mod_one]
  | succ n ih =>
    rw [lowBits, List.foldl_cons, ih, Nat.mod_pow_succ, Nat.toNat_testBit, pow_succ]
    ring

theorem lowBits_inj (n a b : Nat) (ha : a < 2 ^ n) (hb : b < 2 ^ n)
    (h : lowBits n a = lowBits n b) : a = b := by
  have h1 := foldl_lowBits n a 0
  have h2 := foldl_lowBits n b 0
  rw [h] at h1
  rw [h1, Nat.mod_eq_of_lt ha, Nat.mod_eq_of_lt hb] at h2
  omega

theorem bytesBits_append (xs ys : List Byte) :
    bytesBits (xs ++ ys) = bytesBits xs ++ bytesBits ys := by
  induction xs with
  | nil => rfl
  | cons x xs ih => simp [bytesBits, ih]

theorem bytesBits_length (xs : List Byte) : (bytesBits xs).length = 8 * xs.length := by
  induction xs with
  | nil => rfl
  | cons x xs ih => simp [bytesBits, byteBits, lowBits_length, ih]; omega

theorem beUint_append_singleton (xs : List Byte) (x : Byte) :
    beUint (xs ++ [x]) = beUint xs * 256 + x.val := by
  simp [beUint]

theorem beUint_foldl (xs : List Byte) (acc : Nat) :
    xs.foldl (fun a x => a * 256 + x.val) acc = acc * 256 ^ xs.length + beUint xs := by
  induction xs generalizing acc with
  | nil => simp [beUint]
  | cons x xs ih =>
    have hb : beUint (x :: xs) = (0 * 256 + x.val) * 256 ^ xs.length + beUint xs :=
      ih (0 * 256 + x.val)
    rw [List.foldl_cons, ih, hb, List.length_cons, pow_succ]
    ring

theorem beUint_cons (x : Byte) (xs : List Byte) :
    beUint (x :: xs) = x.val * 256 ^ xs.length + beUint xs := by
  have hb : beUint (x :: xs) = (0 * 256 + x.val) * 256 ^ xs.length + beUint xs :=
    beUint_foldl xs (0 * 256 + x.val)
  rw [hb]
  simp

theorem beUint_lt (xs : List Byte) : beUint xs < 256 ^ xs.length := by
  induction xs with
  | nil => simp [beUint]
  | cons x xs ih =>
    rw [beUint_cons, List.length_cons, pow_succ]
    have := x.isLt
    nlinarith

theorem pow256 (n : Nat) : (256 : Nat) ^ n = 2 ^ (8 * n) := by
  rw [pow_mul]; norm_num

theorem bytesBits_eq_lowBits (xs : List Byte) :
    bytesBits xs = lowBits (8 * xs.length) (beUint xs) := by
  induction xs with
  | nil => rfl
  | cons x xs ih =>
    rw [bytesBits, ih, byteBits, beUint_cons, List.length_cons, pow256]
    have e : 8 * (xs.length + 1) = 8 + 8 * xs.length := by ring
    rw [e]
    have hlt : beUint xs < 2 ^ (8 * xs.length) := by
      rw [← pow256]; exact beUint_lt xs
    rw [lowBits_append 8 (8 * xs.length) x.val (beUint xs) hlt]

theorem take_byteBits (b k : Nat) (hk : k ≤ 8) :
    (byteBits b).take k = lowBits k (b / 2 ^ (8 - k)) := by
  have e : 8 = k + (8 - k) := by omega
  rw [byteBits]
  conv_lhs => rw [e]
  rw [lowBits_split, List.take_left' (lowBits_length _ _)]

theorem lowBits_testBit_eq (n a b : Nat) (h : ∀ i, i < n → a.testBit i = b.testBit i) :
    lowBits n a = lowBits n b := by
  induction n with
  | zero => rfl
  | succ n ih =>
    rw [lowBits, lowBits, h n (by omega), ih (fun i hi => h i (by omega))]

/-! ## The bit writer -/

theorem writer_bits_eq (w : BitWriter) (h : w.WF) : w.bits = lowBits w.nbits w.value := by
  obtain ⟨h1, h2, h3, _⟩ := h
  have hlt : w.b / 2 ^ w.count < 2 ^ (8 - w.count) := by
    apply Nat.div_lt_of_lt_mul
    rw [← pow_add]
    have : w.count + (8 - w.count) = 8 := by omega
    rw [this]
    exact h3
  have hout : beUint w.out < 2 ^ (8 * w.out.length) := by
    rw [← pow256]; exact beUint_lt _
  rw [BitWriter.bits, BitWriter.nbits, BitWriter.value, lowBits_append _ _ _ _ hlt,
    bytesBits_eq_lowBits, take_byteBits _ _ (by omega)]
  have e : 8 - (8 - w.count) = w.count := by omega
  rw [e]

theorem or_eq_add_of_mod (b h c : Nat) (hb : b % 2 ^ c = 0) (hh : h < 2 ^ c) :
    b ||| h = b + h := by
  have e : b = 2 ^ c * (b / 2 ^ c) := by
    have := Nat.div_add_mod b (2 ^ c)
    omega
  rw [e, ← Nat.mul_add_lt_is_or hh]

theorem NewWriter_WF : BitWriter.NewWriter.WF := by
  simp [BitWriter.NewWriter, BitWriter.WF]

theorem WriteBit_spec (w : BitWriter) (h : w.WF) (bit : Bool) :
    (w.WriteBit bit).WF ∧ (w.WriteBit bit).nbits = w.nbits + 1 ∧
      (w.WriteBit bit).value = 2 * w.value + bit.toNat := by
  obtain ⟨h1, h2, h3, h4⟩ := h
  have hb1 : (if bit = true then (w.b ||| (1 <<< (w.count - 1)) % 256) else w.b) =
      w.b + bit.toNat * 2 ^ (w.count - 1) := by
    cases bit with
    | false => simp
    | true =>
      have hp : (1 <<< (w.count - 1)) % 256 = 2 ^ (w.count - 1) := by
        rw [Nat.one_shiftLeft]
        apply Nat.mod_eq_of_lt
        calc 2 ^ (w.count - 1) ≤ 2 ^ 7 := Nat.pow_le_pow_right (by decide) (by omega)
          _ < 256 := by norm_num
      simp only [if_true, hp, Bool.toNat_true, Nat.one_mul]
      apply or_eq_add_of_mod _ _ w.count h4
      exact Nat.pow_lt_pow_right (by decide) (by omega)
  have hc : (w.count + 255) % 256 = w.count - 1 := by omega
  unfold BitWriter.WriteBit
  simp only [hc, hb1]
  rcases w with ⟨out, b, c⟩
  simp only at h1 h2 h3 h4 ⊢
  by_cases hc1 : c - 1 = 0
  · have hc1' : c = 1 := by omega
    subst hc1'
    simp only [Nat.sub_self, if_true, BitWriter.WF, BitWriter.nbits, BitWriter.value,
      beUint_append_singleton, toByte_val, List.length_append, List.length_singleton]
    norm_num at h4 ⊢
    cases bit <;> simp <;> omega
  · rw [if_neg hc1]
    simp only [BitWriter.WF, BitWriter.nbits, BitWriter.value]
    have hc8 : c < 9 := by omega
    interval_cases c
    · omega
    all_goals (norm_num at h4 ⊢; cases bit <;> simp <;> omega)

theorem WriteByte_spec (w : BitWriter) (h : w.WF) (byt : Nat) :
    (w.WriteByte byt).WF ∧ (w.WriteByte byt).nbits = w.nbits + 8 ∧
      (w.WriteByte byt).value = 256 * w.value + byt % 256 := by
  obtain ⟨h1, h2, h3, h4⟩ := h
  have hB : byt % 256 < 256 := Nat.mod_lt _ (by decide)
  have hs : (8 + 256 - w.count) % 256 = 8 - w.count := by omega
  have hc : w.count % 256 = w.count := by omega
  unfold BitWriter.WriteByte
  simp only [hc, hs]
  generalize byt % 256 = B at hB ⊢
  have hH : B >>> (8 - w.count) < 2 ^ w.count := by
    rw [Nat.shiftRight_eq_div_pow]
    apply Nat.div_lt_of_lt_mul
    rw [← pow_add]
    have : 8 - w.count + w.count = 8 := by omega
    rw [this]
    exact hB
  simp only [or_eq_add_of_mod _ _ _ h4 hH]
  rcases w with ⟨out, b, c⟩
  simp only at h1 h2 h3 h4 hH ⊢
  simp only [BitWriter.WF, BitWriter.nbits, BitWriter.value, beUint_append_singleton,
    toByte_val, List.length_append, List.length_singleton, Nat.shiftRight_eq_div_pow,
    Nat.shiftLeft_eq]
  have hc8 : c < 9 := by omega
  interval_cases c
  · omega
  all_goals (norm_num at h4 hH ⊢; omega)

theorem phi_step (W k V u m : Nat) (hk : k ≤ m) (hm : m ≤ W) :
    (2 ^ k * V + u / 2 ^ (W - k)) * 2 ^ (m - k) + ((u * 2 ^ k) % 2 ^ W) / 2 ^ (W - (m - k)) =
      V * 2 ^ m + u / 2 ^ (W - m) := by
  have e1 : (2 : Nat) ^ (W - k) = 2 ^ (m - k) * 2 ^ (W - m) := by
    rw [← pow_add]; congr 1; omega
  have e2 : (2 : Nat) ^ W = 2 ^ (W - k) * 2 ^ k := by
    rw [← pow_add]; congr 1; omega
  have e3 : (2 : Nat) ^ (W - (m - k)) = 2 ^ (W - m) * 2 ^ k := by
    rw [← pow_add]; congr 1; omega
  have e4 : (2 : Nat) ^ m = 2 ^ k * 2 ^ (m - k) := by
    rw [← pow_add]; congr 1; omega
  have hD : 0 < 2 ^ (W - m) := by positivity
  have hK : 0 < 2 ^ k := by positivity
  have h1 : (u * 2 ^ k) % 2 ^ W = (u % 2 ^ (W - k)) * 2 ^ k := by
    rw [e2, Nat.mul_mod_mul_right]
  have h2 : ((u % 2 ^ (W - k)) * 2 ^ k) / 2 ^ (W - (m - k)) = (u % 2 ^ (W - k)) / 2 ^ (W - m) := by
    rw [e3, Nat.mul_div_mul_right _ _ hK]
  have h3 : u / 2 ^ (W - m) =
      (u % 2 ^ (W - k)) / 2 ^ (W - m) + 2 ^ (m - k) * (u / 2 ^ (W - k)) := by
    have hmd := Nat.mod_add_div u (2 ^ (W - k))
    generalize u / 2 ^ (W - k) = q at hmd ⊢
    generalize u % 2 ^ (W - k) = r at hmd ⊢
    rw [e1] at hmd
    have hu : u = r + 2 ^ (W - m) * (2 ^ (m - k) * q) := by
      rw [← hmd]; ring
    conv_lhs => rw [hu]
    rw [Nat.add_mul_div_left _ _ hD]
  rw [h1, h2, h3, e4]
  ring

theorem writeBitsBytes_spec (fuel : Nat) :
    ∀ (w : BitWriter) (u m : Nat), w.WF → u < 2 ^ 64 → m ≤ 64 → m < 8 * fuel + 8 →
      ∃ w1 u1 m1, BitWriter.writeBitsBytes fuel w u (m : Int) = (w1, u1, ((m1 : Nat) : Int)) ∧
        w1.WF ∧ u1 < 2 ^ 64 ∧ m1 < 8 ∧ w1.nbits + m1 = w.nbits + m ∧
        w1.value * 2 ^ m1 + u1 / 2 ^ (64 - m1) = w.value * 2 ^ m + u / 2 ^ (64 - m) := by
  induction fuel with
  | zero =>
    intro w u m hw hu hm hf
    exact ⟨w, u, m, rfl, hw, hu, by omega, rfl, rfl⟩
  | succ fuel ih =>
    intro w u m hw hu hm hf
    by_cases hge : (m : Int) ≥ 8
    · have hm8 : 8 ≤ m := by omega
      have hsub : (m : Int) - 8 = ((m - 8 : Nat) : Int) := by omega
      obtain ⟨hw1, hn1, hv1⟩ := WriteByte_spec w hw (u >>> 56)
      have hu1 : (u <<< 8) % 2 ^ 64 < 2 ^ 64 := Nat.mod_lt _ (by positivity)
      obtain ⟨w2, u2, m2, heq, hw2, hu2, hm2, hn2, hv2⟩ :=
        ih (w.WriteByte (u >>> 56)) ((u <<< 8) % 2 ^ 64) (m - 8) hw1 hu1 (by omega) (by omega)
      refine ⟨w2, u2, m2, ?_, hw2, hu2, hm2, by omega, ?_⟩
      · rw [BitWriter.writeBitsBytes, if_pos hge, hsub, heq]
      · rw [hv2, hv1]
        have hb : (u >>> 56) % 256 = u / 2 ^ (64 - 8) := by
          rw [Nat.shiftRight_eq_div_pow]
          apply Nat.mod_eq_of_lt
          apply Nat.div_lt_of_lt_mul
          norm_num at hu ⊢
          omega
        rw [hb, Nat.shiftLeft_eq]
        have := phi_step 64 8 w.value u m hm8 hm
        norm_num at this ⊢
        exact this
    · refine ⟨w, u, m, ?_, hw, hu, by omega, rfl, rfl⟩
      rw [BitWriter.writeBitsBytes, if_neg hge]

theorem writeBitsBits_spec (fuel : Nat) :
    ∀ (w : BitWriter) (u m : Nat), w.WF → u < 2 ^ 64 → m ≤ 64 → m ≤ fuel →
      (BitWriter.writeBitsBits fuel w u (m : Int)).WF ∧
      (BitWriter.writeBitsBits fuel w u (m : Int)).nbits = w.nbits + m ∧
      (BitWriter.writeBitsBits fuel w u (m : Int)).value =
        w.value * 2 ^ m + u / 2 ^ (64 - m) := by
  induction fuel with
  | zero =>
    intro w u m hw hu hm hf
    have hm0 : m = 0 := by omega
    subst hm0
    rw [BitWriter.writeBitsBits]
    refine ⟨hw, rfl, ?_⟩
    rw [Nat.div_eq_of_lt (by simpa using hu)]
    simp
  | succ fuel ih =>
    intro w u m hw hu hm hf
    by_cases hpos : (m : Int) > 0
    · have hm1 : 1 ≤ m := by omega
      have hsub : (m : Int) - 1 = ((m - 1 : Nat) : Int) := by omega
      obtain ⟨hw1, hn1, hv1⟩ := WriteBit_spec w hw (decide (u >>> 63 = 1))
      have hu1 : (u <<< 1) % 2 ^ 64 < 2 ^ 64 := Nat.mod_lt _ (by positivity)
      obtain ⟨hw2, hn2, hv2⟩ :=
        ih (w.WriteBit (decide (u >>> 63 = 1))) ((u <<< 1) % 2 ^ 64) (m - 1) hw1 hu1
          (by omega) (by omega)
      rw [BitWriter.writeBitsBits, if_pos hpos, hsub]
      refine ⟨hw2, by omega, ?_⟩
      rw [hv2, hv1]
      have hb : (decide (u >>> 63 = 1)).toNat = u / 2 ^ (64 - 1) := by
        rw [Nat.shiftRight_eq_div_pow]
        have : u / 2 ^ 63 < 2 := by
          apply Nat.div_lt_of_lt_mul
          norm_num at hu ⊢
          omega
        norm_num
        by_cases h1 : u / 9223372036854775808 = 1
        · simp [h1]
        · simp [h1]
          norm_num at this
          omega
      rw [hb, Nat.shiftLeft_eq]
      have := phi_step 64 1 w.value u m hm1 hm
      norm_num at this ⊢
      exact this
    · have hm0 : m = 0 := by omega
      subst hm0
      rw [BitWriter.writeBitsBits, if_neg hpos]
      refine ⟨hw, rfl, ?_⟩
      rw [Nat.div_eq_of_lt (by simpa using hu)]
      simp

theorem WriteBits_spec (w : BitWriter) (hw : w.WF) (u n : Nat) (hn : n ≤ 64) :
    (w.WriteBits u (n : Int)).WF ∧ (w.WriteBits u (n : Int)).nbits = w.nbits + n ∧
      (w.WriteBits u (n : Int)).value = w.value * 2 ^ n + u % 2 ^ n := by
  have ht : toUint64 (n : Int) = n := by
    unfold toUint64
    omega
  have hs : sub64 64 n = 64 - n := by
    unfold sub64
    omega
  have hu1 : shl64 (u % 2 ^ 64) (64 - n) < 2 ^ 64 := by
    unfold shl64
    split
    · positivity
    · exact Nat.mod_lt _ (by positivity)
  have hdiv : shl64 (u % 2 ^ 64) (64 - n) / 2 ^ (64 - n) = u % 2 ^ n := by
    unfold shl64
    by_cases h0 : 64 - n ≥ 64
    · have hn0 : n = 0 := by omega
      subst hn0
      simp [Nat.mod_one]
    · rw [if_neg h0, Nat.shiftLeft_eq]
      have e : (2 : Nat) ^ 64 = 2 ^ n * 2 ^ (64 - n) := by
        rw [← pow_add]; congr 1; omega
      rw [e, Nat.mul_mod_mul_right, Nat.mul_div_cancel _ (by positivity),
        Nat.mod_mod_of_dvd _ (Dvd.intro _ rfl)]
  obtain ⟨w1, u1, m1, heq, hw1, hu1', hm1, hn1, hv1⟩ :=
    writeBitsBytes_spec n w (shl64 (u % 2 ^ 64) (64 - n)) n hw hu1 hn (by omega)
  obtain ⟨hw2, hn2, hv2⟩ := writeBitsBits_spec m1 w1 u1 m1 hw1 hu1' (by omega) (le_refl _)
  have hW : w.WriteBits u (n : Int) = BitWriter.writeBitsBits m1 w1 u1 (m1 : Int) := by
    unfold BitWriter.WriteBits
    simp only [ht, hs, Int.toNat_ofNat, heq]
  rw [hW]
  refine ⟨hw2, by omega, ?_⟩
  rw [hv2, hv1, hdiv]

theorem lowBits_one (bit : Bool) : lowBits 1 bit.toNat = [bit] := by
  cases bit <;> rfl

theorem WriteBit_bits (w : BitWriter) (hw : w.WF) (bit : Bool) :
    (w.WriteBit bit).WF ∧ (w.WriteBit bit).bits = w.bits ++ [bit] := by
  obtain ⟨h1, h2, h3⟩ := WriteBit_spec w hw bit
  refine ⟨h1, ?_⟩
  rw [writer_bits_eq _ h1, writer_bits_eq _ hw, h2, h3, ← lowBits_one bit,
    ← lowBits_append _ _ _ _ (by cases bit <;> simp)]
  congr 1
  ring

theorem WriteBits_bits (w : BitWriter) (hw : w.WF) (u n : Nat) (hn : n ≤ 64) :
    (w.WriteBits u (n : Int)).WF ∧ (w.WriteBits u (n : Int)).bits = w.bits ++ lowBits n u := by
  obtain ⟨h1, h2, h3⟩ := WriteBits_spec w hw u n hn
  refine ⟨h1, ?_⟩
  rw [writer_bits_eq _ h1, writer_bits_eq _ hw, h2, h3,
    lowBits_append _ _ _ _ (Nat.mod_lt _ (by positivity)), lowBits_mod _ _ _ (le_refl _)]

theorem WriteBit_count (w : BitWriter) (hw : w.WF) (bit : Bool) :
    (w.WriteBit bit).count = if w.count = 1 then 8 else w.count - 1 := by
  obtain ⟨h1, h2, _, _⟩ := hw
  have hc : (w.count + 255) % 256 = w.count - 1 := by omega
  unfold BitWriter.WriteBit
  simp only [hc]
  by_cases h : w.count = 1
  · simp [h]
  · have : ¬ (w.count - 1 = 0) := by omega
    simp [h, this]

theorem flushLoop_spec (bit : Bool) (fuel : Nat) :
    ∀ (w : BitWriter), w.WF → (w.count = 8 ∨ w.count ≤ fuel) →
      ∃ k, (BitWriter.flushLoop fuel w bit).WF ∧ (BitWriter.flushLoop fuel w bit).count = 8 ∧
        (BitWriter.flushLoop fuel w bit).bits = w.bits ++ List.replicate k bit := by
  induction fuel with
  | zero =>
    intro w hw hc
    have h1 := hw.1
    have h8 : w.count = 8 := by omega
    refine ⟨0, hw, h8, by simp [BitWriter.flushLoop]⟩
  | succ fuel ih =>
    intro w hw hc
    by_cases h8 : w.count = 8
    · refine ⟨0, ?_, ?_, ?_⟩ <;> simp [BitWriter.flushLoop, h8, hw]
    · obtain ⟨hw1, hb1⟩ := WriteBit_bits w hw bit
      have hc1 := WriteBit_count w hw bit
      have h1 := hw.1
      obtain ⟨k, hk1, hk2, hk3⟩ := ih (w.WriteBit bit) hw1 (by
        rw [hc1]; split <;> omega)
      refine ⟨k + 1, ?_, ?_, ?_⟩
      · rw [BitWriter.flushLoop, if_pos h8]; exact hk1
      · rw [BitWriter.flushLoop, if_pos h8]; exact hk2
      · rw [BitWriter.flushLoop, if_pos h8, hk3, hb1, List.append_assoc]
        simp [List.replicate_succ]

theorem Flush_spec (w : BitWriter) (hw : w.WF) (bit : Bool) :
    ∃ k, (w.Flush bit).WF ∧ (w.Flush bit).count = 8 ∧
      (w.Flush bit).bits = w.bits ++ List.replicate k bit := by
  have h2 := hw.2.1
  exact flushLoop_spec bit 256 w hw (Or.inr (by omega))

theorem bits_of_count_eight (w : BitWriter) (h : w.count = 8) : w.bits = bytesBits w.out := by
  simp [BitWriter.bits, h]

theorem NewWriter_bits : BitWriter.NewWriter.bits = [] := rfl

/-! ## The bit reader -/

theorem num_split (h P T K : Nat) (hT : T < P) (hK : 0 < K) :
    (h * P + T) / (K * P) = h / K ∧ (h * P + T) % (K * P) = (h % K) * P + T := by
  have hP : 0 < P := by omega
  have hlt : (h % K) * P + T < K * P := by
    have h1 : h % K + 1 ≤ K := Nat.mod_lt _ hK
    calc (h % K) * P + T < (h % K) * P + P := by omega
      _ = (h % K + 1) * P := by ring
      _ ≤ K * P := Nat.mul_le_mul_right _ h1
  have heq : (h % K) * P + T + K * P * (h / K) = h * P + T := by
    have := Nat.mod_add_div h K
    calc (h % K) * P + T + K * P * (h / K) = (h % K + K * (h / K)) * P + T := by ring
      _ = h * P + T := by rw [this]
  exact (Nat.div_mod_unique (Nat.mul_pos hK hP)).2 ⟨heq, hlt⟩

theorem psi_step (M k acc R m : Nat) (hk : k ≤ m) (hm : m ≤ M) :
    (2 ^ k * acc + R / 2 ^ (M - k)) * 2 ^ (m - k) + (R % 2 ^ (M - k)) / 2 ^ (M - m) =
      acc * 2 ^ m + R / 2 ^ (M - m) := by
  have e1 : (2 : Nat) ^ (M - k) = 2 ^ (m - k) * 2 ^ (M - m) := by
    rw [← pow_add]; congr 1; omega
  have e4 : (2 : Nat) ^ m = 2 ^ k * 2 ^ (m - k) := by
    rw [← pow_add]; congr 1; omega
  have hD : 0 < 2 ^ (M - m) := by positivity
  have h3 : R / 2 ^ (M - m) =
      (R % 2 ^ (M - k)) / 2 ^ (M - m) + 2 ^ (m - k) * (R / 2 ^ (M - k)) := by
    have hmd := Nat.mod_add_div R (2 ^ (M - k))
    generalize R / 2 ^ (M - k) = q at hmd ⊢
    generalize R % 2 ^ (M - k) = r at hmd ⊢
    rw [e1] at hmd
    have hu : R = r + 2 ^ (M - m) * (2 ^ (m - k) * q) := by
      rw [← hmd]; ring
    conv_lhs => rw [hu]
    rw [Nat.add_mul_div_left _ _ hD]
  rw [h3, e4]
  ring

theorem psi_rem (M k R m : Nat) (hk : k ≤ m) (hm : m ≤ M) :
    (R % 2 ^ (M - k)) % 2 ^ (M - m) = R % 2 ^ (M - m) := by
  apply Nat.mod_mod_of_dvd
  exact pow_dvd_pow 2 (by omega)

theorem reader_value_lt (rd : BitReader) (h : rd.WF) : rd.value < 2 ^ rd.nbits := by
  obtain ⟨h1, h2, _⟩ := h
  have hT : beUint rd.r < 2 ^ (8 * rd.r.length) := by
    rw [← pow256]; exact beUint_lt _
  have hh : rd.b / 2 ^ (8 - rd.count) < 2 ^ rd.count := by
    apply Nat.div_lt_of_lt_mul
    rw [← pow_add]
    have : 8 - rd.count + rd.count = 8 := by omega
    rw [this]; exact h2
  rw [BitReader.value, BitReader.nbits, pow_add]
  calc rd.b / 2 ^ (8 - rd.count) * 2 ^ (8 * rd.r.length) + beUint rd.r
      < rd.b / 2 ^ (8 - rd.count) * 2 ^ (8 * rd.r.length) + 2 ^ (8 * rd.r.length) := by omega
    _ = (rd.b / 2 ^ (8 - rd.count) + 1) * 2 ^ (8 * rd.r.length) := by ring
    _ ≤ 2 ^ rd.count * 2 ^ (8 * rd.r.length) := Nat.mul_le_mul_right _ hh

theorem reader_bits_eq (rd : BitReader) (h : rd.WF) :
    rd.bits = lowBits rd.nbits rd.value := by
  obtain ⟨h1, h2, _⟩ := h
  have hT : beUint rd.r < 2 ^ (8 * rd.r.length) := by
    rw [← pow256]; exact beUint_lt _
  rw [BitReader.bits, BitReader.nbits, BitReader.value, lowBits_append _ _ _ _ hT,
    bytesBits_eq_lowBits, take_byteBits _ _ (by omega)]

theorem and_0x80 : ∀ x, x < 256 → decide (x &&& 0x80 ≠ 0) = decide (x / 128 = 1) := by
  decide!

theorem ReadBit_eof (rd : BitReader) (h : rd.nbits = 0) :
    rd.ReadBit = (.error .EOF, rd) := by
  have hc : rd.count = 0 := by unfold BitReader.nbits at h; omega
  have hr : rd.r = [] := by
    unfold BitReader.nbits at h
    have : rd.r.length = 0 := by omega
    exact List.length_eq_zero.mp this
  unfold BitReader.ReadBit
  rw [if_pos hc, hr]

theorem pow_split8 (c n : Nat) : (2 : Nat) ^ (c + 8 * n) = 2 ^ c * 2 ^ (8 * n) := pow_add _ _ _

theorem ReadBit_spec (rd : BitReader) (h : rd.WF) (hn : 0 < rd.nbits) :
    ∃ rd1, rd.ReadBit = (.ok (decide (rd.value / 2 ^ (rd.nbits - 1) = 1)), rd1) ∧ rd1.WF ∧
      rd1.nbits = rd.nbits - 1 ∧ rd1.value = rd.value % 2 ^ (rd.nbits - 1) := by
  obtain ⟨h1, h2, h3⟩ := h
  rcases rd with ⟨r, b, c⟩
  simp only at h1 h2 h3
  by_cases hc : c = 0
  · subst hc
    cases r with
    | nil => simp [BitReader.nbits] at hn
    | cons x rest =>
      have hT : beUint rest < 2 ^ (8 * rest.length) := by
        rw [← pow256]; exact beUint_lt _
      have hx := x.isLt
      have hval : BitReader.value { r := x :: rest, b := b, count := 0 } =
          x.val * 2 ^ (8 * rest.length) + beUint rest := by
        have hb0 : b / 2 ^ (8 - 0) = 0 := Nat.div_eq_of_lt (by simpa using h2)
        simp only [BitReader.value, beUint_cons, pow256, hb0, Nat.zero_mul, Nat.zero_add]
      have hnb : BitReader.nbits { r := x :: rest, b := b, count := 0 } - 1 =
          7 + 8 * rest.length := by
        simp only [BitReader.nbits, List.length_cons]; omega
      have hs := num_split x.val _ _ (2 ^ 7) hT (by positivity)
      rw [hval, hnb, pow_split8, hs.1, hs.2]
      refine ⟨{ r := rest, b := (x.val <<< 1) % 256, count := 7 }, ?_, ?_, ?_, ?_⟩
      · simp only [BitReader.ReadBit, if_true, and_0x80 _ hx]
        norm_num
      · refine ⟨le_refl _, Nat.mod_lt _ (by decide), ?_⟩
        intro _
        dsimp only
        rw [Nat.shiftLeft_eq]
        omega
      · simp only [BitReader.nbits]
      · simp only [BitReader.value, Nat.shiftLeft_eq]
        congr 2
        omega
  · have h3' := h3 hc
    have hT : beUint r < 2 ^ (8 * r.length) := by
      rw [← pow256]; exact beUint_lt _
    have hcc : (c + 255) % 256 = c - 1 := by omega
    have hnb : BitReader.nbits { r := r, b := b, count := c } - 1 = (c - 1) + 8 * r.length := by
      simp only [BitReader.nbits]; omega
    have hval : BitReader.value { r := r, b := b, count := c } =
        b / 2 ^ (8 - c) * 2 ^ (8 * r.length) + beUint r := rfl
    have hbit : b / 2 ^ (8 - c) / 2 ^ (c - 1) = b / 128 := by
      rw [Nat.div_div_eq_div_mul, ← pow_add]
      have : 8 - c + (c - 1) = 7 := by omega
      rw [this]
      norm_num
    have hs := num_split (b / 2 ^ (8 - c)) _ _ (2 ^ (c - 1)) hT (by positivity)
    rw [hval, hnb, pow_split8, hs.1, hs.2, hbit]
    refine ⟨{ r := r, b := (b <<< 1) % 256, count := c - 1 }, ?_, ?_, ?_, ?_⟩
    · simp only [BitReader.ReadBit, if_neg hc, hcc, and_0x80 _ h2]
    · refine ⟨by dsimp only; omega, Nat.mod_lt _ (by decide), ?_⟩
      intro hc1
      dsimp only at hc1 ⊢
      rw [Nat.shiftLeft_eq]
      have hc8 : c < 8 := by omega
      interval_cases c <;> simp_all <;> omega
    · simp only [BitReader.nbits]
    · simp only [BitReader.value, Nat.shiftLeft_eq]
      congr 2
      have hc8 : c < 8 := by omega
      interval_cases c <;> simp_all <;> omega

theorem ReadByte_spec (rd : BitReader) (h : rd.WF) (hn : 8 ≤ rd.nbits) :
    ∃ rd1, rd.ReadByte = (.ok (rd.value / 2 ^ (rd.nbits - 8)), rd1) ∧ rd1.WF ∧
      rd1.nbits = rd.nbits - 8 ∧ rd1.value = rd.value % 2 ^ (rd.nbits - 8) := by
  obtain ⟨h1, h2, h3⟩ := h
  rcases rd with ⟨r, b, c⟩
  simp only at h1 h2 h3
  cases r with
  | nil => simp only [BitReader.nbits, List.length_nil] at hn; omega
  | cons x rest =>
    have hT : beUint rest < 2 ^ (8 * rest.length) := by
      rw [← pow256]; exact beUint_lt _
    have hx := x.isLt
    have hnb : BitReader.nbits { r := x :: rest, b := b, count := c } - 8 =
        c + 8 * rest.length := by
      simp only [BitReader.nbits, List.length_cons]; omega
    have hval : BitReader.value { r := x :: rest, b := b, count := c } =
        (b / 2 ^ (8 - c) * 256 + x.val) * 2 ^ (8 * rest.length) + beUint rest := by
      simp only [BitReader.value, beUint_cons, pow256, List.length_cons]
      have : 8 * (rest.length + 1) = 8 + 8 * rest.length := by ring
      rw [this, pow_add]
      ring
    have hs := num_split (b / 2 ^ (8 - c) * 256 + x.val) _ _ (2 ^ c) hT (by positivity)
    rw [hval, hnb, pow_split8, hs.1, hs.2]
    by_cases hc : c = 0
    · subst hc
      have hb0 : b / 2 ^ (8 - 0) = 0 := Nat.div_eq_of_lt (by simpa using h2)
      refine ⟨{ r := rest, b := x.val, count := 0 }, ?_, ?_, ?_, ?_⟩
      · simp only [BitReader.ReadByte, if_true, hb0]
        simp
      · exact ⟨by dsimp only; omega, hx, fun hc => absurd rfl hc⟩
      · simp only [BitReader.nbits]
      · simp only [BitReader.value, hb0]
        have : x.val / 2 ^ (8 - 0) = 0 := Nat.div_eq_of_lt (by simp)
        rw [this]
        simp [Nat.mod_one]
    · have h3' := h3 hc
      have hcm : c % 256 = c := by omega
      have hs8 : (8 + 256 - c) % 256 = 8 - c := by omega
      have hH : x.val / 2 ^ c < 2 ^ (8 - c) := by
        apply Nat.div_lt_of_lt_mul
        rw [← pow_add]
        have : c + (8 - c) = 8 := by omega
        rw [this]; exact hx
      clear hs hval hnb
      refine ⟨{ r := rest, b := (x.val <<< (8 - c)) % 256, count := c }, ?_, ?_, ?_, ?_⟩
      · simp only [BitReader.ReadByte, if_neg hc, hcm, hs8, Nat.shiftRight_eq_div_pow,
          or_eq_add_of_mod _ _ _ h3' hH]
        congr 2
        have hc8 : c < 8 := by omega
        interval_cases c <;> simp_all <;> omega
      · refine ⟨h1, Nat.mod_lt _ (by decide), ?_⟩
        intro _
        dsimp only
        rw [Nat.shiftLeft_eq]
        have hc8 : c < 8 := by omega
        interval_cases c <;> simp_all <;> omega
      · simp only [BitReader.nbits]
      · simp only [BitReader.value, Nat.shiftLeft_eq, hs8]
        congr 2
        have hc8 : c < 8 := by omega
        interval_cases c <;> simp_all <;> omega

theorem readBitsBytes_spec (fuel : Nat) :
    ∀ (rd : BitReader) (acc m : Nat), rd.WF → m ≤ rd.nbits → m ≤ 64 → acc < 2 ^ (64 - m) →
      m < 8 * fuel + 8 →
      ∃ rd1 acc1 m1, BitReader.readBitsBytes fuel rd acc (m : Int) =
          (.ok (acc1, ((m1 : Nat) : Int)), rd1) ∧
        rd1.WF ∧ m1 < 8 ∧ m1 ≤ rd1.nbits ∧ rd1.nbits - m1 = rd.nbits - m ∧
        acc1 < 2 ^ (64 - m1) ∧
        acc1 * 2 ^ m1 + rd1.value / 2 ^ (rd1.nbits - m1) =
          acc * 2 ^ m + rd.value / 2 ^ (rd.nbits - m) ∧
        rd1.value % 2 ^ (rd1.nbits - m1) = rd.value % 2 ^ (rd.nbits - m) := by
  induction fuel with
  | zero =>
    intro rd acc m hw hm hm64 hacc hf
    exact ⟨rd, acc, m, rfl, hw, by omega, hm, rfl, hacc, rfl, rfl⟩
  | succ fuel ih =>
    intro rd acc m hw hm hm64 hacc hf
    by_cases hge : (m : Int) ≥ 8
    · have hm8 : 8 ≤ m := by omega
      have hsub : (m : Int) - 8 = ((m - 8 : Nat) : Int) := by omega
      obtain ⟨rd1, hrd, hw1, hn1, hv1⟩ := ReadByte_spec rd hw (by omega)
      have hbyte : rd.value / 2 ^ (rd.nbits - 8) < 256 := by
        apply Nat.div_lt_of_lt_mul
        have := reader_value_lt rd hw
        have e : 2 ^ (rd.nbits - 8) * 256 = 2 ^ rd.nbits := by
          have : (256 : Nat) = 2 ^ 8 := by norm_num
          rw [this, ← pow_add]; congr 1; omega
        rw [e]; exact this
      have hacc56 : acc * 256 < 2 ^ 64 := by
        have : (2 : Nat) ^ (64 - m) ≤ 2 ^ 56 := Nat.pow_le_pow_right (by decide) (by omega)
        have h2 : acc < 2 ^ 56 := lt_of_lt_of_le hacc this
        norm_num at h2 ⊢
        omega
      have hor := shl8_or acc (rd.value / 2 ^ (rd.nbits - 8)) hacc56 hbyte
      have hacc' : acc * 256 + rd.value / 2 ^ (rd.nbits - 8) < 2 ^ (64 - (m - 8)) := by
        have e : (2 : Nat) ^ (64 - (m - 8)) = 2 ^ (64 - m) * 256 := by
          have : (256 : Nat) = 2 ^ 8 := by norm_num
          rw [this, ← pow_add]; congr 1; omega
        rw [e]
        have : acc + 1 ≤ 2 ^ (64 - m) := hacc
        calc acc * 256 + rd.value / 2 ^ (rd.nbits - 8) < acc * 256 + 256 := by omega
          _ = (acc + 1) * 256 := by ring
          _ ≤ 2 ^ (64 - m) * 256 := Nat.mul_le_mul_right _ this
      obtain ⟨rd2, acc2, m2, heq, hw2, hm2, hm2', hn2, hacc2, hv2, hr2⟩ :=
        ih rd1 (acc * 256 + rd.value / 2 ^ (rd.nbits - 8)) (m - 8) hw1 (by omega) (by omega)
          hacc' (by omega)
      refine ⟨rd2, acc2, m2, ?_, hw2, hm2, hm2', by omega, hacc2, ?_, ?_⟩
      · rw [BitReader.readBitsBytes, if_pos hge, hrd]
        simp only [hor, hsub, heq]
      · rw [hv2, hv1, hn1]
        have e : rd.nbits - 8 - (m - 8) = rd.nbits - m := by omega
        rw [e]
        have := psi_step rd.nbits 8 acc rd.value m hm8 hm
        norm_num at this ⊢
        rw [← this]
        ring
      · rw [hr2, hv1, hn1]
        have e : rd.nbits - 8 - (m - 8) = rd.nbits - m := by omega
        rw [e]
        exact psi_rem rd.nbits 8 rd.value m hm8 hm
    · refine ⟨rd, acc, m, ?_, hw, by omega, hm, rfl, hacc, rfl, rfl⟩
      rw [BitReader.readBitsBytes, if_neg hge]

theorem toNat_decide_eq_one (q : Nat) (h : q < 2) : (decide (q = 1)).toNat = q := by
  interval_cases q <;> simp

theorem readBitsBits_spec (fuel : Nat) :
    ∀ (rd : BitReader) (acc m : Nat), rd.WF → m ≤ rd.nbits → m ≤ 64 → acc < 2 ^ (64 - m) →
      m ≤ fuel →
      ∃ rd1, BitReader.readBitsBits fuel rd acc (m : Int) =
          (.ok (acc * 2 ^ m + rd.value / 2 ^ (rd.nbits - m)), rd1) ∧
        rd1.WF ∧ rd1.nbits = rd.nbits - m ∧ rd1.value = rd.value % 2 ^ (rd.nbits - m) := by
  have base : ∀ (rd : BitReader) (acc : Nat), rd.WF →
      acc = acc * 2 ^ 0 + rd.value / 2 ^ (rd.nbits - 0) ∧
        rd.value = rd.value % 2 ^ (rd.nbits - 0) := by
    intro rd acc hw
    have := reader_value_lt rd hw
    simp only [Nat.sub_zero, pow_zero, Nat.mul_one]
    rw [Nat.div_eq_of_lt this, Nat.mod_eq_of_lt this]
    simp
  induction fuel with
  | zero =>
    intro rd acc m hw hm hm64 hacc hf
    have hm0 : m = 0 := by omega
    subst hm0
    obtain ⟨b1, b2⟩ := base rd acc hw
    refine ⟨rd, ?_, hw, rfl, b2⟩
    rw [BitReader.readBitsBits, ← b1]
  | succ fuel ih =>
    intro rd acc m hw hm hm64 hacc hf
    by_cases hpos : (m : Int) > 0
    · have hm1 : 1 ≤ m := by omega
      have hsub : (m : Int) - 1 = ((m - 1 : Nat) : Int) := by omega
      obtain ⟨rd1, hrd, hw1, hn1, hv1⟩ := ReadBit_spec rd hw (by omega)
      have hq : rd.value / 2 ^ (rd.nbits - 1) < 2 := by
        apply Nat.div_lt_of_lt_mul
        have := reader_value_lt rd hw
        have e : 2 ^ (rd.nbits - 1) * 2 = 2 ^ rd.nbits := by
          rw [← pow_succ]; congr 1; omega
        rw [e]; exact this
      have hacc63 : acc < 2 ^ 63 :=
        lt_of_lt_of_le hacc (Nat.pow_le_pow_right (by decide) (by omega))
      have hu1 : (acc <<< 1) % 2 ^ 64 = 2 * acc := by
        rw [Nat.shiftLeft_eq]
        norm_num at hacc63 ⊢
        omega
      have hnew : (if decide (rd.value / 2 ^ (rd.nbits - 1) = 1) = true
            then (acc <<< 1) % 2 ^ 64 ||| 1 else (acc <<< 1) % 2 ^ 64) =
          2 * acc + rd.value / 2 ^ (rd.nbits - 1) := by
        rw [hu1]
        by_cases h1 : rd.value / 2 ^ (rd.nbits - 1) = 1
        · rw [h1]
          simp only [decide_True, if_true]
          exact or_eq_add_of_mod (2 * acc) 1 1 (by omega) (by decide)
        · have h0 : rd.value / 2 ^ (rd.nbits - 1) = 0 := by
            generalize rd.value / 2 ^ (rd.nbits - 1) = q at hq h1 ⊢
            omega
          simp [h0]
      have hacc' : 2 * acc + rd.value / 2 ^ (rd.nbits - 1) < 2 ^ (64 - (m - 1)) := by
        have e : (2 : Nat) ^ (64 - (m - 1)) = 2 ^ (64 - m) * 2 := by
          rw [← pow_succ]; congr 1; omega
        rw [e]
        have : acc + 1 ≤ 2 ^ (64 - m) := hacc
        generalize rd.value / 2 ^ (rd.nbits - 1) = q at hq ⊢
        generalize 2 ^ (64 - m) = a at this ⊢
        omega
      obtain ⟨rd2, heq, hw2, hn2, hv2⟩ :=
        ih rd1 (2 * acc + rd.value / 2 ^ (rd.nbits - 1)) (m - 1) hw1 (by omega) (by omega)
          hacc' (by omega)
      refine ⟨rd2, ?_, hw2, by omega, ?_⟩
      · rw [BitReader.readBitsBits, if_pos hpos, hrd]
        simp only [hnew, hsub, heq, hv1, hn1]
        have e : rd.nbits - 1 - (m - 1) = rd.nbits - m := by omega
        rw [e]
        have := psi_step rd.nbits 1 acc rd.value m hm1 hm
        norm_num at this ⊢
        rw [← this]
      · rw [hv2, hv1, hn1]
        have e : rd.nbits - 1 - (m - 1) = rd.nbits - m := by omega
        rw [e]
        exact psi_rem rd.nbits 1 rd.value m hm1 hm
    · have hm0 : m = 0 := by omega
      subst hm0
      obtain ⟨b1, b2⟩ := base rd acc hw
      refine ⟨rd, ?_, hw, rfl, b2⟩
      rw [BitReader.readBitsBits, if_neg hpos, ← b1]

theorem ReadBits_spec (rd : BitReader) (hw : rd.WF) (n : Nat) (hn : n ≤ 64)
    (hm : n ≤ rd.nbits) :
    ∃ rd1, rd.ReadBits (n : Int) = (.ok (rd.value / 2 ^ (rd.nbits - n)), rd1) ∧ rd1.WF ∧
      rd1.nbits = rd.nbits - n ∧ rd1.value = rd.value % 2 ^ (rd.nbits - n) := by
  obtain ⟨rd1, acc1, m1, heq, hw1, hm1, hm1', hn1, hacc1, hv1, hr1⟩ :=
    readBitsBytes_spec n rd 0 n hw hm hn (by positivity) (by omega)
  obtain ⟨rd2, heq2, hw2, hn2, hv2⟩ :=
    readBitsBits_spec m1 rd1 acc1 m1 hw1 hm1' (by omega) hacc1 (le_refl _)
  refine ⟨rd2, ?_, hw2, by omega, by rw [hv2, hr1]⟩
  unfold BitReader.ReadBits
  simp only [Int.toNat_ofNat, heq, heq2, hv1]
  simp

theorem reader_split (rd : BitReader) (hw : rd.WF) (n : Nat) (pre rest : List Bool)
    (hlen : pre.length = n) (hb : rd.bits = pre ++ rest) :
    n ≤ rd.nbits ∧ rd.value / 2 ^ (rd.nbits - n) < 2 ^ n ∧
      lowBits n (rd.value / 2 ^ (rd.nbits - n)) = pre ∧
      lowBits (rd.nbits - n) (rd.value % 2 ^ (rd.nbits - n)) = rest := by
  have hbe := reader_bits_eq rd hw
  have hM : rd.nbits = n + rest.length := by
    have := congrArg List.length hb
    rw [hbe, lowBits_length, List.length_append, hlen] at this
    exact this
  have hle : n ≤ rd.nbits := by omega
  have hq : rd.value / 2 ^ (rd.nbits - n) < 2 ^ n := by
    apply Nat.div_lt_of_lt_mul
    rw [← pow_add]
    have : rd.nbits - n + n = rd.nbits := by omega
    rw [this]
    exact reader_value_lt rd hw
  have hsplit : lowBits rd.nbits rd.value =
      lowBits n (rd.value / 2 ^ (rd.nbits - n)) ++ lowBits (rd.nbits - n) rd.value := by
    have e : rd.nbits = n + (rd.nbits - n) := by omega
    conv_lhs => rw [e]
    rw [lowBits_split]
  rw [hbe, hsplit] at hb
  have hinj := List.append_inj hb (by rw [lowBits_length, hlen])
  exact ⟨hle, hq, hinj.1, by rw [lowBits_mod _ _ _ (le_refl _)]; exact hinj.2⟩

theorem ReadBits_bits (rd : BitReader) (hw : rd.WF) (n u : Nat) (rest : List Bool)
    (hn : n ≤ 64) (hu : u < 2 ^ n) (hb : rd.bits = lowBits n u ++ rest) :
    ∃ rd1, rd.ReadBits (n : Int) = (.ok u, rd1) ∧ rd1.WF ∧ rd1.bits = rest := by
  obtain ⟨hle, hq, h1, h2⟩ := reader_split rd hw n _ rest (lowBits_length n u) hb
  obtain ⟨rd1, heq, hw1, hn1, hv1⟩ := ReadBits_spec rd hw n hn hle
  have hqu := lowBits_inj n _ _ hq hu h1
  refine ⟨rd1, by rw [heq, hqu], hw1, ?_⟩
  rw [reader_bits_eq rd1 hw1, hn1, hv1, h2]

theorem ReadBit_bits (rd : BitReader) (hw : rd.WF) (bit : Bool) (rest : List Bool)
    (hb : rd.bits = bit :: rest) :
    ∃ rd1, rd.ReadBit = (.ok bit, rd1) ∧ rd1.WF ∧ rd1.bits = rest := by
  have hb' : rd.bits = lowBits 1 bit.toNat ++ rest := by rw [lowBits_one]; exact hb
  obtain ⟨hle, hq, h1, h2⟩ := reader_split rd hw 1 _ rest (lowBits_length 1 _) hb'
  obtain ⟨rd1, heq, hw1, hn1, hv1⟩ := ReadBit_spec rd hw (by omega)
  have hqu := lowBits_inj 1 _ _ hq (by cases bit <;> simp) h1
  refine ⟨rd1, ?_, hw1, ?_⟩
  · rw [heq, hqu]
    cases bit <;> rfl
  · rw [reader_bits_eq rd1 hw1, hn1, hv1, h2]

theorem NewReader_WF (b : List Byte) : (BitReader.NewReader b).WF := by
  simp [BitReader.NewReader, BitReader.WF]

theorem aligned_reader_WF (r : List Byte) (b : Nat) (hb : b < 256) :
    BitReader.WF { r := r, b := b, count := 0 } := by
  simp [BitReader.WF, hb]

theorem aligned_reader_bits (r : List Byte) (b : Nat) :
    BitReader.bits { r := r, b := b, count := 0 } = bytesBits r := by
  simp [BitReader.bits]

/-! ## Leading and trailing zero counts -/

theorem clzLoop_spec (fuel : Nat) : ∀ x, x < 2 ^ fuel →
    clzLoop fuel x ≤ fuel ∧ x < 2 ^ (fuel - clzLoop fuel x) ∧
      (x ≠ 0 → clzLoop fuel x < fuel ∧ 2 ^ (fuel - clzLoop fuel x - 1) ≤ x) := by
  induction fuel with
  | zero =>
    intro x hx
    simp only [pow_zero, Nat.lt_one_iff] at hx
    subst hx
    simp [clzLoop]
  | succ fuel ih =>
    intro x hx
    have hq : x / 2 ^ fuel < 2 := by
      apply Nat.div_lt_of_lt_mul
      rw [← pow_succ]; exact hx
    by_cases hb : (x >>> fuel) % 2 = 1
    · rw [clzLoop, if_pos hb]
      rw [Nat.shiftRight_eq_div_pow] at hb
      have h1 : x / 2 ^ fuel = 1 := by
        generalize x / 2 ^ fuel = q at hq hb ⊢
        omega
      have hge : 2 ^ fuel ≤ x := by
        by_contra hc
        rw [Nat.div_eq_of_lt (by omega)] at h1
        omega
      refine ⟨by omega, by simpa using hx, fun _ => ⟨by omega, by simpa using hge⟩⟩
    · rw [clzLoop, if_neg hb]
      rw [Nat.shiftRight_eq_div_pow] at hb
      have h0 : x / 2 ^ fuel = 0 := by
        generalize x / 2 ^ fuel = q at hq hb ⊢
        omega
      have hlt : x < 2 ^ fuel := by
        by_contra hc
        have : 1 ≤ x / 2 ^ fuel := (Nat.one_le_div_iff (by positivity)).2 (by omega)
        omega
      obtain ⟨i1, i2, i3⟩ := ih x hlt
      have e : fuel + 1 - (1 + clzLoop fuel x) = fuel - clzLoop fuel x := by omega
      refine ⟨by omega, by rw [e]; exact i2, fun hx0 => ?_⟩
      obtain ⟨j1, j2⟩ := i3 hx0
      exact ⟨by omega, by rw [e]; exact j2⟩

theorem Clz_spec (x : Nat) (hx : x < 2 ^ 64) :
    Clz x ≤ 64 ∧ x < 2 ^ (64 - Clz x) ∧ (x ≠ 0 → Clz x ≤ 63 ∧ 2 ^ (63 - Clz x) ≤ x) := by
  unfold Clz
  rw [Nat.mod_eq_of_lt hx]
  obtain ⟨h1, h2, h3⟩ := clzLoop_spec 64 x hx
  refine ⟨h1, h2, fun hx0 => ?_⟩
  obtain ⟨j1, j2⟩ := h3 hx0
  have e : 64 - clzLoop 64 x - 1 = 63 - clzLoop 64 x := by omega
  exact ⟨by omega, by rw [← e]; exact j2⟩

theorem ctzLoop_spec (fuel : Nat) : ∀ x,
    ctzLoop fuel x ≤ fuel ∧ 2 ^ ctzLoop fuel x ∣ x ∧
      (x ≠ 0 → x < 2 ^ fuel → ctzLoop fuel x < fuel) := by
  induction fuel with
  | zero =>
    intro x
    refine ⟨by simp [ctzLoop], by simp [ctzLoop], fun h0 hx => ?_⟩
    simp only [pow_zero, Nat.lt_one_iff] at hx
    exact absurd hx h0
  | succ fuel ih =>
    intro x
    by_cases hb : x % 2 = 1
    · rw [ctzLoop, if_pos hb]
      exact ⟨by omega, by simp, fun _ _ => by omega⟩
    · rw [ctzLoop, if_neg hb]
      obtain ⟨i1, i2, i3⟩ := ih (x / 2)
      refine ⟨by omega, ?_, fun h0 hx => ?_⟩
      · have hx2 : x = 2 * (x / 2) := by omega
        have e : 2 ^ (1 + ctzLoop fuel (x / 2)) = 2 * 2 ^ ctzLoop fuel (x / 2) := by
          rw [Nat.add_comm, pow_succ]; ring
        rw [e]
        conv_rhs => rw [hx2]
        exact Nat.mul_dvd_mul_left 2 i2
      · have := i3 (by omega) (by rw [pow_succ] at hx; omega)
        omega

theorem Ctz_spec (x : Nat) (hx : x < 2 ^ 64) :
    Ctz x ≤ 64 ∧ 2 ^ Ctz x ∣ x ∧ (x ≠ 0 → Ctz x ≤ 63) := by
  unfold Ctz
  rw [Nat.mod_eq_of_lt hx]
  obtain ⟨h1, h2, h3⟩ := ctzLoop_spec 64 x
  exact ⟨h1, h2, fun h0 => by have := h3 h0 hx; omega⟩

theorem Clz_add_Ctz (x : Nat) (hx : x < 2 ^ 64) (h0 : x ≠ 0) : Clz x + Ctz x ≤ 63 := by
  obtain ⟨c1, c2, _⟩ := Clz_spec x hx
  obtain ⟨t1, t2, _⟩ := Ctz_spec x hx
  have hle : 2 ^ Ctz x ≤ x := Nat.le_of_dvd (by omega) t2
  have hlt : 2 ^ Ctz x < 2 ^ (64 - Clz x) := lt_of_le_of_lt hle c2
  have := (Nat.pow_lt_pow_iff_right (by decide : 1 < 2)).1 hlt
  omega

/-- The payload of a window: what lies between `sl` leading and `st` trailing zeros. -/
theorem window_payload (d sl st : Nat) (hd : d < 2 ^ 64) (h0 : d ≠ 0)
    (hl : sl ≤ Clz d) (ht : st ≤ Ctz d) :
    sl + st ≤ 63 ∧ shr64 d st = d / 2 ^ st ∧ d / 2 ^ st < 2 ^ (64 - sl - st) ∧
      d / 2 ^ st * 2 ^ st = d ∧ shl64 (d / 2 ^ st) st = d := by
  have hsum := Clz_add_Ctz d hd h0
  obtain ⟨c1, c2, _⟩ := Clz_spec d hd
  obtain ⟨t1, t2, _⟩ := Ctz_spec d hd
  have hst : st < 64 := by omega
  have hdvd : 2 ^ st ∣ d := Dvd.dvd.trans (pow_dvd_pow 2 ht) t2
  have hmul : d / 2 ^ st * 2 ^ st = d := Nat.div_mul_cancel hdvd
  have hlt : d < 2 ^ (64 - sl) :=
    lt_of_lt_of_le c2 (Nat.pow_le_pow_right (by decide) (by omega))
  refine ⟨by omega, ?_, ?_, hmul, ?_⟩
  · unfold shr64
    rw [if_neg (by omega), Nat.shiftRight_eq_div_pow]
  · apply Nat.div_lt_of_lt_mul
    rw [← pow_add]
    have : st + (64 - sl - st) = 64 - sl := by omega
    rw [this]; exact hlt
  · unfold shl64
    rw [if_neg (by omega), Nat.shiftLeft_eq, hmul, Nat.mod_eq_of_lt hd]

/-! ## The float encoder -/

theorem toInt64_small (x : Nat) (h : x < 2 ^ 63) : toInt64 x = (x : Int) := by
  unfold toInt64
  have : x % 2 ^ 64 = x := Nat.mod_eq_of_lt (lt_trans h (by norm_num))
  rw [this, if_pos h]

theorem sub64_small (a b : Nat) (ha : a < 2 ^ 64) (hb : b ≤ a) : sub64 a b = a - b := by
  unfold sub64
  norm_num at ha ⊢
  omega

theorem sub64_sig (L T : Nat) (h : L + T ≤ 64) : sub64 (sub64 64 L) T = 64 - L - T := by
  rw [sub64_small 64 L (by norm_num) (by omega), sub64_small (64 - L) T _ (by omega)]
  exact lt_of_le_of_lt (Nat.sub_le _ _) (by norm_num)

theorem Push_first (s : FloatEncoder) (v : Nat) (h : s.first = true) :
    s.Push v = { s with val := v, first := false, bw := s.bw.WriteBits v 64 } := by
  simp only [FloatEncoder.Push, h, if_true]

theorem Push_zero (s : FloatEncoder) (v : Nat) (h : s.first = false) (hd : v ^^^ s.val = 0) :
    s.Push v = { s with bw := s.bw.WriteBit false, val := v } := by
  simp only [FloatEncoder.Push, h, hd, if_true, Bool.false_eq_true, if_false]

theorem Push_reuse (s : FloatEncoder) (v : Nat) (h : s.first = false) (hd : v ^^^ s.val ≠ 0)
    (hc : s.leading ≠ allOnes ∧ Clz (v ^^^ s.val) ≥ s.leading ∧
      Ctz (v ^^^ s.val) ≥ s.trailing) :
    s.Push v =
      { s with
        bw := ((s.bw.WriteBit true).WriteBit false).WriteBits (shr64 (v ^^^ s.val) s.trailing)
          (64 - toInt64 s.leading - toInt64 s.trailing),
        val := v } := by
  simp only [FloatEncoder.Push, h, Bool.false_eq_true, if_false, if_neg hd, if_pos hc]

theorem Push_new (s : FloatEncoder) (v : Nat) (h : s.first = false) (hd : v ^^^ s.val ≠ 0)
    (hc : ¬ (s.leading ≠ allOnes ∧ Clz (v ^^^ s.val) ≥ s.leading ∧
      Ctz (v ^^^ s.val) ≥ s.trailing)) :
    s.Push v =
      { s with
        leading := Clz (v ^^^ s.val), trailing := Ctz (v ^^^ s.val),
        bw := ((((s.bw.WriteBit true).WriteBit true).WriteBits (Clz (v ^^^ s.val)) 5).WriteBits
            (sub64 (sub64 64 (Clz (v ^^^ s.val))) (Ctz (v ^^^ s.val))) 6).WriteBits
          (shr64 (v ^^^ s.val) (Ctz (v ^^^ s.val)))
          (toInt64 (sub64 (sub64 64 (Clz (v ^^^ s.val))) (Ctz (v ^^^ s.val)))),
        val := v } := by
  simp only [FloatEncoder.Push, h, Bool.false_eq_true, if_false, if_neg hd, if_neg hc]

theorem Push_first_bits (s : FloatEncoder) (v : Nat) (h : s.first = true) (hw : s.bw.WF) :
    (s.Push v).bw.WF ∧ (s.Push v).bw.bits = s.bw.bits ++ lowBits 64 v := by
  rw [Push_first s v h]
  exact WriteBits_bits s.bw hw v 64 (le_refl _)

theorem Push_reuse_bits (s : FloatEncoder) (v : Nat) (h : s.first = false) (hw : s.bw.WF)
    (hs : s.val < 2 ^ 64) (hv : v < 2 ^ 64) (hd : v ^^^ s.val ≠ 0)
    (hc : s.leading ≠ allOnes ∧ Clz (v ^^^ s.val) ≥ s.leading ∧
      Ctz (v ^^^ s.val) ≥ s.trailing) :
    (s.Push v).bw.WF ∧
      (s.Push v).bw.bits = s.bw.bits ++ ([true, false] ++
        lowBits (64 - s.leading - s.trailing) (shr64 (v ^^^ s.val) s.trailing)) ∧
      (s.Push v).leading = s.leading ∧ (s.Push v).trailing = s.trailing ∧
      s.leading + s.trailing ≤ 63 := by
  have hdl : v ^^^ s.val < 2 ^ 64 := Nat.xor_lt_two_pow hv hs
  obtain ⟨hsum, _⟩ := window_payload _ s.leading s.trailing hdl hd hc.2.1 hc.2.2
  have hn : (64 : Int) - toInt64 s.leading - toInt64 s.trailing =
      ((64 - s.leading - s.trailing : Nat) : Int) := by
    rw [toInt64_small _ (lt_of_le_of_lt (show s.leading ≤ 63 by omega) (by norm_num)),
      toInt64_small _ (lt_of_le_of_lt (show s.trailing ≤ 63 by omega) (by norm_num))]
    omega
  obtain ⟨w1, b1⟩ := WriteBit_bits s.bw hw true
  obtain ⟨w2, b2⟩ := WriteBit_bits _ w1 false
  obtain ⟨w3, b3⟩ := WriteBits_bits _ w2 (shr64 (v ^^^ s.val) s.trailing)
    (64 - s.leading - s.trailing) (by omega)
  rw [Push_reuse s v h hd hc, hn]
  refine ⟨w3, ?_, rfl, rfl, hsum⟩
  simp only [b3, b2, b1, List.append_assoc, List.singleton_append, List.cons_append,
    List.nil_append]

theorem Push_new_bits (s : FloatEncoder) (v : Nat) (h : s.first = false) (hw : s.bw.WF)
    (hs : s.val < 2 ^ 64) (hv : v < 2 ^ 64) (hd : v ^^^ s.val ≠ 0)
    (hc : ¬ (s.leading ≠ allOnes ∧ Clz (v ^^^ s.val) ≥ s.leading ∧
      Ctz (v ^^^ s.val) ≥ s.trailing)) :
    (s.Push v).bw.WF ∧
      (s.Push v).bw.bits = s.bw.bits ++ ([true, true] ++ lowBits 5 (Clz (v ^^^ s.val)) ++
        lowBits 6 (64 - Clz (v ^^^ s.val) - Ctz (v ^^^ s.val)) ++
        lowBits (64 - Clz (v ^^^ s.val) - Ctz (v ^^^ s.val))
          (shr64 (v ^^^ s.val) (Ctz (v ^^^ s.val)))) ∧
      (s.Push v).leading = Clz (v ^^^ s.val) ∧ (s.Push v).trailing = Ctz (v ^^^ s.val) ∧
      Clz (v ^^^ s.val) + Ctz (v ^^^ s.val) ≤ 63 := by
  have hdl : v ^^^ s.val < 2 ^ 64 := Nat.xor_lt_two_pow hv hs
  have hsum := Clz_add_Ctz _ hdl hd
  have hsig := sub64_sig (Clz (v ^^^ s.val)) (Ctz (v ^^^ s.val)) (by omega)
  have hn : toInt64 (64 - Clz (v ^^^ s.val) - Ctz (v ^^^ s.val)) =
      ((64 - Clz (v ^^^ s.val) - Ctz (v ^^^ s.val) : Nat) : Int) :=
    toInt64_small _ (lt_of_le_of_lt (show _ ≤ 64 by omega) (by norm_num))
  have h5 : (5 : Int) = ((5 : Nat) : Int) := rfl
  have h6 : (6 : Int) = ((6 : Nat) : Int) := rfl
  obtain ⟨w1, b1⟩ := WriteBit_bits s.bw hw true
  obtain ⟨w2, b2⟩ := WriteBit_bits _ w1 true
  obtain ⟨w3, b3⟩ := WriteBits_bits _ w2 (Clz (v ^^^ s.val)) 5 (by omega)
  obtain ⟨w4, b4⟩ := WriteBits_bits _ w3 (64 - Clz (v ^^^ s.val) - Ctz (v ^^^ s.val)) 6
    (by omega)
  obtain ⟨w5, b5⟩ := WriteBits_bits _ w4 (shr64 (v ^^^ s.val) (Ctz (v ^^^ s.val)))
    (64 - Clz (v ^^^ s.val) - Ctz (v ^^^ s.val)) (by omega)
  rw [Push_new s v h hd hc, hsig, hn, h5, h6]
  refine ⟨w5, ?_, rfl, rfl, hsum⟩
  simp only [b5, b4, b3, b2, b1, List.append_assoc, List.singleton_append, List.cons_append,
    List.nil_append]

theorem Push_zero_bits (s : FloatEncoder) (v : Nat) (h : s.first = false) (hw : s.bw.WF)
    (hd : v ^^^ s.val = 0) :
    (s.Push v).bw.WF ∧ (s.Push v).bw.bits = s.bw.bits ++ [false] ∧
      (s.Push v).leading = s.leading ∧ (s.Push v).trailing = s.trailing := by
  obtain ⟨w1, b1⟩ := WriteBit_bits s.bw hw false
  rw [Push_zero s v h hd]
  exact ⟨w1, b1, rfl, rfl⟩

theorem Push_val (s : FloatEncoder) (v : Nat) :
    (s.Push v).val = v ∧ (s.Push v).first = false ∧ (s.Push v).finished = s.finished := by
  by_cases h : s.first = true
  · rw [Push_first s v h]
    exact ⟨rfl, rfl, rfl⟩
  · have h' : s.first = false := by simpa using h
    by_cases hd : v ^^^ s.val = 0
    · rw [Push_zero s v h' hd]
      exact ⟨rfl, h', rfl⟩
    · by_cases hc : s.leading ≠ allOnes ∧ Clz (v ^^^ s.val) ≥ s.leading ∧
          Ctz (v ^^^ s.val) ≥ s.trailing
      · rw [Push_reuse s v h' hd hc]
        exact ⟨rfl, h', rfl⟩
      · rw [Push_new s v h' hd hc]
        exact ⟨rfl, h', rfl⟩

theorem Push_record (s : FloatEncoder) (v : Nat) (hg : s.Good) (h : s.first = false)
    (hv : v < 2 ^ 64) :
    (s.Push v).Good ∧ (s.Push v).bw.bits = s.bw.bits ++ s.record v := by
  obtain ⟨hw, hs, hwin⟩ := hg
  have hval := (Push_val s v).1
  by_cases hd : v ^^^ s.val = 0
  · obtain ⟨w1, b1, l1, t1⟩ := Push_zero_bits s v h hw hd
    refine ⟨⟨w1, by rw [hval]; exact hv, by rw [l1, t1]; exact hwin⟩, ?_⟩
    rw [b1, FloatEncoder.record, if_pos hd]
  · by_cases hc : s.leading ≠ allOnes ∧ Clz (v ^^^ s.val) ≥ s.leading ∧
        Ctz (v ^^^ s.val) ≥ s.trailing
    · obtain ⟨w1, b1, l1, t1, hsum⟩ := Push_reuse_bits s v h hw hs hv hd hc
      refine ⟨⟨w1, by rw [hval]; exact hv, by rw [l1, t1]; exact hwin⟩, ?_⟩
      rw [b1, FloatEncoder.record, if_neg hd, if_pos hc]
    · obtain ⟨w1, b1, l1, t1, hsum⟩ := Push_new_bits s v h hw hs hv hd hc
      refine ⟨⟨w1, by rw [hval]; exact hv, Or.inr (by rw [l1, t1]; omega)⟩, ?_⟩
      rw [b1, FloatEncoder.record, if_neg hd, if_neg hc]

/-! ## The float decoder on the records of the encoder -/

theorem Next_ctrl0 (it : FloatDecoder) (h0 : it.err = none) (h1 : it.finished = false)
    (h2 : it.first = false) (br1 : BitReader) (hr : it.br.ReadBit = (.ok false, br1)) :
    it.Next = (true, { it with br := br1 }) := by
  simp [FloatDecoder.Next, h0, h1, h2, hr]

theorem Next_reuse (it : FloatDecoder) (h0 : it.err = none) (h1 : it.finished = false)
    (h2 : it.first = false) (br1 br2 : BitReader) (hr1 : it.br.ReadBit = (.ok true, br1))
    (hr2 : br1.ReadBit = (.ok false, br2)) :
    it.Next = FloatDecoder.nextPayload { it with br := br2 } := by
  simp [FloatDecoder.Next, h0, h1, h2, hr1, hr2]

theorem Next_newWindow (it : FloatDecoder) (h0 : it.err = none) (h1 : it.finished = false)
    (h2 : it.first = false) (br1 br2 br3 br4 : BitReader) (bits mbits : Nat)
    (hr1 : it.br.ReadBit = (.ok true, br1)) (hr2 : br1.ReadBit = (.ok true, br2))
    (hr3 : br2.ReadBits 5 = (.ok bits, br3)) (hr4 : br3.ReadBits 6 = (.ok mbits, br4)) :
    it.Next = FloatDecoder.nextPayload
      { it with leading := bits, trailing := sub64 (sub64 64 bits) mbits, br := br4 } := by
  simp [FloatDecoder.Next, h0, h1, h2, hr1, hr2, hr3, hr4]

theorem nextPayload_window (it : FloatDecoder) (d v : Nat) (rest : List Bool)
    (hwf : it.br.WF) (hd : d < 2 ^ 64) (hd0 : d ≠ 0) (hl : it.leading ≤ Clz d)
    (ht : it.trailing ≤ Ctz d)
    (hb : it.br.bits =
      lowBits (64 - it.leading - it.trailing) (shr64 d it.trailing) ++ rest)
    (hv : it.val ^^^ d = v) :
    ∃ br1, br1.WF ∧ br1.bits = rest ∧
      it.nextPayload =
        if IsNaN v then (false, { it with br := br1, finished := true })
        else (true, { it with br := br1, val := v }) := by
  obtain ⟨hsum, hshr, hlt, hmul, hshl⟩ := window_payload d it.leading it.trailing hd hd0 hl ht
  have hm : toInt64 (sub64 (sub64 64 it.leading) it.trailing) =
      ((64 - it.leading - it.trailing : Nat) : Int) := by
    rw [sub64_sig _ _ (by omega)]
    exact toInt64_small _ (lt_of_le_of_lt (show _ ≤ 64 by omega) (by norm_num))
  rw [hshr] at hb
  obtain ⟨br1, hr, hw1, hb1⟩ :=
    ReadBits_bits it.br hwf (64 - it.leading - it.trailing) (d / 2 ^ it.trailing) rest
      (by omega) hlt hb
  rw [← hm] at hr
  refine ⟨br1, hw1, hb1, ?_⟩
  rw [nextPayload_ok it _ br1 hr, hshl, hv]

theorem Next_record (s : FloatEncoder) (it : FloatDecoder) (v : Nat) (rest : List Bool)
    (hsim : Sim s it) (hv : v < 2 ^ 64)
    (hfit : s.newWindow v = true →
      Clz (v ^^^ s.val) ≤ 31 ∧ 64 - Clz (v ^^^ s.val) - Ctz (v ^^^ s.val) ≤ 63)
    (hb : it.br.bits = s.record v ++ rest) :
    (IsNaN v = false →
      it.Next.1 = true ∧ Sim (s.Push v) it.Next.2 ∧ it.Next.2.br.bits = rest) ∧
    (IsNaN v = true →
      it.Next.1 = false ∧ it.Next.2.finished = true ∧ it.Next.2.err = none) := by
  obtain ⟨hgood, hnf, hnn, h0, h1, h2, hwf, hval, hwin⟩ := hsim
  obtain ⟨hg', _⟩ := Push_record s v hgood hnf hv
  obtain ⟨pv, pf, _⟩ := Push_val s v
  have hdl : v ^^^ s.val < 2 ^ 64 := Nat.xor_lt_two_pow hv hgood.val_lt
  have hxor : s.val ^^^ (v ^^^ s.val) = v := by
    rw [Nat.xor_comm v, Nat.xor_cancel_left]
  by_cases hd : v ^^^ s.val = 0
  · have hvs : v = s.val := Nat.xor_eq_zero.1 hd
    rw [FloatEncoder.record, if_pos hd] at hb
    obtain ⟨br1, hr, hw1, hb1⟩ := ReadBit_bits it.br hwf false rest hb
    obtain ⟨_, _, l1, t1⟩ := Push_zero_bits s v hnf hgood.wf hd
    rw [Next_ctrl0 it h0 h1 h2 br1 hr]
    constructor
    · intro hn
      refine ⟨rfl, ⟨hg', pf, by rw [pv]; exact hn, h0, h1, h2, hw1, ?_, ?_⟩, hb1⟩
      · rw [pv, hvs]; exact hval
      · rw [l1, t1]; exact hwin
    · intro hn
      rw [hvs, hnn] at hn
      cases hn
  · by_cases hc : s.leading ≠ allOnes ∧ Clz (v ^^^ s.val) ≥ s.leading ∧
        Ctz (v ^^^ s.val) ≥ s.trailing
    · rw [FloatEncoder.record, if_neg hd, if_pos hc] at hb
      obtain ⟨hl, ht⟩ : it.leading = s.leading ∧ it.trailing = s.trailing := by
        rcases hwin with hw | hw
        · exact absurd hw hc.1
        · exact hw
      obtain ⟨_, _, l1, t1, _⟩ := Push_reuse_bits s v hnf hgood.wf hgood.val_lt hv hd hc
      have hb' : it.br.bits = true :: (false ::
          (lowBits (64 - s.leading - s.trailing) (shr64 (v ^^^ s.val) s.trailing) ++ rest)) := by
        rw [hb]; rfl
      obtain ⟨br1, hr1, hw1, hb1⟩ := ReadBit_bits it.br hwf true _ hb'
      obtain ⟨br2, hr2, hw2, hb2⟩ := ReadBit_bits br1 hw1 false _ hb1
      obtain ⟨br3, hw3, hb3, hnp⟩ := nextPayload_window { it with br := br2 } (v ^^^ s.val) v rest
        hw2 hdl hd (by rw [hl]; exact hc.2.1) (by rw [ht]; exact hc.2.2)
        (by rw [hl, ht]; exact hb2) (by rw [hval]; exact hxor)
      rw [Next_reuse it h0 h1 h2 br1 br2 hr1 hr2, hnp]
      constructor
      · intro hn
        simp only [hn, Bool.false_eq_true, if_false]
        refine ⟨trivial, ⟨hg', pf, by rw [pv]; exact hn, h0, h1, h2, hw3, by rw [pv], ?_⟩, hb3⟩
        rw [l1, t1]
        exact Or.inr ⟨hl, ht⟩
      · intro hn
        simp only [hn, if_true]
        exact ⟨trivial, trivial, h0⟩
    · rw [FloatEncoder.record, if_neg hd, if_neg hc] at hb
      have hnw : s.newWindow v = true := by
        simp only [FloatEncoder.newWindow, decide_eq_true_eq]
        exact ⟨hnf, hd, hc⟩
      obtain ⟨hL, hS⟩ := hfit hnw
      obtain ⟨_, _, l1, t1, hsum⟩ := Push_new_bits s v hnf hgood.wf hgood.val_lt hv hd hc
      have hb' : it.br.bits = true :: (true :: (lowBits 5 (Clz (v ^^^ s.val)) ++
          (lowBits 6 (64 - Clz (v ^^^ s.val) - Ctz (v ^^^ s.val)) ++
          (lowBits (64 - Clz (v ^^^ s.val) - Ctz (v ^^^ s.val))
            (shr64 (v ^^^ s.val) (Ctz (v ^^^ s.val))) ++ rest)))) := by
        rw [hb]
        simp only [List.append_assoc, List.cons_append, List.nil_append]
      obtain ⟨br1, hr1, hw1, hb1⟩ := ReadBit_bits it.br hwf true _ hb'
      obtain ⟨br2, hr2, hw2, hb2⟩ := ReadBit_bits br1 hw1 true _ hb1
      obtain ⟨br3, hr3, hw3, hb3⟩ := ReadBits_bits br2 hw2 5 (Clz (v ^^^ s.val)) _ (by omega)
        (lt_of_le_of_lt hL (by norm_num)) hb2
      obtain ⟨br4, hr4, hw4, hb4⟩ := ReadBits_bits br3 hw3 6
        (64 - Clz (v ^^^ s.val) - Ctz (v ^^^ s.val)) _ (by omega)
        (lt_of_le_of_lt hS (by norm_num)) hb3
      have htr : sub64 (sub64 64 (Clz (v ^^^ s.val)))
          (64 - Clz (v ^^^ s.val) - Ctz (v ^^^ s.val)) = Ctz (v ^^^ s.val) := by
        rw [sub64_sig _ _ (by omega)]
        omega
      obtain ⟨br5, hw5, hb5, hnp⟩ := nextPayload_window
        { it with leading := Clz (v ^^^ s.val), trailing := Ctz (v ^^^ s.val), br := br4 }
        (v ^^^ s.val) v rest hw4 hdl hd (le_refl _) (le_refl _) hb4
        (by rw [hval]; exact hxor)
      have h5 : ((5 : Nat) : Int) = 5 := rfl
      have h6 : ((6 : Nat) : Int) = 6 := rfl
      rw [h5] at hr3
      rw [h6] at hr4
      rw [Next_newWindow it h0 h1 h2 br1 br2 br3 br4 _ _ hr1 hr2 hr3 hr4, htr, hnp]
      constructor
      · intro hn
        simp only [hn, Bool.false_eq_true, if_false]
        refine ⟨trivial, ⟨hg', pf, by rw [pv]; exact hn, h0, h1, h2, hw5, by rw [pv], ?_⟩, hb5⟩
        rw [l1, t1]
        exact Or.inr ⟨rfl, rfl⟩
      · intro hn
        simp only [hn, if_true]
        exact ⟨trivial, trivial, h0⟩

theorem pushAll_cons (s : FloatEncoder) (v : Nat) (vs : List Nat) :
    s.pushAll (v :: vs) = (s.Push v).pushAll vs := rfl

theorem pushAll_records (vs : List Nat) :
    ∀ (s : FloatEncoder), s.Good → s.first = false → (∀ v ∈ vs, v < 2 ^ 64) →
      (s.pushAll vs).Good ∧ (s.pushAll vs).first = false ∧
        (s.pushAll vs).bw.bits = s.bw.bits ++ s.records vs := by
  induction vs with
  | nil =>
    intro s hg hf _
    exact ⟨hg, hf, by simp [FloatEncoder.pushAll, FloatEncoder.records]⟩
  | cons v vs ih =>
    intro s hg hf hv
    obtain ⟨hg1, hb1⟩ := Push_record s v hg hf (hv v (List.mem_cons_self _ _))
    obtain ⟨g2, f2, b2⟩ := ih (s.Push v) hg1 (Push_val s v).2.1
      (fun x hx => hv x (List.mem_cons_of_mem _ hx))
    rw [pushAll_cons]
    refine ⟨g2, f2, ?_⟩
    rw [b2, hb1, FloatEncoder.records, List.append_assoc]

theorem recordsFit_cons (s : FloatEncoder) (v : Nat) (vs : List Nat)
    (h : s.recordsFit (v :: vs) = true) :
    (s.newWindow v = true →
      Clz (v ^^^ s.val) ≤ 31 ∧ 64 - Clz (v ^^^ s.val) - Ctz (v ^^^ s.val) ≤ 63) ∧
      (s.Push v).recordsFit vs = true := by
  rw [FloatEncoder.recordsFit, Bool.and_eq_true] at h
  refine ⟨fun hn => ?_, h.2⟩
  have := h.1
  rw [if_pos hn] at this
  simpa using this

theorem recordsFit_append (vs : List Nat) :
    ∀ (s : FloatEncoder) (ws : List Nat), s.recordsFit (vs ++ ws) = true →
      s.recordsFit vs = true ∧ (s.pushAll vs).recordsFit ws = true := by
  induction vs with
  | nil =>
    intro s ws h
    exact ⟨rfl, h⟩
  | cons v vs ih =>
    intro s ws h
    rw [List.cons_append, FloatEncoder.recordsFit, Bool.and_eq_true] at h
    obtain ⟨i1, i2⟩ := ih (s.Push v) ws h.2
    rw [pushAll_cons]
    refine ⟨?_, i2⟩
    rw [FloatEncoder.recordsFit, Bool.and_eq_true]
    exact ⟨h.1, i1⟩

theorem decode_records (vs : List Nat) :
    ∀ (s : FloatEncoder) (it : FloatDecoder) (rest : List Bool), Sim s it →
      (∀ v ∈ vs, v < 2 ^ 64 ∧ IsNaN v = false) → s.recordsFit vs = true →
      it.br.bits = s.records vs ++ rest →
      (∀ k, k < vs.length →
        (it.nextN k).Next.1 = true ∧ vs[k]? = some (it.nextN k).Next.2.Values) ∧
      Sim (s.pushAll vs) (it.nextN vs.length) ∧ (it.nextN vs.length).br.bits = rest := by
  induction vs with
  | nil =>
    intro s it rest hsim _ _ hb
    refine ⟨fun k hk => by simp at hk, hsim, ?_⟩
    simpa [FloatEncoder.records] using hb
  | cons v vs ih =>
    intro s it rest hsim hv hfit hb
    obtain ⟨hf1, hf2⟩ := recordsFit_cons s v vs hfit
    obtain ⟨hv1, hv2⟩ := hv v (List.mem_cons_self _ _)
    rw [FloatEncoder.records, List.append_assoc] at hb
    obtain ⟨n1, n2, n3⟩ := (Next_record s it v _ hsim hv1 hf1 hb).1 hv2
    obtain ⟨i1, i2, i3⟩ := ih (s.Push v) it.Next.2 rest n2
      (fun x hx => hv x (List.mem_cons_of_mem _ hx)) hf2 n3
    refine ⟨?_, i2, i3⟩
    intro k hk
    cases k with
    | zero =>
      refine ⟨n1, ?_⟩
      simp only [FloatDecoder.nextN, List.getElem?_cons_zero, FloatDecoder.Values, n2.val,
        (Push_val s v).1]
    | succ k =>
      have := i1 k (by simpa using hk)
      simpa [FloatDecoder.nextN] using this

theorem NaN_lt : NaN < 2 ^ 64 := by decide

theorem IsNaN_NaN : IsNaN NaN = true := by decide

theorem decode_sentinel (s : FloatEncoder) (it : FloatDecoder) (rest : List Bool)
    (hsim : Sim s it) (hfit : s.recordsFit [NaN] = true)
    (hb : it.br.bits = s.record NaN ++ rest) :
    it.Next.1 = false ∧ it.Next.2.finished = true ∧ it.Next.2.err = none := by
  obtain ⟨hf1, _⟩ := recordsFit_cons s NaN [] hfit
  exact (Next_record s it NaN rest hsim NaN_lt hf1 hb).2 IsNaN_NaN

/-! ## The whole float stream -/

theorem records_append (vs : List Nat) :
    ∀ (s : FloatEncoder) (ws : List Nat),
      s.records (vs ++ ws) = s.records vs ++ (s.pushAll vs).records ws := by
  induction vs with
  | nil =>
    intro s ws
    rfl
  | cons v vs ih =>
    intro s ws
    rw [List.cons_append, FloatEncoder.records, FloatEncoder.records, ih, pushAll_cons,
      List.append_assoc]

theorem first_Push (v0 : Nat) (hv0 : v0 < 2 ^ 64) :
    (NewFloatEncoder.Push v0).Good ∧ (NewFloatEncoder.Push v0).first = false ∧
      (NewFloatEncoder.Push v0).bw.bits = lowBits 64 v0 ∧
      (NewFloatEncoder.Push v0).leading = allOnes ∧ (NewFloatEncoder.Push v0).trailing = 0 ∧
      (NewFloatEncoder.Push v0).val = v0 := by
  obtain ⟨hw, hb⟩ := Push_first_bits NewFloatEncoder v0 rfl NewWriter_WF
  have hl : (NewFloatEncoder.Push v0).leading = allOnes := by
    rw [Push_first NewFloatEncoder v0 rfl]; rfl
  have ht : (NewFloatEncoder.Push v0).trailing = 0 := by
    rw [Push_first NewFloatEncoder v0 rfl]; rfl
  have hv := (Push_val NewFloatEncoder v0).1
  refine ⟨⟨hw, by rw [hv]; exact hv0, Or.inl hl⟩, (Push_val NewFloatEncoder v0).2.1, ?_, hl, ht,
    hv⟩
  rw [hb]
  rfl

theorem Finish_stream (v0 : Nat) (vs : List Nat) (hv0 : v0 < 2 ^ 64)
    (hvs : ∀ v ∈ vs, v < 2 ^ 64) :
    ∃ k, bytesBits (NewFloatEncoder.pushAll (v0 :: vs)).Finish.Bytes =
      lowBits 64 v0 ++ ((NewFloatEncoder.Push v0).records (vs ++ [NaN]) ++
        List.replicate k false) := by
  obtain ⟨g1, f1, b1, _⟩ := first_Push v0 hv0
  obtain ⟨g2, f2, b2⟩ := pushAll_records vs (NewFloatEncoder.Push v0) g1 f1 hvs
  obtain ⟨g3, b3⟩ := Push_record _ NaN g2 f2 NaN_lt
  obtain ⟨k, w4, c4, b4⟩ := Flush_spec _ g3.wf false
  have hfin : ((NewFloatEncoder.Push v0).pushAll vs).finished = false := by
    rw [pushAll_finished, (Push_val NewFloatEncoder v0).2.2]; rfl
  have hF : (NewFloatEncoder.pushAll (v0 :: vs)).Finish.Bytes =
      ((((NewFloatEncoder.Push v0).pushAll vs).Push NaN).bw.Flush false).out := by
    rw [pushAll_cons, FloatEncoder.Finish]
    simp only [hfin, Bool.false_eq_true, not_false_eq_true, if_true, FloatEncoder.Bytes]
  refine ⟨k, ?_⟩
  rw [hF, ← bits_of_count_eight _ c4, b4, b3, b2, b1, records_append]
  simp only [FloatEncoder.records, List.append_nil, List.append_assoc]

theorem NewFloatDecoder_of_bits (b : List Byte) (v0 : Nat) (rest : List Bool)
    (hv0 : v0 < 2 ^ 64) (hb : bytesBits b = lowBits 64 v0 ++ rest) :
    ∃ rd, rd.WF ∧ rd.bits = rest ∧
      NewFloatDecoder b =
        .ok { val := v0, leading := 0, trailing := 0, br := rd, b := b, first := true,
              finished := false, err := none } := by
  have hbits : (BitReader.NewReader b).bits = lowBits 64 v0 ++ rest := by
    rw [BitReader.NewReader, aligned_reader_bits, hb]
  obtain ⟨rd, hr, hw, hrb⟩ :=
    ReadBits_bits (BitReader.NewReader b) (NewReader_WF b) 64 v0 rest (le_refl _) hv0 hbits
  have h64 : ((64 : Nat) : Int) = 64 := rfl
  rw [h64] at hr
  refine ⟨rd, hw, hrb, ?_⟩
  simp only [NewFloatDecoder, hr]

theorem first_Next (d : FloatDecoder) (h0 : d.err = none) (h1 : d.finished = false)
    (h2 : d.first = true) : d.Next = (true, { d with first := false }) := by
  simp [FloatDecoder.Next, h0, h1, h2]

/-- Decoding a stream that holds a first value, the records of further non-NaN values and
then the record of a NaN pattern: the values come back in order, then `Next` is false. -/
theorem decode_until_NaN (b : List Byte) (v0 : Nat) (vs : List Nat) (x : Nat)
    (more : List Bool)
    (hv0 : v0 < 2 ^ 64) (hn0 : IsNaN v0 = false)
    (hvs : ∀ v ∈ vs, v < 2 ^ 64 ∧ IsNaN v = false) (hx : x < 2 ^ 64) (hxn : IsNaN x = true)
    (hfit : (NewFloatEncoder.Push v0).recordsFit (vs ++ [x]) = true)
    (hb : bytesBits b = lowBits 64 v0 ++ ((NewFloatEncoder.Push v0).records vs ++
      (((NewFloatEncoder.Push v0).pushAll vs).record x ++ more))) :
    ∃ d, NewFloatDecoder b = .ok d ∧
      (∀ k, k < (v0 :: vs).length →
        (d.nextN k).Next.1 = true ∧ (v0 :: vs)[k]? = some (d.nextN k).Next.2.Values) ∧
      (d.nextN (v0 :: vs).length).Next.1 = false ∧
      (d.nextN (v0 :: vs).length).Next.2.finished = true ∧
      (d.nextN (v0 :: vs).length).Next.2.Err = none := by
  obtain ⟨g1, f1, _, l1, _, v1⟩ := first_Push v0 hv0
  obtain ⟨rd, hw, hrb, hd⟩ := NewFloatDecoder_of_bits b v0 _ hv0 hb
  obtain ⟨fit1, fit2⟩ := recordsFit_append vs (NewFloatEncoder.Push v0) [x] hfit
  refine ⟨_, hd, ?_⟩
  have hN := first_Next
    { val := v0, leading := 0, trailing := 0, br := rd, b := b,
      first := true, finished := false, err := none } rfl rfl rfl
  have hsim : Sim (NewFloatEncoder.Push v0)
      { val := v0, leading := 0, trailing := 0, br := rd, b := b, first := false,
        finished := false, err := none } :=
    ⟨g1, f1, by rw [v1]; exact hn0, rfl, rfl, rfl, hw, v1.symm, Or.inl l1⟩
  obtain ⟨i1, i2, i3⟩ := decode_records vs _ _ _ hsim hvs fit1 hrb
  obtain ⟨j1, j2, j3⟩ := (Next_record _ _ x more i2 hx (recordsFit_cons _ x [] fit2).1 i3).2 hxn
  refine ⟨?_, ?_, ?_, ?_⟩
  · intro k hk
    cases k with
    | zero =>
      simp only [FloatDecoder.nextN, hN, List.getElem?_cons_zero, FloatDecoder.Values]
      exact ⟨trivial, trivial⟩
    | succ k =>
      have := i1 k (by simpa using hk)
      simpa [FloatDecoder.nextN, hN] using this
  · simpa [FloatDecoder.nextN, hN] using j1
  · simpa [FloatDecoder.nextN, hN] using j2
  · simpa [FloatDecoder.nextN, hN, FloatDecoder.Err] using j3

/-! ## Values the float decoder can yield -/

theorem nextPayload_val (it : FloatDecoder) :
    it.nextPayload.2.val = it.val ∨
      (it.nextPayload.1 = true ∧ IsNaN it.nextPayload.2.val = false) := by
  rcases hr : it.br.ReadBits (toInt64 (sub64 (sub64 64 it.leading) it.trailing)) with ⟨res, br1⟩
  cases res with
  | error e =>
    rw [nextPayload_error it e br1 hr]
    exact Or.inl rfl
  | ok bits =>
    rw [nextPayload_ok it bits br1 hr]
    by_cases hn : IsNaN (it.val ^^^ shl64 bits it.trailing) = true
    · rw [if_pos hn]
      exact Or.inl rfl
    · rw [if_neg hn]
      exact Or.inr ⟨rfl, by simpa using hn⟩

theorem Next_err1 (it : FloatDecoder) (h0 : it.err = none) (h1 : it.finished = false)
    (h2 : it.first = false) (e : ReadErr) (br1 : BitReader)
    (hr : it.br.ReadBit = (.error e, br1)) :
    it.Next = (false, { it with br := br1, err := some e }) := by
  simp [FloatDecoder.Next, h0, h1, h2, hr]

theorem Next_err2 (it : FloatDecoder) (h0 : it.err = none) (h1 : it.finished = false)
    (h2 : it.first = false) (e : ReadErr) (br1 br2 : BitReader)
    (hr1 : it.br.ReadBit = (.ok true, br1)) (hr2 : br1.ReadBit = (.error e, br2)) :
    it.Next = (false, { it with br := br2, err := some e }) := by
  simp [FloatDecoder.Next, h0, h1, h2, hr1, hr2]

theorem Next_err3 (it : FloatDecoder) (h0 : it.err = none) (h1 : it.finished = false)
    (h2 : it.first = false) (e : ReadErr) (br1 br2 br3 : BitReader)
    (hr1 : it.br.ReadBit = (.ok true, br1)) (hr2 : br1.ReadBit = (.ok true, br2))
    (hr3 : br2.ReadBits 5 = (.error e, br3)) :
    it.Next = (false, { it with br := br3, err := some e }) := by
  simp [FloatDecoder.Next, h0, h1, h2, hr1, hr2, hr3]

theorem Next_err4 (it : FloatDecoder) (h0 : it.err = none) (h1 : it.finished = false)
    (h2 : it.first = false) (e : ReadErr) (br1 br2 br3 br4 : BitReader) (bits : Nat)
    (hr1 : it.br.ReadBit = (.ok true, br1)) (hr2 : br1.ReadBit = (.ok true, br2))
    (hr3 : br2.ReadBits 5 = (.ok bits, br3)) (hr4 : br3.ReadBits 6 = (.error e, br4)) :
    it.Next = (false, { it with leading := bits, br := br4, err := some e }) := by
  simp [FloatDecoder.Next, h0, h1, h2, hr1, hr2, hr3, hr4]

theorem Next_val (it : FloatDecoder) :
    it.Next.2.val = it.val ∨ (it.Next.1 = true ∧ IsNaN it.Next.2.val = false) := by
  by_cases hg : it.err ≠ none ∨ it.finished = true
  · have hN : it.Next = (false, it) := by
      rw [FloatDecoder.Next, if_pos hg]
    rw [hN]
    exact Or.inl rfl
  · have h0 : it.err = none := by
      by_contra hc; exact hg (Or.inl hc)
    have h1 : it.finished = false := by
      cases hf : it.finished with
      | false => rfl
      | true => exact absurd (Or.inr hf) hg
    by_cases hfirst : it.first = true
    · rw [first_Next it h0 h1 hfirst]
      exact Or.inl rfl
    · have h2 : it.first = false := by simpa using hfirst
      rcases hr1 : it.br.ReadBit with ⟨res1, br1⟩
      cases res1 with
      | error e =>
        rw [Next_err1 it h0 h1 h2 e br1 hr1]
        exact Or.inl rfl
      | ok bit1 =>
        cases bit1 with
        | false =>
          rw [Next_ctrl0 it h0 h1 h2 br1 hr1]
          exact Or.inl rfl
        | true =>
          rcases hr2 : br1.ReadBit with ⟨res2, br2⟩
          cases res2 with
          | error e =>
            rw [Next_err2 it h0 h1 h2 e br1 br2 hr1 hr2]
            exact Or.inl rfl
          | ok bit2 =>
            cases bit2 with
            | false =>
              rw [Next_reuse it h0 h1 h2 br1 br2 hr1 hr2]
              exact nextPayload_val _
            | true =>
              rcases hr3 : br2.ReadBits 5 with ⟨res3, br3⟩
              cases res3 with
              | error e =>
                rw [Next_err3 it h0 h1 h2 e br1 br2 br3 hr1 hr2 hr3]
                exact Or.inl rfl
              | ok bits =>
                rcases hr4 : br3.ReadBits 6 with ⟨res4, br4⟩
                cases res4 with
                | error e =>
                  rw [Next_err4 it h0 h1 h2 e br1 br2 br3 br4 bits hr1 hr2 hr3 hr4]
                  exact Or.inl rfl
                | ok mbits =>
                  rw [Next_newWindow it h0 h1 h2 br1 br2 br3 br4 bits mbits hr1 hr2 hr3 hr4]
                  exact nextPayload_val _

theorem nextN_not_NaN (k : Nat) :
    ∀ (it : FloatDecoder), IsNaN it.val = false → IsNaN (it.nextN k).val = false := by
  induction k with
  | zero => intro it h; exact h
  | succ k ih =>
    intro it h
    rw [FloatDecoder.nextN]
    apply ih
    rcases Next_val it with hv | hv
    · rw [hv]; exact h
    · exact hv.2

theorem Next_not_NaN (it : FloatDecoder) (h : IsNaN it.val = false) :
    IsNaN it.Next.2.Values = false := by
  rcases Next_val it with hv | hv
  · rw [FloatDecoder.Values, hv]; exact h
  · exact hv.2

theorem finished_absorbing (it : FloatDecoder) (h : it.finished = true) (j : Nat) :
    (it.nextN j).Next = (false, it) := by
  have hN : it.Next = (false, it) := by
    rw [FloatDecoder.Next, if_pos (Or.inr h)]
  rw [nextN_absorbing it hN j, hN]

/-! ## Claims about the float encoder -/

theorem run_state (v n : Nat) :
    (NewFloatEncoder.pushAll (List.replicate (n + 1) v)).bw.WF ∧
    (NewFloatEncoder.pushAll (List.replicate (n + 1) v)).first = false ∧
    (NewFloatEncoder.pushAll (List.replicate (n + 1) v)).val = v ∧
    (NewFloatEncoder.pushAll (List.replicate (n + 1) v)).leading = allOnes ∧
    (NewFloatEncoder.pushAll (List.replicate (n + 1) v)).trailing = 0 ∧
    (NewFloatEncoder.pushAll (List.replicate (n + 1) v)).bw.bits =
      lowBits 64 v ++ List.replicate n false := by
  induction n with
  | zero =>
    obtain ⟨hw, hb⟩ := Push_first_bits NewFloatEncoder v rfl NewWriter_WF
    obtain ⟨pv, pf, _⟩ := Push_val NewFloatEncoder v
    have e : NewFloatEncoder.pushAll (List.replicate (0 + 1) v) = NewFloatEncoder.Push v := rfl
    rw [e]
    refine ⟨hw, pf, pv, ?_, ?_, ?_⟩
    · rw [Push_first NewFloatEncoder v rfl]; rfl
    · rw [Push_first NewFloatEncoder v rfl]; rfl
    · rw [hb]; rfl
  | succ n ih =>
    obtain ⟨hw, hf, hv, hl, ht, hb⟩ := ih
    have e : NewFloatEncoder.pushAll (List.replicate (n + 1 + 1) v) =
        (NewFloatEncoder.pushAll (List.replicate (n + 1) v)).Push v := by
      rw [List.replicate_succ' (n + 1), FloatEncoder.pushAll, List.foldl_append]
      rfl
    have hd : v ^^^ (NewFloatEncoder.pushAll (List.replicate (n + 1) v)).val = 0 := by
      rw [hv, Nat.xor_self]
    obtain ⟨w1, b1, l1, t1⟩ := Push_zero_bits _ v hf hw hd
    obtain ⟨pv, pf, _⟩ := Push_val (NewFloatEncoder.pushAll (List.replicate (n + 1) v)) v
    rw [e]
    refine ⟨w1, pf, pv, by rw [l1, hl], by rw [t1, ht], ?_⟩
    rw [b1, hb, List.append_assoc, List.replicate_succ' n]

/-- C11. Run compression: pushing the same bit pattern `v` onto a fresh encoder `n + 1`
times writes exactly `64 + n` bits, the 64 raw bits of `v` followed by `n` zero bits, and
leaves the window unset; one more `Push` of `v` appends exactly one bit, `0`, and leaves the
stored window unchanged. -/
theorem run_compression (v n : Nat) :
    (NewFloatEncoder.pushAll (List.replicate (n + 1) v)).bw.bits =
      lowBits 64 v ++ List.replicate n false ∧
    (NewFloatEncoder.pushAll (List.replicate (n + 1) v)).bw.bits.length = 64 + n ∧
    ((NewFloatEncoder.pushAll (List.replicate (n + 1) v)).Push v).bw.bits =
      (NewFloatEncoder.pushAll (List.replicate (n + 1) v)).bw.bits ++ [false] ∧
    ((NewFloatEncoder.pushAll (List.replicate (n + 1) v)).Push v).leading =
      (NewFloatEncoder.pushAll (List.replicate (n + 1) v)).leading ∧
    ((NewFloatEncoder.pushAll (List.replicate (n + 1) v)).Push v).trailing =
      (NewFloatEncoder.pushAll (List.replicate (n + 1) v)).trailing ∧
    (NewFloatEncoder.pushAll (List.replicate (n + 1) v)).leading = allOnes := by
  obtain ⟨hw, hf, hv, hl, ht, hb⟩ := run_state v n
  have hd : v ^^^ (NewFloatEncoder.pushAll (List.replicate (n + 1) v)).val = 0 := by
    rw [hv, Nat.xor_self]
  obtain ⟨w1, b1, l1, t1⟩ := Push_zero_bits _ v hf hw hd
  refine ⟨hb, ?_, b1, l1, t1, hl⟩
  rw [hb, List.length_append, lowBits_length, List.length_replicate]

/-- C12. Window reuse cost: on an encoder past its first value whose window is set, a
value whose non-zero XOR delta `d` has at least `leading` leading and `trailing` trailing
zeros is written as the control bit `1`, the reuse bit `0` and the
`64 - leading - trailing` low bits of `d >> trailing`, that is `1 + 1 + (64 - leading -
trailing)` bits and no window fields, and the stored window is unchanged. -/
theorem window_reuse_cost (s : FloatEncoder) (v : Nat) (hw : s.bw.WF) (hf : s.first = false)
    (hs : s.val < 2 ^ 64) (hv : v < 2 ^ 64) (hact : s.leading ≠ allOnes)
    (hd : v ^^^ s.val ≠ 0) (hl : Clz (v ^^^ s.val) ≥ s.leading)
    (ht : Ctz (v ^^^ s.val) ≥ s.trailing) :
    (s.Push v).bw.bits = s.bw.bits ++ [true, false] ++
      lowBits (64 - s.leading - s.trailing) ((v ^^^ s.val) >>> s.trailing) ∧
    (s.Push v).bw.bits.length = s.bw.bits.length + (1 + 1 + (64 - s.leading - s.trailing)) ∧
    (s.Push v).leading = s.leading ∧ (s.Push v).trailing = s.trailing := by
  obtain ⟨_, b1, l1, t1, hsum⟩ := Push_reuse_bits s v hf hw hs hv hd ⟨hact, hl, ht⟩
  have hshr : shr64 (v ^^^ s.val) s.trailing = (v ^^^ s.val) >>> s.trailing := by
    unfold shr64
    rw [if_neg (by omega)]
  rw [hshr] at b1
  refine ⟨by rw [b1, List.append_assoc], ?_, l1, t1⟩
  rw [b1]
  simp only [List.length_append, lowBits_length, List.length_cons, List.length_nil]

theorem window_reuse_cost_witness :
    ((NewFloatEncoder.pushAll [0x3FF0000000000000, 0x4000000000000000]).Push
        0x3FF0000000000000).bw.bits =
      (NewFloatEncoder.pushAll [0x3FF0000000000000, 0x4000000000000000]).bw.bits ++
        [true, false] ++
      lowBits
        (64 - (NewFloatEncoder.pushAll [0x3FF0000000000000, 0x4000000000000000]).leading -
          (NewFloatEncoder.pushAll [0x3FF0000000000000, 0x4000000000000000]).trailing)
        ((0x3FF0000000000000 ^^^
            (NewFloatEncoder.pushAll [0x3FF0000000000000, 0x4000000000000000]).val) >>>
          (NewFloatEncoder.pushAll [0x3FF0000000000000, 0x4000000000000000]).trailing) ∧
    ((NewFloatEncoder.pushAll [0x3FF0000000000000, 0x4000000000000000]).Push
        0x3FF0000000000000).bw.bits.length =
      (NewFloatEncoder.pushAll [0x3FF0000000000000, 0x4000000000000000]).bw.bits.length +
        (1 + 1 +
          (64 - (NewFloatEncoder.pushAll [0x3FF0000000000000, 0x4000000000000000]).leading -
            (NewFloatEncoder.pushAll [0x3FF0000000000000, 0x4000000000000000]).trailing)) ∧
    ((NewFloatEncoder.pushAll [0x3FF0000000000000, 0x4000000000000000]).Push
        0x3FF0000000000000).leading =
      (NewFloatEncoder.pushAll [0x3FF0000000000000, 0x4000000000000000]).leading ∧
    ((NewFloatEncoder.pushAll [0x3FF0000000000000, 0x4000000000000000]).Push
        0x3FF0000000000000).trailing =
      (NewFloatEncoder.pushAll [0x3FF0000000000000, 0x4000000000000000]).trailing :=
  window_reuse_cost (NewFloatEncoder.pushAll [0x3FF0000000000000, 0x4000000000000000])
    0x3FF0000000000000 (by decide!) (by decide!) (by decide!) (by decide!) (by decide!)
    (by decide!) (by decide!) (by decide!)

/-- C15. New-window record layout: on an encoder past its first value, a value whose
non-zero XOR delta `d` cannot reuse the stored window is written, with `L = clz(d)` and
`T = ctz(d)`, as the bits `1 1`, the five low bits of `L` (so `L mod 32`), the six low bits
of `64 - L - T` (so `(64 - L - T) mod 64`) and the `64 - L - T` low bits of `d >> T`, most
significant first; `(L, T)` becomes the stored window and the record is
`13 + (64 - L - T)` bits long. -/
theorem new_window_record (s : FloatEncoder) (v : Nat) (hw : s.bw.WF) (hf : s.first = false)
    (hs : s.val < 2 ^ 64) (hv : v < 2 ^ 64) (hd : v ^^^ s.val ≠ 0)
    (hc : ¬ (s.leading ≠ allOnes ∧ Clz (v ^^^ s.val) ≥ s.leading ∧
      Ctz (v ^^^ s.val) ≥ s.trailing)) :
    (s.Push v).bw.bits = s.bw.bits ++ [true, true] ++ lowBits 5 (Clz (v ^^^ s.val)) ++
      lowBits 6 (64 - Clz (v ^^^ s.val) - Ctz (v ^^^ s.val)) ++
      lowBits (64 - Clz (v ^^^ s.val) - Ctz (v ^^^ s.val))
        ((v ^^^ s.val) >>> Ctz (v ^^^ s.val)) ∧
    lowBits 5 (Clz (v ^^^ s.val)) = lowBits 5 (Clz (v ^^^ s.val) % 32) ∧
    lowBits 6 (64 - Clz (v ^^^ s.val) - Ctz (v ^^^ s.val)) =
      lowBits 6 ((64 - Clz (v ^^^ s.val) - Ctz (v ^^^ s.val)) % 64) ∧
    (s.Push v).bw.bits.length =
      s.bw.bits.length + (13 + (64 - Clz (v ^^^ s.val) - Ctz (v ^^^ s.val))) ∧
    (s.Push v).leading = Clz (v ^^^ s.val) ∧ (s.Push v).trailing = Ctz (v ^^^ s.val) := by
  obtain ⟨_, b1, l1, t1, hsum⟩ := Push_new_bits s v hf hw hs hv hd hc
  have hshr : shr64 (v ^^^ s.val) (Ctz (v ^^^ s.val)) =
      (v ^^^ s.val) >>> Ctz (v ^^^ s.val) := by
    unfold shr64
    rw [if_neg (by omega)]
  rw [hshr] at b1
  refine ⟨?_, ?_, ?_, ?_, l1, t1⟩
  · rw [b1]
    simp only [List.append_assoc]
  · exact (lowBits_mod 5 5 _ (le_refl _)).symm
  · exact (lowBits_mod 6 6 _ (le_refl _)).symm
  · rw [b1]
    simp only [List.length_append, lowBits_length, List.length_cons, List.length_nil]

theorem new_window_record_witness :
    ((NewFloatEncoder.pushAll [0x3FF0000000000000, 0x3FF0000000000000]).Push
        0x4000000000000000).bw.bits =
      (NewFloatEncoder.pushAll [0x3FF0000000000000, 0x3FF0000000000000]).bw.bits ++
        [true, true] ++
      lowBits 5 (Clz (0x4000000000000000 ^^^
        (NewFloatEncoder.pushAll [0x3FF0000000000000, 0x3FF0000000000000]).val)) ++
      lowBits 6 (64 - Clz (0x4000000000000000 ^^^
          (NewFloatEncoder.pushAll [0x3FF0000000000000, 0x3FF0000000000000]).val) -
        Ctz (0x4000000000000000 ^^^
          (NewFloatEncoder.pushAll [0x3FF0000000000000, 0x3FF0000000000000]).val)) ++
      lowBits (64 - Clz (0x4000000000000000 ^^^
          (NewFloatEncoder.pushAll [0x3FF0000000000000, 0x3FF0000000000000]).val) -
        Ctz (0x4000000000000000 ^^^
          (NewFloatEncoder.pushAll [0x3FF0000000000000, 0x3FF0000000000000]).val))
        ((0x4000000000000000 ^^^
            (NewFloatEncoder.pushAll [0x3FF0000000000000, 0x3FF0000000000000]).val) >>>
          Ctz (0x4000000000000000 ^^^
            (NewFloatEncoder.pushAll [0x3FF0000000000000, 0x3FF0000000000000]).val)) ∧
    ((NewFloatEncoder.pushAll [0x3FF0000000000000, 0x3FF0000000000000]).Push
        0x4000000000000000).leading = 1 ∧
    ((NewFloatEncoder.pushAll [0x3FF0000000000000, 0x3FF0000000000000]).Push
        0x4000000000000000).trailing = 52 :=
  have h := new_window_record
    (NewFloatEncoder.pushAll [0x3FF0000000000000, 0x3FF0000000000000]) 0x4000000000000000
    (by decide!) (by decide!) (by decide!) (by decide!) (by decide!) (by decide!)
  ⟨h.1, h.2.2.2.2.1.trans (by decide!), h.2.2.2.2.2.trans (by decide!)⟩

theorem Reachable_inv (s : FloatEncoder) (h : s.Reachable) :
    s.val < 2 ^ 64 ∧ (s.leading = allOnes ∨ s.leading + s.trailing ≤ 64) := by
  have push_inv : ∀ (s : FloatEncoder) (v : Nat), s.val < 2 ^ 64 →
      (s.leading = allOnes ∨ s.leading + s.trailing ≤ 64) → v < 2 ^ 64 →
      (s.Push v).val < 2 ^ 64 ∧
        ((s.Push v).leading = allOnes ∨ (s.Push v).leading + (s.Push v).trailing ≤ 64) := by
    intro s v hs hwin hv
    refine ⟨by rw [(Push_val s v).1]; exact hv, ?_⟩
    by_cases hf : s.first = true
    · rw [Push_first s v hf]
      exact hwin
    · have hf' : s.first = false := by simpa using hf
      by_cases hd : v ^^^ s.val = 0
      · rw [Push_zero s v hf' hd]
        exact hwin
      · by_cases hc : s.leading ≠ allOnes ∧ Clz (v ^^^ s.val) ≥ s.leading ∧
            Ctz (v ^^^ s.val) ≥ s.trailing
        · rw [Push_reuse s v hf' hd hc]
          exact hwin
        · rw [Push_new s v hf' hd hc]
          right
          have := Clz_add_Ctz (v ^^^ s.val) (Nat.xor_lt_two_pow hv hs) hd
          show Clz (v ^^^ s.val) + Ctz (v ^^^ s.val) ≤ 64
          omega
  induction h with
  | new => exact ⟨by decide, Or.inl rfl⟩
  | push s v _ hv ih => exact push_inv s v ih.1 ih.2 hv
  | finish s _ ih =>
    by_cases hfin : s.finished = true
    · have : s.Finish = s := by
        rw [FloatEncoder.Finish]
        simp [hfin]
      rw [this]
      exact ih
    · have hF : s.Finish =
          { s.Push NaN with bw := (s.Push NaN).bw.Flush false, finished := true } := by
        rw [FloatEncoder.Finish]
        simp [hfin]
      rw [hF]
      exact push_inv s NaN ih.1 ih.2 NaN_lt

/-- C16. Encoder window invariant: in every state reachable from `NewFloatEncoder` by
`Push` (of 64-bit patterns) and `Finish` calls, either the window is unset (`leading` is
all ones) or `leading + trailing ≤ 64`. -/
theorem encoder_window_invariant (s : FloatEncoder) (h : s.Reachable) :
    s.leading = allOnes ∨ s.leading + s.trailing ≤ 64 :=
  (Reachable_inv s h).2

theorem encoder_window_invariant_witness :
    ((NewFloatEncoder.Push 0x3FF0000000000000).Push 0x4000000000000000).Finish.leading =
        allOnes ∨
      ((NewFloatEncoder.Push 0x3FF0000000000000).Push 0x4000000000000000).Finish.leading +
        ((NewFloatEncoder.Push 0x3FF0000000000000).Push 0x4000000000000000).Finish.trailing
          ≤ 64 :=
  encoder_window_invariant _
    (FloatEncoder.Reachable.finish _
      (FloatEncoder.Reachable.push _ _
        (FloatEncoder.Reachable.push _ _ FloatEncoder.Reachable.new (by decide))
        (by decide)))

/-- C20. The reuse branch loses no delta bits: for a non-zero 64-bit delta `d` and a
window `(sl, st)` with `sl + st ≤ 64`, `clz(d) ≥ sl` and `ctz(d) ≥ st`, the payload
`p = d >> st` satisfies `p < 2^(64 - sl - st)` and `p << st = d`; so the
`64 - sl - st` low bits of `p` are all of `p`, and the decoder's `payload << st` gives
back `d`. -/
theorem reuse_loses_no_bits (d sl st : Nat) (hd : d < 2 ^ 64) (h0 : d ≠ 0)
    (_hsum : sl + st ≤ 64) (hl : Clz d ≥ sl) (ht : Ctz d ≥ st) :
    shr64 d st < 2 ^ (64 - sl - st) ∧ shr64 d st <<< st = d ∧
      shr64 d st % 2 ^ (64 - sl - st) = shr64 d st ∧
      shl64 (shr64 d st % 2 ^ (64 - sl - st)) st = d := by
  obtain ⟨_, hshr, hlt, hmul, hshl⟩ := window_payload d sl st hd h0 hl ht
  rw [hshr]
  refine ⟨hlt, ?_, Nat.mod_eq_of_lt hlt, ?_⟩
  · rw [Nat.shiftLeft_eq, hmul]
  · rw [Nat.mod_eq_of_lt hlt, hshl]

theorem reuse_loses_no_bits_witness :
    shr64 0x7FF0000000000000 52 < 2 ^ (64 - 1 - 52) ∧
      shr64 0x7FF0000000000000 52 <<< 52 = 0x7FF0000000000000 ∧
      shr64 0x7FF0000000000000 52 % 2 ^ (64 - 1 - 52) = shr64 0x7FF0000000000000 52 ∧
      shl64 (shr64 0x7FF0000000000000 52 % 2 ^ (64 - 1 - 52)) 52 = 0x7FF0000000000000 :=
  reuse_loses_no_bits 0x7FF0000000000000 1 52 (by decide) (by decide) (by decide)
    (by decide!) (by decide!)

/-! ## Claims about the float round trip -/

/-- C13. First-value fidelity: for a non-empty sequence of 64-bit patterns pushed onto a
fresh encoder and followed by `Finish`, the first 64 bits of `Bytes()` are the raw pattern
of the first value, most significant bit first; the decoder built from `Bytes()` returns
true on its first `Next` with exactly that pattern as `Values()`, and at that point its
bit reader has consumed those 64 bits and nothing more (the first `Next` itself reads
nothing). -/
theorem first_value_fidelity (v0 : Nat) (vs : List Nat) (hv0 : v0 < 2 ^ 64)
    (hvs : ∀ v ∈ vs, v < 2 ^ 64) :
    (bytesBits (NewFloatEncoder.pushAll (v0 :: vs)).Finish.Bytes).take 64 = lowBits 64 v0 ∧
    ∃ d, NewFloatDecoder (NewFloatEncoder.pushAll (v0 :: vs)).Finish.Bytes = .ok d ∧
      d.Next.1 = true ∧ d.Next.2.Values = v0 ∧ d.Next.2.br = d.br ∧
      d.br.bits = (bytesBits (NewFloatEncoder.pushAll (v0 :: vs)).Finish.Bytes).drop 64 := by
  obtain ⟨k, hk⟩ := Finish_stream v0 vs hv0 hvs
  obtain ⟨rd, hw, hrb, hd⟩ := NewFloatDecoder_of_bits _ v0 _ hv0 hk
  have hlen : (lowBits 64 v0).length = 64 := lowBits_length _ _
  refine ⟨by rw [hk, List.take_left' hlen], _, hd, ?_⟩
  rw [first_Next _ rfl rfl rfl]
  refine ⟨rfl, rfl, rfl, ?_⟩
  rw [hk, List.drop_left' hlen]
  exact hrb

theorem first_value_fidelity_witness :
    (bytesBits (NewFloatEncoder.pushAll
        (0x3FF0000000000000 :: [0x3FF0000000000000, 0x4000000000000000])).Finish.Bytes).take 64 =
      lowBits 64 0x3FF0000000000000 ∧
    ∃ d, NewFloatDecoder (NewFloatEncoder.pushAll
        (0x3FF0000000000000 :: [0x3FF0000000000000, 0x4000000000000000])).Finish.Bytes = .ok d ∧
      d.Next.1 = true ∧ d.Next.2.Values = 0x3FF0000000000000 ∧ d.Next.2.br = d.br ∧
      d.br.bits = (bytesBits (NewFloatEncoder.pushAll
        (0x3FF0000000000000 :: [0x3FF0000000000000, 0x4000000000000000])).Finish.Bytes).drop 64 :=
  first_value_fidelity 0x3FF0000000000000 [0x3FF0000000000000, 0x4000000000000000]
    (by decide) (by decide)

/-- C17. Conditional float round trip: for a non-empty sequence `s` of non-NaN 64-bit
patterns such that every new-window record written while `s` and then the NaN sentinel
are pushed has `clz(d) ≤ 31` and `64 - clz(d) - ctz(d) ≤ 63`, the decoder built from
`Bytes()` after `Finish()` returns true on each of the first `len(s)` calls of `Next` with
`Values()` equal to `s[k]`, and the next `Next` returns false with `Err()` nil. -/
theorem float_round_trip_conditional (s : List Nat) (hne : s ≠ [])
    (hlt : ∀ v ∈ s, v < 2 ^ 64) (hnan : ∀ v ∈ s, IsNaN v = false)
    (hfit : NewFloatEncoder.recordsFit (s ++ [NaN]) = true) :
    ∃ d, NewFloatDecoder (NewFloatEncoder.pushAll s).Finish.Bytes = .ok d ∧
      (∀ k, k < s.length →
        (d.nextN k).Next.1 = true ∧ s[k]? = some (d.nextN k).Next.2.Values) ∧
      (d.nextN s.length).Next.1 = false ∧ (d.nextN s.length).Next.2.Err = none := by
  cases s with
  | nil => exact absurd rfl hne
  | cons v0 vs =>
    have hv0 := hlt v0 (List.mem_cons_self _ _)
    have hvs : ∀ v ∈ vs, v < 2 ^ 64 := fun v hv => hlt v (List.mem_cons_of_mem _ hv)
    obtain ⟨k, hk⟩ := Finish_stream v0 vs hv0 hvs
    rw [records_append] at hk
    have hrec : ((NewFloatEncoder.Push v0).pushAll vs).records [NaN] =
        ((NewFloatEncoder.Push v0).pushAll vs).record NaN := by
      simp [FloatEncoder.records]
    rw [hrec, List.append_assoc] at hk
    obtain ⟨d, hd, h1, h2, _, h4⟩ := decode_until_NaN _ v0 vs NaN _ hv0
      (hnan v0 (List.mem_cons_self _ _))
      (fun v hv => ⟨hvs v hv, hnan v (List.mem_cons_of_mem _ hv)⟩) NaN_lt IsNaN_NaN
      (recordsFit_cons NewFloatEncoder v0 (vs ++ [NaN]) hfit).2 hk
    exact ⟨d, hd, h1, h2, h4⟩

theorem float_round_trip_conditional_witness :
    ∃ d, NewFloatDecoder (NewFloatEncoder.pushAll
        [0x3FF0000000000000, 0x3FF0000000000000, 0x4000000000000000]).Finish.Bytes = .ok d ∧
      (∀ k, k < [0x3FF0000000000000, 0x3FF0000000000000, 0x4000000000000000].length →
        (d.nextN k).Next.1 = true ∧
          [0x3FF0000000000000, 0x3FF0000000000000, 0x4000000000000000][k]? =
            some (d.nextN k).Next.2.Values) ∧
      (d.nextN [0x3FF0000000000000, 0x3FF0000000000000, 0x4000000000000000].length).Next.1 =
        false ∧
      (d.nextN [0x3FF0000000000000, 0x3FF0000000000000,
        0x4000000000000000].length).Next.2.Err = none :=
  float_round_trip_conditional [0x3FF0000000000000, 0x3FF0000000000000, 0x4000000000000000]
    (by decide) (by decide!) (by decide!) (by decide!)

/-- C14. Concrete scenario B: pushing `1.0, 1.0, 2.0` onto a fresh encoder writes the 64 raw
bits of `1.0`, then the single control bit `0` for the second value, then for the third
value the control bits `1 1`, the window fields leading `1` (five bits) and significant
bits `11` (six bits) and the eleven payload bits; after `Finish()` the decoder yields
`1.0, 1.0, 2.0` on the first three `Next` calls, and the fourth `Next` returns false with
`Err()` nil. -/
theorem scenario_B :
    (NewFloatEncoder.pushAll [0x3FF0000000000000]).bw.bits = lowBits 64 0x3FF0000000000000 ∧
    (NewFloatEncoder.pushAll [0x3FF0000000000000, 0x3FF0000000000000]).bw.bits =
      lowBits 64 0x3FF0000000000000 ++ [false] ∧
    (NewFloatEncoder.pushAll
        [0x3FF0000000000000, 0x3FF0000000000000, 0x4000000000000000]).bw.bits =
      lowBits 64 0x3FF0000000000000 ++ [false] ++
        ([true, true] ++ lowBits 5 1 ++ lowBits 6 11 ++ lowBits 11 0x7FF) ∧
    (NewFloatEncoder.pushAll
        [0x3FF0000000000000, 0x3FF0000000000000, 0x4000000000000000]).leading = 1 ∧
    (NewFloatEncoder.pushAll
        [0x3FF0000000000000, 0x3FF0000000000000, 0x4000000000000000]).trailing = 52 ∧
    ∃ d, NewFloatDecoder (NewFloatEncoder.pushAll
        [0x3FF0000000000000, 0x3FF0000000000000, 0x4000000000000000]).Finish.Bytes = .ok d ∧
      d.Next.1 = true ∧ d.Next.2.Values = 0x3FF0000000000000 ∧
      (d.nextN 1).Next.1 = true ∧ (d.nextN 1).Next.2.Values = 0x3FF0000000000000 ∧
      (d.nextN 2).Next.1 = true ∧ (d.nextN 2).Next.2.Values = 0x4000000000000000 ∧
      (d.nextN 3).Next.1 = false ∧ (d.nextN 3).Next.2.Err = none ∧
      (d.nextN 3).Next.2.finished = true := by
  refine ⟨by decide!, by decide!, by decide!, by decide!, by decide!,
    { val := 0x3FF0000000000000, leading := 0, trailing := 0,
      br := { r := [97, 47, 255, 226, 251, 255, 128, 0, 0, 0, 0, 0, 16], b := 0, count := 0 },
      b := [63, 240, 0, 0, 0, 0, 0, 0, 97, 47, 255, 226, 251, 255, 128, 0, 0, 0, 0, 0, 16],
      first := true, finished := false, err := none },
    ?_, ?_, ?_, ?_, ?_, ?_, ?_, ?_, ?_, ?_⟩ <;> decide!

theorem nextN_add (a : Nat) : ∀ (b : Nat) (it : FloatDecoder),
    it.nextN (a + b) = (it.nextN a).nextN b := by
  induction a with
  | zero =>
    intro b it
    rw [Nat.zero_add]
    rfl
  | succ a ih =>
    intro b it
    have e : a + 1 + b = (a + b) + 1 := by omega
    rw [e, FloatDecoder.nextN, ih, FloatDecoder.nextN]

theorem false_forever (it : FloatDecoder) (h : it.Next.1 = false) (j : Nat) :
    (it.nextN j).Next.1 = false := by
  cases j with
  | zero => exact h
  | succ j =>
    rw [FloatDecoder.nextN, nextN_absorbing _ (Next_absorbing it h) j, Next_absorbing it h]

/-- On the decoder built from a buffer of at least eight bytes whose first 64 bits are not
a NaN pattern, every `Next` that returns true leaves `Values()` non-NaN, and once the
finished flag is set every later `Next` returns false. Any NaN pattern decoded from a
payload (not only the sentinel of `Finish`) sets the finished flag and makes `Next` return
false. When a NaN pattern `x` is pushed after the values `v0, vs` and the records of
`v0, vs, x` fit the window fields, the decoder returns exactly `v0, vs` and then false on
every later call. -/
theorem Next_never_NaN (b : List Byte) (hb : 8 ≤ b.length)
    (hn : IsNaN (beUint (b.take 8)) = false) :
    (∃ d0, NewFloatDecoder b = .ok d0 ∧ ∀ k,
      ((d0.nextN k).Next.1 = true → IsNaN (d0.nextN k).Next.2.Values = false) ∧
      ((d0.nextN k).Next.2.finished = true →
        ∀ j, (((d0.nextN k).Next.2).nextN j).Next.1 = false)) ∧
    (∀ (it : FloatDecoder) (bits : Nat) (br1 : BitReader),
      it.br.ReadBits (toInt64 (sub64 (sub64 64 it.leading) it.trailing)) = (.ok bits, br1) →
      IsNaN (it.val ^^^ shl64 bits it.trailing) = true →
      it.nextPayload.1 = false ∧ it.nextPayload.2.finished = true ∧
        it.nextPayload.2.val = it.val) ∧
    (∀ (v0 : Nat) (vs : List Nat) (x : Nat) (ws : List Nat),
      (∀ v ∈ v0 :: vs, v < 2 ^ 64 ∧ IsNaN v = false) → x < 2 ^ 64 → IsNaN x = true →
      (∀ w ∈ ws, w < 2 ^ 64) → NewFloatEncoder.recordsFit (v0 :: vs ++ [x]) = true →
      ∃ d, NewFloatDecoder (NewFloatEncoder.pushAll (v0 :: vs ++ x :: ws)).Finish.Bytes = .ok d ∧
        (∀ k, k < (v0 :: vs).length →
          (d.nextN k).Next.1 = true ∧ (v0 :: vs)[k]? = some (d.nextN k).Next.2.Values) ∧
        ∀ m, (v0 :: vs).length ≤ m → (d.nextN m).Next.1 = false) := by
  refine ⟨?_, ?_, ?_⟩
  · obtain ⟨b1, hb1⟩ := NewFloatDecoder_ok b hb
    refine ⟨_, hb1, fun k => ⟨fun _ => ?_, fun hfin j => ?_⟩⟩
    · exact Next_not_NaN _ (nextN_not_NaN k _ hn)
    · rw [finished_absorbing _ hfin j]
  · intro it bits br1 hr hnan
    rw [nextPayload_ok it bits br1 hr, if_pos hnan]
    exact ⟨rfl, rfl, rfl⟩
  · intro v0 vs x ws hvs hx hxn hws hfit
    have hv0 := hvs v0 (List.mem_cons_self _ _)
    have hall : ∀ v ∈ vs ++ x :: ws, v < 2 ^ 64 := by
      intro v hv
      rcases List.mem_append.1 hv with h | h
      · exact (hvs v (List.mem_cons_of_mem _ h)).1
      · rcases List.mem_cons.1 h with h | h
        · rw [h]; exact hx
        · exact hws v h
    obtain ⟨k, hk⟩ := Finish_stream v0 (vs ++ x :: ws) hv0.1 hall
    have e : (vs ++ x :: ws) ++ [NaN] = vs ++ (x :: (ws ++ [NaN])) := by simp
    rw [e, records_append, FloatEncoder.records, List.append_assoc, List.append_assoc] at hk
    obtain ⟨d, hd, h1, h2, _, _⟩ := decode_until_NaN _ v0 vs x _ hv0.1 hv0.2
      (fun v hv => hvs v (List.mem_cons_of_mem _ hv)) hx hxn
      (recordsFit_cons NewFloatEncoder v0 (vs ++ [x]) hfit).2 hk
    have hd' : NewFloatDecoder (NewFloatEncoder.pushAll (v0 :: vs ++ x :: ws)).Finish.Bytes =
        .ok d := hd
    refine ⟨d, hd', h1, fun m hm => ?_⟩
    obtain ⟨j, rfl⟩ := Nat.exists_eq_add_of_le hm
    rw [nextN_add]
    exact false_forever _ h2 j

/-! ## Claims about the boolean decoder -/

/-- C19. Boolean decoder reads stay in bounds on well-formed input: for a sequence of
booleans (whose length fits the `int` counter) written to a fresh encoder and the decoder
built from its first `Bytes()` result, after every `Next` that returns true the cursor is
not negative, the byte index `cursor / 8` is below the length of the packed region and the
bit position `(8 - cursor % 8) - 1` lies in `0..7`, so `Read` does not panic. -/
theorem bool_reads_in_bounds (EncodingBitPacked : Nat) (s : List Bool)
    (hlen : s.length < 2 ^ 63) :
    ∃ d, NewBoolDecoder (boolEncoder.Bytes EncodingBitPacked (NewBoolEncoder.writeAll s)).1 =
        some d ∧
      ∀ k, (d.nextN k).Next.1 = true →
        0 ≤ (d.nextN k).Next.2.i ∧
        0 ≤ Int.tdiv (d.nextN k).Next.2.i 8 ∧
        Int.tdiv (d.nextN k).Next.2.i 8 < ((d.nextN k).Next.2.b.length : Int) ∧
        0 ≤ (8 - Int.tmod (d.nextN k).Next.2.i 8) - 1 ∧
        (8 - Int.tmod (d.nextN k).Next.2.i 8) - 1 ≤ 7 ∧
        (d.nextN k).Next.2.Read ≠ none := by
  have hw := WInv_fresh s
  refine ⟨{ b := (NewBoolEncoder.writeAll s).flush.bytes, i := -1, n := (s.length : Int) },
    ?_, ?_⟩
  · have hn : (NewBoolEncoder.writeAll s).flush.n = s.length := by rw [WInv_flush hw]
    simp only [boolEncoder.Bytes, hn]
    exact NewBoolDecoder_Bytes _ _ _ hlen
  · intro k hk
    rw [decoder_steps] at hk ⊢
    simp only [decide_eq_true_eq] at hk
    have hne : s ≠ [] := by
      intro h0
      rw [h0] at hk
      simp at hk
    obtain ⟨p1, _, _⟩ := packed_spec hw hne
    have hidx : k / 8 < (NewBoolEncoder.writeAll s).flush.bytes.length := by omega
    have h1 : Int.tdiv (k : Int) 8 = ((k / 8 : Nat) : Int) := rfl
    have h2 : Int.tmod (k : Int) 8 = ((k % 8 : Nat) : Int) := rfl
    simp only [h1, h2]
    refine ⟨by omega, by omega, by omega, by omega, by omega, ?_⟩
    rw [boolDecoder_Read_nat, List.get?_eq_getElem?, List.getElem?_eq_getElem hidx]
    simp

theorem bool_reads_in_bounds_witness :
    ∃ d, NewBoolDecoder (boolEncoder.Bytes 3
        (NewBoolEncoder.writeAll [true, false, true, true])).1 = some d ∧
      ∀ k, (d.nextN k).Next.1 = true →
        0 ≤ (d.nextN k).Next.2.i ∧
        0 ≤ Int.tdiv (d.nextN k).Next.2.i 8 ∧
        Int.tdiv (d.nextN k).Next.2.i 8 < ((d.nextN k).Next.2.b.length : Int) ∧
        0 ≤ (8 - Int.tmod (d.nextN k).Next.2.i 8) - 1 ∧
        (8 - Int.tmod (d.nextN k).Next.2.i 8) - 1 ≤ 7 ∧
        (d.nextN k).Next.2.Read ≠ none :=
  bool_reads_in_bounds 3 [true, false, true, true] (by decide)

/-! ## Short reads and decoded NaNs in the float decoder -/

theorem Next_shortRead (it : FloatDecoder) (e : ReadErr) (h : it.ShortRead e) :
    it.Next.1 = false ∧ it.Next.2.err = some e ∧ it.Next.2.finished = false := by
  obtain ⟨h0, h1, h2, hr⟩ := h
  cases hr with
  | control br1 hr1 =>
    rw [Next_err1 it h0 h1 h2 e br1 hr1]
    exact ⟨rfl, rfl, h1⟩
  | control2 br1 br2 hr1 hr2 =>
    rw [Next_err2 it h0 h1 h2 e br1 br2 hr1 hr2]
    exact ⟨rfl, rfl, h1⟩
  | leadingField br1 br2 br3 hr1 hr2 hr3 =>
    rw [Next_err3 it h0 h1 h2 e br1 br2 br3 hr1 hr2 hr3]
    exact ⟨rfl, rfl, h1⟩
  | sigbitsField br1 br2 br3 br4 bits hr1 hr2 hr3 hr4 =>
    rw [Next_err4 it h0 h1 h2 e br1 br2 br3 br4 bits hr1 hr2 hr3 hr4]
    exact ⟨rfl, rfl, h1⟩
  | payloadReuse br1 br2 br3 hr1 hr2 hr3 =>
    rw [Next_reuse it h0 h1 h2 br1 br2 hr1 hr2, nextPayload_error { it with br := br2 } e br3 hr3]
    exact ⟨rfl, rfl, h1⟩
  | payloadNew br1 br2 br3 br4 br5 bits mbits hr1 hr2 hr3 hr4 hr5 =>
    rw [Next_newWindow it h0 h1 h2 br1 br2 br3 br4 bits mbits hr1 hr2 hr3 hr4,
      nextPayload_error
        { it with leading := bits, trailing := sub64 (sub64 64 bits) mbits, br := br4 }
        e br5 hr5]
    exact ⟨rfl, rfl, h1⟩

theorem Next_decodesNaN (it : FloatDecoder) (h : it.DecodesNaN) :
    it.Next.1 = false ∧ it.Next.2.finished = true ∧ it.Next.2.err = none := by
  obtain ⟨h0, h1, h2, hr⟩ := h
  cases hr with
  | reuse br1 br2 br3 bits hr1 hr2 hr3 hn =>
    rw [Next_reuse it h0 h1 h2 br1 br2 hr1 hr2, nextPayload_ok { it with br := br2 } bits br3 hr3,
      if_pos hn]
    exact ⟨rfl, rfl, h0⟩
  | newWindow br1 br2 br3 br4 br5 lbits mbits bits hr1 hr2 hr3 hr4 hr5 hn =>
    rw [Next_newWindow it h0 h1 h2 br1 br2 br3 br4 lbits mbits hr1 hr2 hr3 hr4,
      nextPayload_ok
        { it with leading := lbits, trailing := sub64 (sub64 64 lbits) mbits, br := br4 }
        bits br5 hr5, if_pos hn]
    exact ⟨rfl, rfl, h0⟩

theorem Next_cause (it : FloatDecoder) :
    (it.Next.2.err ≠ none → it.err ≠ none ∨ ∃ e, it.ShortRead e ∧ it.Next.2.err = some e) ∧
    (it.Next.2.finished = true → it.finished = true ∨ it.DecodesNaN) := by
  by_cases hg : it.err ≠ none ∨ it.finished = true
  · have hN : it.Next = (false, it) := by
      rw [FloatDecoder.Next, if_pos hg]
    rw [hN]
    exact ⟨fun h => Or.inl h, fun h => Or.inl h⟩
  · have h0 : it.err = none := by
      by_contra hc; exact hg (Or.inl hc)
    have h1 : it.finished = false := by
      cases hf : it.finished with
      | false => rfl
      | true => exact absurd (Or.inr hf) hg
    by_cases hfirst : it.first = true
    · rw [first_Next it h0 h1 hfirst]
      exact ⟨fun h => absurd h0 h, fun h => Or.inl h⟩
    · have h2 : it.first = false := by simpa using hfirst
      have short : ∀ e, it.ReadFails e → it.ShortRead e := fun e hr => ⟨h0, h1, h2, hr⟩
      have fromShort : ∀ e, it.ReadFails e →
          (it.Next.2.err ≠ none → it.err ≠ none ∨ ∃ e, it.ShortRead e ∧ it.Next.2.err = some e) ∧
          (it.Next.2.finished = true → it.finished = true ∨ it.DecodesNaN) := by
        intro e hr
        obtain ⟨_, q2, q3⟩ := Next_shortRead it e (short e hr)
        refine ⟨fun _ => Or.inr ⟨e, short e hr, q2⟩, fun h => ?_⟩
        rw [q3] at h
        cases h
      have payload : ∀ (d : FloatDecoder), it.Next = d.nextPayload → d.err = none →
          d.finished = false → d.val = it.val →
          (∀ e br, d.br.ReadBits (toInt64 (sub64 (sub64 64 d.leading) d.trailing)) =
            (.error e, br) → it.ReadFails e) →
          (∀ bits br, d.br.ReadBits (toInt64 (sub64 (sub64 64 d.leading) d.trailing)) =
            (.ok bits, br) → IsNaN (it.val ^^^ shl64 bits d.trailing) = true → it.ReadsNaN) →
          (it.Next.2.err ≠ none → it.err ≠ none ∨ ∃ e, it.ShortRead e ∧ it.Next.2.err = some e) ∧
          (it.Next.2.finished = true → it.finished = true ∨ it.DecodesNaN) := by
        intro d hN d0 d1 dv hE hO
        rcases hr : d.br.ReadBits (toInt64 (sub64 (sub64 64 d.leading) d.trailing)) with
          ⟨res, br⟩
        cases res with
        | error e => exact fromShort e (hE e br hr)
        | ok bits =>
          rw [hN, nextPayload_ok d bits br hr]
          by_cases hn : IsNaN (d.val ^^^ shl64 bits d.trailing) = true
          · rw [if_pos hn]
            refine ⟨fun h => absurd d0 h, fun _ => Or.inr ⟨h0, h1, h2, hO bits br hr ?_⟩⟩
            rw [← dv]
            exact hn
          · rw [if_neg hn]
            refine ⟨fun h => absurd d0 h, fun h => ?_⟩
            have h' : d.finished = true := h
            rw [d1] at h'
            cases h'
      rcases hr1 : it.br.ReadBit with ⟨res1, br1⟩
      cases res1 with
      | error e => exact fromShort e (.control br1 hr1)
      | ok bit1 =>
        cases bit1 with
        | false =>
          rw [Next_ctrl0 it h0 h1 h2 br1 hr1]
          refine ⟨fun h => absurd h0 h, fun h => ?_⟩
          have h' : it.finished = true := h
          exact Or.inl h'
        | true =>
          rcases hr2 : br1.ReadBit with ⟨res2, br2⟩
          cases res2 with
          | error e => exact fromShort e (.control2 br1 br2 hr1 hr2)
          | ok bit2 =>
            cases bit2 with
            | false =>
              exact payload _ (Next_reuse it h0 h1 h2 br1 br2 hr1 hr2) h0 h1 rfl
                (fun e br hr => .payloadReuse br1 br2 br hr1 hr2 hr)
                (fun bits br hr hn => .reuse br1 br2 br bits hr1 hr2 hr hn)
            | true =>
              rcases hr3 : br2.ReadBits 5 with ⟨res3, br3⟩
              cases res3 with
              | error e => exact fromShort e (.leadingField br1 br2 br3 hr1 hr2 hr3)
              | ok bits =>
                rcases hr4 : br3.ReadBits 6 with ⟨res4, br4⟩
                cases res4 with
                | error e =>
                  exact fromShort e (.sigbitsField br1 br2 br3 br4 bits hr1 hr2 hr3 hr4)
                | ok mbits =>
                  exact payload _
                    (Next_newWindow it h0 h1 h2 br1 br2 br3 br4 bits mbits hr1 hr2 hr3 hr4)
                    h0 h1 rfl
                    (fun e br hr => .payloadNew br1 br2 br3 br4 br bits mbits hr1 hr2 hr3 hr4 hr)
                    (fun p br hr hn =>
                      .newWindow br1 br2 br3 br4 br bits mbits p hr1 hr2 hr3 hr4 hr hn)

theorem nextN_succ_last (k : Nat) (it : FloatDecoder) :
    it.nextN (k + 1) = (it.nextN k).Next.2 := by
  rw [nextN_add k 1 it]
  rfl

theorem nextN_cause (d0 : FloatDecoder) (h0 : d0.err = none) (h1 : d0.finished = false) :
    ∀ k, ((d0.nextN k).err ≠ none →
        ∃ j e, j < k ∧ (d0.nextN j).ShortRead e ∧ (d0.nextN k).err = some e) ∧
      ((d0.nextN k).finished = true → ∃ j, j < k ∧ (d0.nextN j).DecodesNaN) := by
  intro k
  induction k with
  | zero =>
    refine ⟨fun h => absurd h0 h, fun h => ?_⟩
    have h' : d0.finished = true := h
    rw [h1] at h'
    cases h'
  | succ k ih =>
    rw [nextN_succ_last]
    obtain ⟨c1, c2⟩ := Next_cause (d0.nextN k)
    refine ⟨fun h => ?_, fun h => ?_⟩
    · rcases c1 h with hprev | ⟨e, hs, he⟩
      · obtain ⟨j, e, hj, hs, he⟩ := ih.1 hprev
        refine ⟨j, e, by omega, hs, ?_⟩
        have hN : (d0.nextN k).Next = (false, d0.nextN k) := by
          rw [FloatDecoder.Next, if_pos (Or.inl hprev)]
        rw [hN]
        exact he
      · exact ⟨k, e, by omega, hs, he⟩
    · rcases c2 h with hprev | hs
      · obtain ⟨j, hj, hs⟩ := ih.2 hprev
        exact ⟨j, by omega, hs⟩
      · exact ⟨k, by omega, hs⟩

/-- A short read that occurs: on the buffer `3F F0 00 00 00 00 00 00 61` the third `Next`
reads the control bits `1 1` and the five-bit field, the six-bit field runs out of input,
and the call returns false with `Err()` set to the end-of-input error. -/
theorem shortRead_example :
    ∃ d0, NewFloatDecoder [63, 240, 0, 0, 0, 0, 0, 0, 97] = .ok d0 ∧
      (d0.nextN 2).ShortRead .EOF ∧
      (d0.nextN 2).Next.1 = false ∧ (d0.nextN 2).Next.2.Err = some .EOF := by
  refine ⟨
    { val := 0x3FF0000000000000, leading := 0, trailing := 0,
      br := { r := [97], b := 0, count := 0 },
      b := [63, 240, 0, 0, 0, 0, 0, 0, 97],
      first := true, finished := false, err := none },
    by decide!, ⟨by decide!, by decide!, by decide!, ?_⟩, by decide!, by decide!⟩
  exact .sigbitsField { r := [], b := 132, count := 6 } { r := [], b := 8, count := 5 }
    { r := [], b := 0, count := 0 } { r := [], b := 0, count := 0 } 1
    (by decide!) (by decide!) (by decide!) (by decide!)

/-- C8. Clean end versus truncation: on the decoder built from a buffer of at least eight
bytes, after any number `k` of `Next` calls, a `Next` call that returns false leaves exactly
one of "`Err()` is non-nil" and "the finished flag is set and `Err()` is nil", and a call
that returns true leaves `Err()` nil and the finished flag clear. A short read (the call
gets to its reads and the control bit, the second control bit, a window field or the
payload runs out of input with error `e`) makes `Next` return false with `Err()` equal to
`e`, so a call that returns true had no short read. Conversely `Err()` is only non-nil
when this call or an earlier one had a short read, whose error it is, and the finished
flag is only set when this call or an earlier one read a whole record that decoded to a
NaN bit pattern. -/
theorem float_decoder_false_return (b : List Byte) (hb : 8 ≤ b.length) :
    ∃ d0, NewFloatDecoder b = .ok d0 ∧ ∀ k,
      ((d0.nextN k).Next.1 = false →
        Xor' ((d0.nextN k).Next.2.Err ≠ none)
          ((d0.nextN k).Next.2.finished = true ∧ (d0.nextN k).Next.2.Err = none)) ∧
      ((d0.nextN k).Next.1 = true →
        (d0.nextN k).Next.2.Err = none ∧ (d0.nextN k).Next.2.finished = false) ∧
      (∀ e, (d0.nextN k).ShortRead e →
        (d0.nextN k).Next.1 = false ∧ (d0.nextN k).Next.2.Err = some e) ∧
      ((d0.nextN k).Next.1 = true → ∀ e, ¬ (d0.nextN k).ShortRead e) ∧
      ((d0.nextN k).Next.2.Err ≠ none →
        ∃ j e, j ≤ k ∧ (d0.nextN j).ShortRead e ∧ (d0.nextN k).Next.2.Err = some e) ∧
      ((d0.nextN k).Next.2.finished = true → ∃ j, j ≤ k ∧ (d0.nextN j).DecodesNaN) := by
  obtain ⟨b1, hb1⟩ := NewFloatDecoder_ok b hb
  refine ⟨_, hb1, fun k => ?_⟩
  obtain ⟨p1, p2, _, _⟩ := Next_post (FloatDecoder.nextN k
    { val := beUint (b.take 8), leading := 0, trailing := 0,
      br := { r := b.drop 8, b := b1, count := 0 }, b := b, first := true,
      finished := false, err := none })
  obtain ⟨c1, c2⟩ := nextN_cause
    { val := beUint (b.take 8), leading := 0, trailing := 0,
      br := { r := b.drop 8, b := b1, count := 0 }, b := b, first := true,
      finished := false, err := none } rfl rfl (k + 1)
  rw [nextN_succ_last] at c1 c2
  refine ⟨p1, p2, fun e hs => ?_, fun ht e hs => ?_, fun he => ?_, fun hf => ?_⟩
  · obtain ⟨q1, q2, _⟩ := Next_shortRead _ e hs
    exact ⟨q1, q2⟩
  · rw [(Next_shortRead _ e hs).1] at ht
    cases ht
  · obtain ⟨j, e, hj, hs, hx⟩ := c1 he
    exact ⟨j, e, by omega, hs, hx⟩
  · obtain ⟨j, hj, hs⟩ := c2 hf
    exact ⟨j, by omega, hs⟩

theorem float_decoder_false_return_witness :
    ∃ d0, NewFloatDecoder [63, 240, 0, 0, 0, 0, 0, 0, 97] = .ok d0 ∧ ∀ k,
      ((d0.nextN k).Next.1 = false →
        Xor' ((d0.nextN k).Next.2.Err ≠ none)
          ((d0.nextN k).Next.2.finished = true ∧ (d0.nextN k).Next.2.Err = none)) ∧
      ((d0.nextN k).Next.1 = true →
        (d0.nextN k).Next.2.Err = none ∧ (d0.nextN k).Next.2.finished = false) ∧
      (∀ e, (d0.nextN k).ShortRead e →
        (d0.nextN k).Next.1 = false ∧ (d0.nextN k).Next.2.Err = some e) ∧
      ((d0.nextN k).Next.1 = true → ∀ e, ¬ (d0.nextN k).ShortRead e) ∧
      ((d0.nextN k).Next.2.Err ≠ none →
        ∃ j e, j ≤ k ∧ (d0.nextN j).ShortRead e ∧ (d0.nextN k).Next.2.Err = some e) ∧
      ((d0.nextN k).Next.2.finished = true → ∃ j, j ≤ k ∧ (d0.nextN j).DecodesNaN) :=
  float_decoder_false_return [63, 240, 0, 0, 0, 0, 0, 0, 97] (by decide)

/-- C18. A NaN pushed after the first value does not always end the iteration: on
`+Inf, 0x7FF0000000100000 (a NaN), 1.0, 0x3FE0000000100000` the XOR delta of the NaN has 43
leading zeros, which `Push` writes into the five-bit field as 11, so the decoder rebuilds
`0x7FE0000000000000` instead of the NaN, returns it, and then returns
`0x3FE0000000100000` and `1.0`, the two values pushed after the NaN. -/
theorem float_values_after_NaN_returned :
    IsNaN 0x7FF0000000000000 = false ∧ IsNaN 0x7FF0000000100000 = true ∧
    Clz (0x7FF0000000100000 ^^^ 0x7FF0000000000000) = 43 ∧ lowBits 5 43 = lowBits 5 11 ∧
    (NewFloatEncoder.pushAll [0x7FF0000000000000, 0x7FF0000000100000, 0x3FF0000000000000,
        0x3FE0000000100000]).Finish.Bytes =
      [127, 240, 0, 0, 0, 0, 0, 0, 214, 15, 13, 112, 0, 0, 0, 0, 6, 0, 32, 0, 0, 0, 56, 127,
        128, 48, 0, 0, 0, 32, 0, 2] ∧
    ∃ d, NewFloatDecoder (NewFloatEncoder.pushAll [0x7FF0000000000000, 0x7FF0000000100000,
        0x3FF0000000000000, 0x3FE0000000100000]).Finish.Bytes = .ok d ∧
      d.Next.1 = true ∧ d.Next.2.Values = 0x7FF0000000000000 ∧
      (d.nextN 1).Next.1 = true ∧ (d.nextN 1).Next.2.Values = 0x7FE0000000000000 ∧
      (d.nextN 2).Next.1 = true ∧ (d.nextN 2).Next.2.Values = 0x3FE0000000100000 ∧
      (d.nextN 3).Next.1 = true ∧ (d.nextN 3).Next.2.Values = 0x3FF0000000000000 := by
  refine ⟨by decide!, by decide!, by decide!, by decide!, by decide!,
    { val := 0x7FF0000000000000, leading := 0, trailing := 0,
      br := { r := [214, 15, 13, 112, 0, 0, 0, 0, 6, 0, 32, 0, 0, 0, 56, 127, 128, 48, 0, 0,
                0, 32, 0, 2], b := 0, count := 0 },
      b := [127, 240, 0, 0, 0, 0, 0, 0, 214, 15, 13, 112, 0, 0, 0, 0, 6, 0, 32, 0, 0, 0, 56,
        127, 128, 48, 0, 0, 0, 32, 0, 2],
      first := true, finished := false, err := none },
    ?_, ?_, ?_, ?_, ?_, ?_, ?_, ?_, ?_⟩ <;> decide!

end pd1
